import Mathlib

/-!
# Match finder `M4` (package `matchfinder`, file `matchfinder/m4.go`)

A shallow embedding of `M4.Reset`, `M4.FindMatches` and `extendMatch`, followed by
the properties of the emitted record stream.

Conventions of the embedding.

* Go `byte` is `UInt8`; a `[]byte` is a `List UInt8`.
* Go `int` is `Int`.  Indices and lengths never leave the `int` range (a slice length
  is an `int`), so index arithmetic is exact.  The three expressions that involve only
  configuration fields or add one to a position (`MaxDistance*2`, `8*HashLen`,
  `End+MinLength`) are wrapped to the width of `int` on the target (`wrapInt`).
* `uint64` arithmetic is taken modulo `2^64`, a `uint32` store modulo `2^32`.
* A run-time panic (slice or index out of range, negative shift count) is `none`.
* `runtime.GOARCH` is a parameter (`GOARCH`): it selects the word-at-a-time path of
  `extendMatch` and the width of `int`.
-/

namespace Matchfinder

/-! ## Constants -/

/-- The constant `ssapBits`. -/
def ssapBits : Nat := 17

/-- The constant `ssapMask = (1 << ssapBits) - 1`. -/
def ssapMask : Nat := (1 <<< ssapBits) - 1

/-- The constant `hashMul64`. -/
def hashMul64 : Nat := 0x1E35A7BD1E35A7BD

/-! ## Target -/

/-- The values of `runtime.GOARCH` that `extendMatch` distinguishes, the remaining
targets split by the width of `int`. -/
inductive GOARCH where
  | amd64
  | i386
  | other64
  | other32
  deriving DecidableEq, Repr

/-- Width of `int` on the target. -/
def intBits : GOARCH → Nat
  | .amd64 => 64
  | .i386 => 32
  | .other64 => 64
  | .other32 => 32

/-- Two's-complement wrap of an `int` result to the width of the target. -/
def wrapInt (arch : GOARCH) (x : Int) : Int :=
  (x + 2 ^ (intBits arch - 1)) % 2 ^ intBits arch - 2 ^ (intBits arch - 1)

/-! ## Data -/

/-- Modelled from the spec: the record type `Match`, declared in a file of the package
that is not part of the sources at hand.  `Unmatched` is the number of literal bytes
before the match, `Length` the length of the match, `Distance` how far back it points;
all three are `int`. -/
structure Match where
  Unmatched : Int
  Length : Int
  Distance : Int
  deriving DecidableEq, Repr

/-- The type `absoluteMatch`: a match given by indexes into the byte stream. -/
structure absoluteMatch where
  Start : Int
  End : Int
  Match : Int
  deriving DecidableEq, Repr

/-- The zero value `absoluteMatch{}`, which marks an empty slot. -/
def absoluteMatch.zero : absoluteMatch := ⟨0, 0, 0⟩

/-- The type `M4`: configuration, the table (slot number to stored `uint32`) and the
history buffer. -/
structure M4 where
  MaxDistance : Int
  MinLength : Int
  HashLen : Int
  table : Nat → Nat
  history : List UInt8

/-- A new `M4` value with the given configuration: zeroed table, no history. -/
def M4.fresh (maxDistance minLength hashLen : Int) : M4 :=
  ⟨maxDistance, minLength, hashLen, fun _ => 0, []⟩

/-- The method `M4.Reset`. -/
def M4.Reset (q : M4) : M4 :=
  { q with table := fun _ => 0, history := [] }

/-! ## Reading the buffer -/

/-- The index expression `src[k]`; `none` when `k` is out of range. -/
def byteAt (src : List UInt8) (k : Int) : Option UInt8 :=
  if k < 0 then none else src[k.toNat]?

/-- Little-endian value of a run of bytes. -/
def leValue : List UInt8 → Nat
  | [] => 0
  | b :: bs => b.toNat + 256 * leValue bs

/-- The call `binary.LittleEndian.UintN(src[k:])` for `N = 8*w`: the slice expression
needs `0 ≤ k ≤ len(src)` and the load needs `w` bytes. -/
def uintAt (w : Nat) (src : List UInt8) (k : Int) : Option Nat :=
  if 0 ≤ k ∧ k + w ≤ src.length then some (leValue ((src.drop k.toNat).take w)) else none

/-- The functions `bits.TrailingZeros64` and `bits.TrailingZeros32`, by the width `n`. -/
def trailingZeros : Nat → Nat → Nat
  | 0, _ => 0
  | n + 1, x => if x % 2 = 1 then 0 else 1 + trailingZeros n (x / 2)

/-! ## `extendMatch` -/

/-- The final loop of `extendMatch`:
`for ; j < len(src) && src[i] == src[j]; i, j = i+1, j+1 {}` followed by `return j`.
The first argument bounds the number of iterations (`len(src) - j` suffice). -/
def extendBytes (src : List UInt8) : Nat → Int → Int → Option Int
  | 0, _, j => some j
  | n + 1, i, j =>
    if j < src.length then
      match byteAt src i, byteAt src j with
      | some a, some b => if a = b then extendBytes src n (i + 1) (j + 1) else some j
      | _, _ => none
    else some j

/-- The word loop of `extendMatch` for words of `w` bytes (`w = 8` on amd64, `w = 4` on
386): `.inl k` when the loop returns `k`, `.inr (i, j)` when it is left for the byte loop. -/
def extendWords (w : Nat) (src : List UInt8) : Nat → Int → Int → Option (Int ⊕ Int × Int)
  | 0, i, j => some (.inr (i, j))
  | n + 1, i, j =>
    if j + w < src.length then
      match uintAt w src i, uintAt w src j with
      | some iBytes, some jBytes =>
        if iBytes ≠ jBytes then
          some (.inl (j + (trailingZeros (8 * w) (iBytes ^^^ jBytes) >>> 3 : Nat)))
        else extendWords w src n (i + w) (j + w)
      | _, _ => none
    else some (.inr (i, j))

/-- The word loop followed by the byte loop. -/
def extendWordsThenBytes (w : Nat) (src : List UInt8) (i j : Int) : Option Int :=
  match extendWords w src (src.length - j).toNat i j with
  | none => none
  | some (.inl k) => some k
  | some (.inr (i1, j1)) => extendBytes src (src.length - j1).toNat i1 j1

/-- The function `extendMatch`. -/
def extendMatch (arch : GOARCH) (src : List UInt8) (i j : Int) : Option Int :=
  match arch with
  | .amd64 => extendWordsThenBytes 8 src i j
  | .i386 => extendWordsThenBytes 4 src i j
  | _ => extendBytes src (src.length - j).toNat i j

/-! ## `FindMatches` -/

/-- The three leading `if` statements of `FindMatches`: zero fields get their defaults. -/
def applyDefaults (q : M4) : M4 :=
  { q with
    MaxDistance := if q.MaxDistance = 0 then 65535 else q.MaxDistance
    MinLength := if q.MinLength = 0 then 4 else q.MinLength
    HashLen := if q.HashLen = 0 then 6 else q.HashLen }

/-- The block `if len(q.history) > q.MaxDistance*2 { ... }` that trims the history.  The
conversion `int(v)` of a slot is read as the value of `v`: it is exact on a 64-bit target,
and on a 32-bit target for `v < 2^31`, which covers every slot that holds a position of
the buffer, a length being an `int`. -/
def trim (arch : GOARCH) (q : M4) : Option M4 :=
  if (q.history.length : Int) > wrapInt arch (q.MaxDistance * 2) then
    let delta : Int := q.history.length - q.MaxDistance
    if delta < 0 ∨ delta > q.history.length then none
    else
      let copied := q.history.drop delta.toNat ++ q.history.drop (q.history.length - delta.toNat)
      some { q with
        history := copied.take q.MaxDistance.toNat
        table := fun k => (max ((q.table k : Int) - delta) 0).toNat % 2 ^ 32 }
  else some q

/-- The local state of the scanning loop: `dst`, `nextEmit`, `matches[0..2]` and the table. -/
structure Scan where
  dst : List Match
  nextEmit : Int
  m0 : absoluteMatch
  m1 : absoluteMatch
  m2 : absoluteMatch
  table : Nat → Nat

/-- The composite literal `Match{Unmatched: m.Start - nextEmit, Length: m.End - m.Start,
Distance: m.Start - m.Match}`. -/
def toMatch (nextEmit : Int) (m : absoluteMatch) : Match :=
  ⟨m.Start - nextEmit, m.End - m.Start, m.Start - m.Match⟩

/-- The block `if matches[1] != (absoluteMatch{}) { ... }`, which occurs twice: the older
pending match is cut at the start of the newer one and emitted if long enough. -/
def emitOlder (minLength : Int) (s : Scan) : Scan :=
  if s.m1 ≠ absoluteMatch.zero then
    let m1 : absoluteMatch := if s.m1.End > s.m0.Start then { s.m1 with End := s.m0.Start } else s.m1
    if m1.End - m1.Start ≥ minLength then
      { s with dst := s.dst ++ [toMatch s.nextEmit m1], nextEmit := m1.End, m1 := m1 }
    else { s with m1 := m1 }
  else s

/-- The statements that emit `matches[0]`. -/
def emitNewest (s : Scan) : Scan :=
  { s with dst := s.dst ++ [toMatch s.nextEmit s.m0], nextEmit := s.m0.End }

/-- The first `if` of the loop body: once `i` is past the newest pending match, both
pending matches are emitted and the window is cleared. -/
def flush (minLength : Int) (s : Scan) (i : Int) : Scan :=
  if s.m0 ≠ absoluteMatch.zero ∧ i ≥ s.m0.End then
    { emitNewest (emitOlder minLength s) with
      m0 := absoluteMatch.zero, m1 := absoluteMatch.zero, m2 := absoluteMatch.zero }
  else s

/-- The mask `1<<(8*q.HashLen) - 1` as a `uint64`; a negative shift count panics. -/
def hashMask (arch : GOARCH) (hashLen : Int) : Option Nat :=
  let s := wrapInt arch (8 * hashLen)
  if s < 0 then none
  else some (((if s < 64 then 2 ^ s.toNat else 0) + (2 ^ 64 - 1)) % 2 ^ 64)

/-- The table index `h & ssapMask` computed at position `i`. -/
def hashIndex (arch : GOARCH) (hashLen : Int) (src : List UInt8) (i : Int) : Option Nat :=
  match uintAt 8 src i, hashMask arch hashLen with
  | some v, some mask => some (((((v &&& mask) * hashMul64) % 2 ^ 64) >>> (64 - ssapBits)) &&& ssapMask)
  | _, _ => none

/-- The loop `for start > nextEmit && match > 0 && src[start-1] == src[match-1]` that moves
`start` and `match` down together.  The first argument bounds the number of iterations
(`start - nextEmit` suffice). -/
def extendBack (src : List UInt8) (nextEmit : Int) : Nat → Int → Int → Option (Int × Int)
  | 0, start, mtch => some (start, mtch)
  | n + 1, start, mtch =>
    if start > nextEmit ∧ mtch > 0 then
      match byteAt src (start - 1), byteAt src (mtch - 1) with
      | some a, some b =>
        if a = b then extendBack src nextEmit n (start - 1) (mtch - 1) else some (start, mtch)
      | _, _ => none
    else some (start, mtch)

/-- From the candidate test to the extension of a 4-byte match: `some none` when the
iteration is left by `continue`, `some (some m)` with the extended match otherwise. -/
def findCandidate (arch : GOARCH) (maxDistance : Int) (src : List UInt8) (s : Scan)
    (i candidate : Int) : Option (Option absoluteMatch) :=
  if candidate = 0 ∨ i - candidate > maxDistance ∨ i - candidate = s.m0.Start - s.m0.Match then
    some none
  else
    match uintAt 4 src candidate, uintAt 4 src i with
    | some a, some b =>
      if a ≠ b then some none
      else
        match extendMatch arch src (candidate + 4) (i + 4) with
        | none => none
        | some e =>
          match extendBack src s.nextEmit (i - s.nextEmit).toNat i candidate with
          | none => none
          | some (start, mtch) => some (some ⟨start, e, mtch⟩)
    | _, _ => none

/-- The end of the loop body: the new match enters the window, and with three pending
matches one is emitted and/or one is dropped (the `switch`). -/
def resolve (arch : GOARCH) (minLength : Int) (s : Scan) (new : absoluteMatch) : Scan :=
  let s : Scan := { s with m0 := new, m1 := s.m0, m2 := s.m1 }
  if s.m2 = absoluteMatch.zero then s
  else if s.m0.Start < s.m2.End then
    { s with m1 := s.m2, m2 := absoluteMatch.zero }
  else if s.m0.Start < wrapInt arch (s.m2.End + minLength) then
    { s with
      dst := s.dst ++ [toMatch s.nextEmit s.m2], nextEmit := s.m2.End
      m1 := absoluteMatch.zero, m2 := absoluteMatch.zero }
  else
    let m2 : absoluteMatch := if s.m2.End > s.m1.Start then { s.m2 with End := s.m1.Start } else s.m2
    if m2.End - m2.Start ≥ minLength then
      { s with dst := s.dst ++ [toMatch s.nextEmit m2], nextEmit := m2.End, m2 := absoluteMatch.zero }
    else { s with m2 := absoluteMatch.zero }

/-- One iteration of the scanning loop, at position `i`.  The candidate `int(q.table[h])`
is read as the stored value, as in `trim`. -/
def step (arch : GOARCH) (q : M4) (src : List UInt8) (s : Scan) (i : Int) : Option Scan :=
  let s := flush q.MinLength s i
  match hashIndex arch q.HashLen src i with
  | none => none
  | some h =>
    let candidate : Int := s.table h
    let s : Scan := { s with table := fun k => if k = h then i.toNat % 2 ^ 32 else s.table k }
    match findCandidate arch q.MaxDistance src s i candidate with
    | none => none
    | some none => some s
    | some (some new) =>
      if new.End - new.Start ≤ s.m0.End - s.m0.Start then some s
      else some (resolve arch q.MinLength s new)

/-- The loop `for i := nextEmit; i < len(src)-7; i++`, by the number of iterations left. -/
def scan (arch : GOARCH) (q : M4) (src : List UInt8) : Nat → Int → Scan → Option Scan
  | 0, _, s => some s
  | n + 1, i, s =>
    match step arch q src s i with
    | none => none
    | some s1 => scan arch q src n (i + 1) s1

/-- The statements after the loop: the pending matches and the trailing literals. -/
def finish (minLength : Int) (src : List UInt8) (s : Scan) : List Match :=
  let s := emitOlder minLength s
  let s := if s.m0 ≠ absoluteMatch.zero then emitNewest s else s
  if s.nextEmit < src.length then s.dst ++ [⟨src.length - s.nextEmit, 0, 0⟩] else s.dst

/-- The method `M4.FindMatches`: the state of `q` after the call and the returned slice. -/
def M4.FindMatches (arch : GOARCH) (q : M4) (dst : List Match) (src : List UInt8) :
    Option (M4 × List Match) :=
  match trim arch (applyDefaults q) with
  | none => none
  | some q1 =>
    let nextEmit : Int := q1.history.length
    let q2 : M4 := { q1 with history := q1.history ++ src }
    let src := q2.history
    match scan arch q2 src ((src.length : Int) - 7 - nextEmit).toNat nextEmit
        ⟨dst, nextEmit, absoluteMatch.zero, absoluteMatch.zero, absoluteMatch.zero, q2.table⟩ with
    | none => none
    | some s => some ({ q2 with table := s.table }, finish q2.MinLength src s)

/-! ## The decoder of the record stream -/

/-- Copy `n` bytes, one at a time, each from `distance` bytes back in the output
produced so far. -/
def copyBack (distance : Int) : Nat → List UInt8 → Option (List UInt8)
  | 0, out => some out
  | n + 1, out =>
    match byteAt out (out.length - distance) with
    | none => none
    | some b => copyBack distance n (out ++ [b])

/-- Decode one record after the output `out`: the next `Unmatched` bytes of `src` are
copied literally, then `Length` bytes are copied from `Distance` back. -/
def decodeRecord (src out : List UInt8) (r : Match) : Option (List UInt8) :=
  if r.Unmatched < 0 ∨ r.Length < 0 ∨ (out.length : Int) + r.Unmatched > src.length then none
  else copyBack r.Distance r.Length.toNat (out ++ (src.drop out.length).take r.Unmatched.toNat)

/-- Decode the records in order, starting from the output `out`. -/
def decodeFrom (src : List UInt8) : List Match → List UInt8 → Option (List UInt8)
  | [], out => some out
  | r :: rs, out =>
    match decodeRecord src out r with
    | none => none
    | some out1 => decodeFrom src rs out1

/-- Decode a record stream against the literals of `src`, from the empty output. -/
def decode (src : List UInt8) (rs : List Match) : Option (List UInt8) :=
  decodeFrom src rs []

/-- Total of `Unmatched + Length` over a list of records. -/
def coverage : List Match → Int
  | [] => 0
  | r :: rs => r.Unmatched + r.Length + coverage rs

/-- Length of the longest common prefix of two byte strings. -/
def commonPrefixLen : List UInt8 → List UInt8 → Nat
  | a :: as, b :: bs => if a = b then 1 + commonPrefixLen as bs else 0
  | _, _ => 0

/-! ## Emitted records and pending matches -/

/-- A pending match points at earlier bytes that really repeat: `Match` is a valid
earlier position within `maxD`, `End` is inside the buffer, and the bytes from `Match`
agree with those from `Start` for the length of the match. -/
structure Sound (src : List UInt8) (maxD : Int) (m : absoluteMatch) : Prop where
  match_nonneg : 0 ≤ m.Match
  match_lt : m.Match < m.Start
  dist_le : m.Start - m.Match ≤ maxD
  end_le : m.End ≤ src.length
  bytes : ∀ k, 0 ≤ k → k < m.End - m.Start → byteAt src (m.Match + k) = byteAt src (m.Start + k)

/-- A slot of the pending window: empty, or a sound match of at least four bytes that
starts at or after `ne`. -/
def Pend (src : List UInt8) (maxD ne : Int) (m : absoluteMatch) : Prop :=
  m = absoluteMatch.zero ∨ (Sound src maxD m ∧ ne ≤ m.Start ∧ m.Start + 4 ≤ m.End)

/-- A match record is correct at position `pos` of `src`: the literals and the match fit
in the buffer and the match copies the right bytes. -/
structure RecOK (src : List UInt8) (maxD minL pos : Int) (r : Match) : Prop where
  unmatched_nonneg : 0 ≤ r.Unmatched
  length_ge : 4 ≤ r.Length ∨ minL ≤ r.Length
  dist_pos : 0 < r.Distance
  dist_le : r.Distance ≤ maxD
  dist_le_pos : r.Distance ≤ pos + r.Unmatched
  end_le : pos + r.Unmatched + r.Length ≤ src.length
  bytes : ∀ k, 0 ≤ k → k < r.Length →
    byteAt src (pos + r.Unmatched + k - r.Distance) = byteAt src (pos + r.Unmatched + k)

/-- The records `rs` are correct match records that lead from position `a` to position `b`. -/
def Tiles (src : List UInt8) (maxD minL : Int) : Int → List Match → Int → Prop
  | a, [], b => a = b
  | a, r :: rs, b => RecOK src maxD minL a r ∧ Tiles src maxD minL (a + r.Unmatched + r.Length) rs b

/-! ## The loop invariant -/

/-- The invariant of the scanning loop at position `i`: the records appended so far are
correct and lead from `ne0` to `nextEmit`, the two pending slots hold sound matches that
start at or after `nextEmit`, and every stored table entry lies before `i`. -/
structure ScanInv (src : List UInt8) (maxD minL : Int) (dst0 : List Match) (ne0 i : Int)
    (s : Scan) : Prop where
  recs : ∃ rs, s.dst = dst0 ++ rs ∧ Tiles src maxD minL ne0 rs s.nextEmit
  ne_nonneg : 0 ≤ s.nextEmit
  ne_le : s.nextEmit ≤ i
  m0 : Pend src maxD s.nextEmit s.m0
  m1 : Pend src maxD s.nextEmit s.m1
  m2 : s.m2 = absoluteMatch.zero
  m01 : s.m0 = absoluteMatch.zero → s.m1 = absoluteMatch.zero
  table : ∀ k, s.table k ≠ 0 → (s.table k : Int) < i

/-! ## A whole call -/

/-- Every stored table entry is a position inside the history. -/
def TableOK (q : M4) : Prop :=
  ∀ k, q.table k ≠ 0 → q.table k < q.history.length

/-- The closing record for the literals after position `b` in a buffer of `len` bytes. -/
def literalTail (len b : Int) : List Match :=
  if b < len then [⟨len - b, 0, 0⟩] else []

/-! ## Sequences of calls, configurations -/

/-- One call of `FindMatches` after the other on the chunks of a stream, each call
appending to the slice the previous one returned. -/
def FindMatchesAll (arch : GOARCH) : M4 → List Match → List (List UInt8) → Option (M4 × List Match)
  | q, dst, [] => some (q, dst)
  | q, dst, c :: cs =>
    match M4.FindMatches arch q dst c with
    | none => none
    | some (q1, dst1) => FindMatchesAll arch q1 dst1 cs

/-- The states an `M4` goes through: the state after a `Reset` (whatever the
configuration) and the states after calls of `FindMatches` that returned. -/
inductive Reachable (arch : GOARCH) : M4 → Prop
  | reset (q : M4) : Reachable arch q.Reset
  | call {q q1 : M4} {dst out : List Match} (src : List UInt8) :
      Reachable arch q → M4.FindMatches arch q dst src = some (q1, out) → Reachable arch q1

/-- The default configuration: each field is zero (not set) or holds its default. -/
def DefaultConfig (q : M4) : Prop :=
  (q.MaxDistance = 0 ∨ q.MaxDistance = 65535) ∧ (q.MinLength = 0 ∨ q.MinLength = 4) ∧
    (q.HashLen = 0 ∨ q.HashLen = 6)

/-- A configuration whose arithmetic stays in range on the target: `MaxDistance*2` and
`8*HashLen` are non-negative and do not overflow `int` (zero fields stand for defaults). -/
def WellFormed (arch : GOARCH) (q : M4) : Prop :=
  0 ≤ q.MaxDistance ∧ q.MaxDistance < 2 ^ (intBits arch - 2) ∧
    0 ≤ q.HashLen ∧ q.HashLen < 2 ^ (intBits arch - 4)

/-- The configuration a call leaves behind is the one it started from with the defaults
filled in. -/
def SameConfig (q2 q : M4) : Prop :=
  q2.MaxDistance = q.MaxDistance ∧ q2.MinLength = q.MinLength ∧ q2.HashLen = q.HashLen

/-- The bytes of `abcdabcdabcd`. -/
def abcd3 : List UInt8 := [97, 98, 99, 100, 97, 98, 99, 100, 97, 98, 99, 100]

/-- The source intervals `[start, start + Length)` of the records, found by accumulating
`Unmatched + Length` from position `pos`. -/
def spans : Int → List Match → List (Int × Int)
  | _, [] => []
  | pos, r :: rs =>
    (pos + r.Unmatched, pos + r.Unmatched + r.Length) :: spans (pos + r.Unmatched + r.Length) rs

/-- The bytes `0` followed by `abcdabcdabcd` twice: the repeat is found at distance 4. -/
def zeroAbcd6 : List UInt8 := 0 :: (abcd3 ++ abcd3)

/-- No 4-byte window of `src` occurs at two different positions. -/
def NoRepeat4 (src : List UInt8) : Prop :=
  ∀ p r : Nat, p < r → r + 4 ≤ src.length → (src.drop p).take 4 ≠ (src.drop r).take 4

/-- The bytes 1 to 20, all distinct. -/
def distinct20 : List UInt8 :=
  [1, 2, 3, 4, 5, 6, 7, 8, 9, 10, 11, 12, 13, 14, 15, 16, 17, 18, 19, 20]

/-- A 23-byte input whose only repeat is the six bytes `1..6`, at positions 1 and 8. -/
def sixRepeat : List UInt8 :=
  [0, 1, 2, 3, 4, 5, 6, 7, 1, 2, 3, 4, 5, 6, 8, 9, 10, 11, 12, 13, 14, 15, 16]

/-- The slice expression `src[a:b]`, for `a ≤ b ≤ len(src)`. -/
def goSlice (src : List UInt8) (a b : Nat) : List UInt8 :=
  (src.drop a).take (b - a)

/-- A 20-byte input whose first six bytes are repeated at position 6. -/
def repeatAtZero : List UInt8 :=
  [1, 2, 3, 4, 5, 6, 1, 2, 3, 4, 5, 6, 7, 8, 9, 10, 11, 12, 13, 14]

/-- The bytes 1..8 twice, then 9..17: positions 8 and 0 carry the same bytes, and so do
positions 9 and 1. -/
def backToZero : List UInt8 :=
  [1, 2, 3, 4, 5, 6, 7, 8, 1, 2, 3, 4, 5, 6, 7, 8, 9, 10, 11, 12, 13, 14, 15, 16, 17]

/-- A state with 25 bytes of history, `MaxDistance = 8` and two occupied table slots. -/
def longHistory : M4 :=
  ⟨8, 4, 6, fun k => if k = 3 then 20 else if k = 5 then 9 else 0, zeroAbcd6⟩

/-- The state of the loop of the call `FindMatches(dst, src)` on `q` after `m` iterations,
that is at the start of iteration number `m` (the loop runs `len(src) - 7` times when
`src`, the chunk, has more than 7 bytes). -/
def loopStateAt (arch : GOARCH) (q : M4) (dst : List Match) (src : List UInt8) (m : Nat) :
    Option Scan :=
  match trim arch (applyDefaults q) with
  | none => none
  | some q1 =>
    scan arch { q1 with history := q1.history ++ src } (q1.history ++ src) m q1.history.length
      ⟨dst, q1.history.length, absoluteMatch.zero, absoluteMatch.zero, absoluteMatch.zero, q1.table⟩

/-- An occupied slot of the pending window, in a buffer of `len` bytes. -/
def Occupied (len : Int) (x : absoluteMatch) : Prop :=
  0 ≤ x.Match ∧ x.Match < x.Start ∧ 4 ≤ x.End - x.Start ∧ x.End ≤ len

/-- When both pending slots are occupied, the newer match is strictly longer. -/
def Longer (s : Scan) : Prop :=
  s.m0 ≠ absoluteMatch.zero → s.m1 ≠ absoluteMatch.zero →
    s.m1.End - s.m1.Start < s.m0.End - s.m0.Start

/-- Last write wins: after the positions `i0 ≤ p < i` have been hashed into the table
`t0`, slot `k` of `t` holds the largest of these positions with index `k`, as a `uint32`,
or what it held before when there is none. -/
def LastWrite (arch : GOARCH) (hashLen : Int) (src : List UInt8) (i0 i : Nat)
    (t0 t : Nat → Nat) : Prop :=
  ∀ k, (∃ p, i0 ≤ p ∧ p < i ∧ hashIndex arch hashLen src (p : Int) = some k ∧
          (∀ p1, i0 ≤ p1 → p1 < i → hashIndex arch hashLen src (p1 : Int) = some k → p1 ≤ p) ∧
          t k = p % 2 ^ 32) ∨
       ((∀ p, i0 ≤ p → p < i → hashIndex arch hashLen src (p : Int) ≠ some k) ∧ t k = t0 k)

/-- An input of `2^32 + 8` zero bytes. -/
def fourGiBZeros : List UInt8 := List.replicate (2 ^ 32 + 8) 0

/-! ## Reading bytes and words -/

theorem byteAt_natCast (src : List UInt8) (k : Nat) : byteAt src (k : Int) = src[k]? := by
  simp [byteAt]

theorem byteAt_of_nonneg (src : List UInt8) (k : Int) (h : 0 ≤ k) :
    byteAt src k = src[k.toNat]? := by
  simp [byteAt, not_lt.mpr h]

theorem byteAt_append_right (pre src : List UInt8) (k : Int) (h : 0 ≤ k) :
    byteAt (pre ++ src) (k + pre.length) = byteAt src k := by
  obtain ⟨n, rfl⟩ := Int.eq_ofNat_of_zero_le h
  rw [show ((n : Int) + pre.length) = ((n + pre.length : Nat) : Int) by push_cast; rfl,
    byteAt_natCast, byteAt_natCast, List.getElem?_append_right (by omega)]
  congr 1
  omega

theorem byteAt_append_left (src post : List UInt8) (k : Int) (h : k < src.length) :
    byteAt (src ++ post) k = byteAt src k := by
  by_cases h0 : k < 0
  · simp [byteAt, h0]
  · obtain ⟨n, rfl⟩ := Int.eq_ofNat_of_zero_le (not_lt.mp h0)
    rw [byteAt_natCast, byteAt_natCast, List.getElem?_append_left (by omega)]

theorem leValue_lt (l : List UInt8) : leValue l < 256 ^ l.length := by
  induction l with
  | nil => simp [leValue]
  | cons b bs ih =>
    have hb := UInt8.toNat_lt b
    simp only [leValue, List.length_cons, pow_succ]
    omega

theorem leValue_inj : ∀ (a b : List UInt8), a.length = b.length → leValue a = leValue b → a = b
  | [], [], _, _ => rfl
  | [], _ :: _, h, _ => by simp at h
  | _ :: _, [], h, _ => by simp at h
  | x :: a, y :: b, h, hv => by
    have hx := UInt8.toNat_lt x
    have hy := UInt8.toNat_lt y
    simp only [leValue] at hv
    simp only [List.length_cons, Nat.add_right_cancel_iff] at h
    have h1 : x.toNat = y.toNat := by omega
    have h2 : leValue a = leValue b := by omega
    rw [UInt8.ext h1, leValue_inj a b h h2]

theorem uintAt_natCast (w : Nat) (src : List UInt8) (k : Nat) (h : k + w ≤ src.length) :
    uintAt w src (k : Int) = some (leValue ((src.drop k).take w)) := by
  have h1 : (0 : Int) ≤ k ∧ (k : Int) + w ≤ src.length := ⟨by omega, by omega⟩
  simp [uintAt, h1]

/-! ## Trailing zeros of a difference word -/

theorem xor_low_high (x y r s : Nat) (hx : x < 256) (hy : y < 256) :
    (x + 256 * r) ^^^ (y + 256 * s) = (x ^^^ y) + 256 * (r ^^^ s) := by
  have hxy : x ^^^ y < 2 ^ 8 := Nat.xor_lt_two_pow (by simpa using hx) (by simpa using hy)
  have e : ∀ a b : Nat, a + 256 * b = 2 ^ 8 * b + a := fun a b => by omega
  apply Nat.eq_of_testBit_eq
  intro k
  rw [Nat.testBit_xor, e x r, e y s, e (x ^^^ y) (r ^^^ s),
    Nat.testBit_mul_pow_two_add _ (by simpa using hx),
    Nat.testBit_mul_pow_two_add _ (by simpa using hy),
    Nat.testBit_mul_pow_two_add _ hxy]
  by_cases hk : k < 8 <;> simp [hk, Nat.testBit_xor]

theorem trailingZeros_low : ∀ (k n c m : Nat), 0 < c → c < 2 ^ k →
    trailingZeros (k + n) (c + 2 ^ k * m) = trailingZeros k c ∧ trailingZeros k c < k
  | 0, _, c, _, h0, h1 => by simp at h1; omega
  | k + 1, n, c, m, h0, h1 => by
    have e : k + 1 + n = (k + n) + 1 := by omega
    have hp : 2 ^ (k + 1) = 2 * 2 ^ k := by rw [pow_succ]; omega
    rw [e]
    simp only [trailingZeros]
    have hmod : (c + 2 ^ (k + 1) * m) % 2 = c % 2 := by
      rw [hp, Nat.mul_assoc]; omega
    rw [hmod]
    by_cases hc : c % 2 = 1
    · simp [hc]
    · have hdiv : (c + 2 ^ (k + 1) * m) / 2 = c / 2 + 2 ^ k * m := by
        rw [hp, Nat.mul_assoc]; omega
      have ih := trailingZeros_low k n (c / 2) m (by omega) (by omega)
      rw [if_neg hc, if_neg hc, hdiv, ih.1]
      exact ⟨rfl, by omega⟩

theorem trailingZeros_shift : ∀ (k n m : Nat),
    trailingZeros (k + n) (2 ^ k * m) = k + trailingZeros n m
  | 0, n, m => by simp
  | k + 1, n, m => by
    have e : k + 1 + n = (k + n) + 1 := by omega
    have hp : 2 ^ (k + 1) * m = 2 * (2 ^ k * m) := by rw [pow_succ]; ring
    rw [e]
    simp only [trailingZeros]
    rw [hp, Nat.mul_mod_right, if_neg (by omega), Nat.mul_div_cancel_left _ (by omega),
      trailingZeros_shift k n m]
    omega

/-! ## Longest common prefix -/

theorem commonPrefixLen_le_right : ∀ (a b : List UInt8), commonPrefixLen a b ≤ b.length
  | [], _ => by simp [commonPrefixLen]
  | _ :: _, [] => by simp [commonPrefixLen]
  | x :: a, y :: b => by
    have := commonPrefixLen_le_right a b
    simp only [commonPrefixLen, List.length_cons]
    split <;> omega

theorem commonPrefixLen_le_left : ∀ (a b : List UInt8), commonPrefixLen a b ≤ a.length
  | [], _ => by simp [commonPrefixLen]
  | _ :: _, [] => by simp [commonPrefixLen]
  | x :: a, y :: b => by
    have := commonPrefixLen_le_left a b
    simp only [commonPrefixLen, List.length_cons]
    split <;> omega

theorem commonPrefixLen_get : ∀ (a b : List UInt8) (t : Nat), t < commonPrefixLen a b →
    a[t]? = b[t]?
  | [], _, t, h => by simp [commonPrefixLen] at h
  | _ :: _, [], t, h => by simp [commonPrefixLen] at h
  | x :: a, y :: b, t, h => by
    simp only [commonPrefixLen] at h
    by_cases hxy : x = y
    · rw [if_pos hxy] at h
      cases t with
      | zero => simp [hxy]
      | succ t => simpa using commonPrefixLen_get a b t (by omega)
    · simp [hxy] at h

theorem commonPrefixLen_stop : ∀ (a b : List UInt8), commonPrefixLen a b < b.length →
    commonPrefixLen a b < a.length → a[commonPrefixLen a b]? ≠ b[commonPrefixLen a b]?
  | [], _, _, h => by simp [commonPrefixLen] at h
  | _ :: _, [], h, _ => by simp [commonPrefixLen] at h
  | x :: a, y :: b, h1, h2 => by
    simp only [commonPrefixLen] at h1 h2 ⊢
    by_cases hxy : x = y
    · simp only [if_pos hxy, List.length_cons] at h1 h2 ⊢
      rw [Nat.add_comm 1]
      simpa using commonPrefixLen_stop a b (by omega) (by omega)
    · simp [hxy]

theorem commonPrefixLen_append : ∀ (a1 b1 a2 b2 : List UInt8), a1.length = b1.length →
    commonPrefixLen (a1 ++ a2) (b1 ++ b2)
      = if a1 = b1 then a1.length + commonPrefixLen a2 b2 else commonPrefixLen a1 b1
  | [], [], a2, b2, _ => by simp
  | [], _ :: _, _, _, h => by simp at h
  | _ :: _, [], _, _, h => by simp at h
  | x :: a1, y :: b1, a2, b2, h => by
    simp only [List.length_cons, Nat.add_right_cancel_iff] at h
    have ih := commonPrefixLen_append a1 b1 a2 b2 h
    simp only [List.cons_append, commonPrefixLen, List.cons.injEq, List.length_cons]
    by_cases hxy : x = y
    · by_cases hab : a1 = b1
      · simp [hxy, hab] at ih ⊢; rw [ih]; omega
      · simp [hxy, hab] at ih ⊢; rw [ih]
    · simp [hxy]

theorem commonPrefixLen_lt_of_ne : ∀ (a b : List UInt8), a.length = b.length → a ≠ b →
    commonPrefixLen a b < a.length
  | [], [], _, h => by simp at h
  | [], _ :: _, h, _ => by simp at h
  | _ :: _, [], h, _ => by simp at h
  | x :: a, y :: b, h, hne => by
    simp only [List.length_cons, Nat.add_right_cancel_iff] at h
    simp only [commonPrefixLen, List.length_cons]
    by_cases hxy : x = y
    · have : a ≠ b := fun e => hne (by rw [hxy, e])
      have := commonPrefixLen_lt_of_ne a b h this
      rw [if_pos hxy]; omega
    · rw [if_neg hxy]; omega

/-- The first differing byte of two words, read off the trailing zeros of their XOR. -/
theorem trailingZeros_xor_leValue : ∀ (a b : List UInt8), a.length = b.length →
    leValue a ≠ leValue b →
    trailingZeros (8 * a.length) (leValue a ^^^ leValue b) >>> 3 = commonPrefixLen a b
  | [], [], _, h => by simp [leValue] at h
  | [], _ :: _, h, _ => by simp at h
  | _ :: _, [], h, _ => by simp at h
  | x :: a, y :: b, h, hne => by
    simp only [List.length_cons, Nat.add_right_cancel_iff] at h
    have hx := UInt8.toNat_lt x
    have hy := UInt8.toNat_lt y
    have e8 : 8 * (a.length + 1) = 8 + 8 * a.length := by omega
    have e256 : (256 : Nat) = 2 ^ 8 := by norm_num
    simp only [leValue, List.length_cons, commonPrefixLen] at hne ⊢
    rw [xor_low_high _ _ _ _ (by simpa using hx) (by simpa using hy), e8, Nat.shiftRight_eq_div_pow]
    by_cases hxy : x = y
    · subst hxy
      have hne2 : leValue a ≠ leValue b := fun e => hne (by rw [e])
      have ih := trailingZeros_xor_leValue a b h hne2
      rw [Nat.shiftRight_eq_div_pow] at ih
      rw [if_pos rfl, Nat.xor_self, Nat.zero_add, e256, trailingZeros_shift, ← ih]
      omega
    · have hc : 0 < x.toNat ^^^ y.toNat := by
        rcases Nat.eq_zero_or_pos (x.toNat ^^^ y.toNat) with h0 | h0
        · exact absurd (UInt8.ext (Nat.xor_eq_zero.mp h0)) hxy
        · exact h0
      have hlt : x.toNat ^^^ y.toNat < 2 ^ 8 := Nat.xor_lt_two_pow hx hy
      have := trailingZeros_low 8 (8 * a.length) _ (leValue a ^^^ leValue b) hc hlt
      rw [if_neg hxy, e256, this.1]
      have := this.2
      omega

/-! ## `extendMatch` in closed form -/

theorem commonPrefixLen_nil_right (a : List UInt8) : commonPrefixLen a [] = 0 := by
  cases a <;> simp [commonPrefixLen]

theorem byteAt_isSome (src : List UInt8) (k : Int) (h0 : 0 ≤ k) (h1 : k < src.length) :
    ∃ b, byteAt src k = some b := by
  obtain ⟨n, rfl⟩ := Int.eq_ofNat_of_zero_le h0
  have hn : n < src.length := by omega
  exact ⟨src[n], by rw [byteAt_natCast, List.getElem?_eq_getElem hn]⟩

theorem extendBytes_eq (src : List UInt8) : ∀ (n i j : Nat), i ≤ j → src.length - j ≤ n →
    extendBytes src n (i : Int) (j : Int)
      = some ((j + commonPrefixLen (src.drop i) (src.drop j) : Nat) : Int)
  | 0, i, j, _, hn => by
    have hj : src.length ≤ j := by omega
    simp [extendBytes, List.drop_of_length_le hj, commonPrefixLen_nil_right]
  | n + 1, i, j, hij, hn => by
    simp only [extendBytes]
    by_cases hj : (j : Int) < src.length
    · have hj1 : j < src.length := by omega
      have hi1 : i < src.length := by omega
      rw [if_pos hj, byteAt_natCast, byteAt_natCast, List.getElem?_eq_getElem hi1,
        List.getElem?_eq_getElem hj1, List.drop_eq_getElem_cons hi1, List.drop_eq_getElem_cons hj1]
      simp only [commonPrefixLen]
      by_cases hb : src[i] = src[j]
      · have ih := extendBytes_eq src n (i + 1) (j + 1) (by omega) (by omega)
        rw [if_pos hb, if_pos hb]
        rw [show ((i : Int) + 1) = ((i + 1 : Nat) : Int) by push_cast; rfl,
          show ((j : Int) + 1) = ((j + 1 : Nat) : Int) by push_cast; rfl, ih]
        congr 2
        omega
      · rw [if_neg hb, if_neg hb]; rfl
    · have hj1 : src.length ≤ j := by omega
      rw [if_neg hj, List.drop_of_length_le hj1, commonPrefixLen_nil_right]; rfl

theorem extendWords_eq (w : Nat) (src : List UInt8) : ∀ (n i j : Nat), i ≤ j →
    (match extendWords w src n (i : Int) (j : Int) with
      | none => none
      | some (.inl k) => some k
      | some (.inr (i1, j1)) => extendBytes src ((src.length : Int) - j1).toNat i1 j1)
      = some ((j + commonPrefixLen (src.drop i) (src.drop j) : Nat) : Int)
  | 0, i, j, hij => by
    simp only [extendWords]
    exact extendBytes_eq src _ i j hij (by omega)
  | n + 1, i, j, hij => by
    simp only [extendWords]
    by_cases hj : (j : Int) + w < src.length
    · have hjw : j + w ≤ src.length := by omega
      have hiw : i + w ≤ src.length := by omega
      rw [if_pos hj, uintAt_natCast w src i hiw, uintAt_natCast w src j hjw]
      have hA : ((src.drop i).take w).length = w := by simp; omega
      have hB : ((src.drop j).take w).length = w := by simp; omega
      have hsplit : commonPrefixLen (src.drop i) (src.drop j)
          = if (src.drop i).take w = (src.drop j).take w
            then w + commonPrefixLen (src.drop (i + w)) (src.drop (j + w))
            else commonPrefixLen ((src.drop i).take w) ((src.drop j).take w) := by
        have := commonPrefixLen_append ((src.drop i).take w) ((src.drop j).take w)
          ((src.drop i).drop w) ((src.drop j).drop w) (by rw [hA, hB])
        rw [List.take_append_drop, List.take_append_drop, hA, List.drop_drop, List.drop_drop] at this
        exact this
      by_cases hv : leValue ((src.drop i).take w) = leValue ((src.drop j).take w)
      · have hAB := leValue_inj _ _ (by rw [hA, hB]) hv
        have ih := extendWords_eq w src n (i + w) (j + w) (by omega)
        simp only [ne_eq, hv, not_true_eq_false, if_false]
        rw [show ((i : Int) + w) = ((i + w : Nat) : Int) by push_cast; rfl,
          show ((j : Int) + w) = ((j + w : Nat) : Int) by push_cast; rfl, ih, hsplit, if_pos hAB]
        congr 2
        omega
      · have hAB : (src.drop i).take w ≠ (src.drop j).take w := fun e => hv (by rw [e])
        have htz := trailingZeros_xor_leValue _ _ (by rw [hA, hB]) hv
        rw [hA] at htz
        simp only [ne_eq, hv, not_false_eq_true, if_true]
        rw [htz, hsplit, if_neg hAB]
        push_cast
        rfl
    · rw [if_neg hj]
      exact extendBytes_eq src _ i j hij (by omega)

/-- On every target `extendMatch` returns `j` plus the length of the longest common
prefix of `src[i:]` and `src[j:]`. -/
theorem extendMatch_eq (arch : GOARCH) (src : List UInt8) (i j : Nat) (hij : i ≤ j) :
    extendMatch arch src (i : Int) (j : Int)
      = some ((j + commonPrefixLen (src.drop i) (src.drop j) : Nat) : Int) := by
  cases arch
  · exact extendWords_eq 8 src _ i j hij
  · exact extendWords_eq 4 src _ i j hij
  · exact extendBytes_eq src _ i j hij (by omega)
  · exact extendBytes_eq src _ i j hij (by omega)

/-- What the main loop uses of `extendMatch`: it returns some `e` with `j ≤ e ≤ len(src)`
and the bytes of `src[j:e]` repeat those `j - i` earlier. -/
theorem extendMatch_sound (arch : GOARCH) (src : List UInt8) (i j : Int) (h0 : 0 ≤ i)
    (hij : i ≤ j) (hj : j ≤ src.length) :
    ∃ e, extendMatch arch src i j = some e ∧ j ≤ e ∧ e ≤ src.length ∧
      ∀ t, j ≤ t → t < e → byteAt src (t - (j - i)) = byteAt src t := by
  obtain ⟨a, rfl⟩ := Int.eq_ofNat_of_zero_le h0
  obtain ⟨b, rfl⟩ := Int.eq_ofNat_of_zero_le (le_trans h0 hij)
  have hab : a ≤ b := by omega
  have hb : b ≤ src.length := by omega
  refine ⟨_, extendMatch_eq arch src a b hab, by omega, ?_, ?_⟩
  · have := commonPrefixLen_le_right (src.drop a) (src.drop b)
    simp only [List.length_drop] at this
    omega
  · intro t ht1 ht2
    obtain ⟨c, rfl⟩ := Int.eq_ofNat_of_zero_le (le_trans (le_trans h0 hij) ht1)
    have hc : c - b < commonPrefixLen (src.drop a) (src.drop b) := by omega
    have := commonPrefixLen_get _ _ _ hc
    rw [List.getElem?_drop, List.getElem?_drop] at this
    rw [show ((c : Int) - ((b : Int) - a)) = ((a + (c - b) : Nat) : Int) by omega,
      byteAt_natCast, byteAt_natCast, this]
    congr 1
    omega

/-! ## Backward extension -/

theorem extendBack_spec (src : List UInt8) (ne : Int) (hne : 0 ≤ ne) :
    ∀ (n : Nat) (start mtch : Int), ne ≤ start → 0 ≤ mtch → mtch ≤ start →
      start ≤ src.length →
      ∃ d : Nat, extendBack src ne n start mtch = some (start - d, mtch - d) ∧
        ne ≤ start - d ∧ 0 ≤ mtch - d ∧
        ∀ t : Int, 1 ≤ t → t ≤ d → byteAt src (mtch - t) = byteAt src (start - t)
  | 0, start, mtch, h1, h2, _, _ => ⟨0, by simp [extendBack], by simpa using h1, by simpa using h2,
      fun t ht1 ht2 => by omega⟩
  | n + 1, start, mtch, h1, h2, h3, h4 => by
    simp only [extendBack]
    by_cases hc : start > ne ∧ mtch > 0
    · obtain ⟨a, ha⟩ := byteAt_isSome src (start - 1) (by omega) (by omega)
      obtain ⟨b, hb⟩ := byteAt_isSome src (mtch - 1) (by omega) (by omega)
      rw [if_pos hc, ha, hb]
      by_cases hab : a = b
      · obtain ⟨d, hd1, hd2, hd3, hd4⟩ :=
          extendBack_spec src ne hne n (start - 1) (mtch - 1) (by omega) (by omega) (by omega)
            (by omega)
        refine ⟨d + 1, ?_, by push_cast; omega, by push_cast; omega, ?_⟩
        · simp only [if_pos hab, hd1]
          push_cast
          congr 2 <;> ring
        · intro t ht1 ht2
          by_cases ht : t = 1
          · subst ht; rw [ha, hb, hab]
          · have := hd4 (t - 1) (by omega) (by push_cast at ht2; omega)
            rw [show mtch - 1 - (t - 1) = mtch - t by ring,
              show start - 1 - (t - 1) = start - t by ring] at this
            exact this
      · exact ⟨0, by simp [hab], by simpa using h1, by simpa using h2, fun t ht1 ht2 => by omega⟩
    · exact ⟨0, by simp [hc], by simpa using h1, by simpa using h2, fun t ht1 ht2 => by omega⟩

theorem tiles_append {src : List UInt8} {maxD minL : Int} : ∀ {a b c : Int} {rs ts : List Match},
    Tiles src maxD minL a rs b → Tiles src maxD minL b ts c → Tiles src maxD minL a (rs ++ ts) c
  | a, b, c, [], ts, h1, h2 => by
    simp only [Tiles] at h1
    subst h1
    simpa using h2
  | a, b, c, r :: rs, ts, h1, h2 => by
    simp only [Tiles, List.cons_append] at h1 ⊢
    exact ⟨h1.1, tiles_append h1.2 h2⟩

theorem tiles_snoc {src : List UInt8} {maxD minL a b : Int} {rs : List Match} {r : Match}
    (h : Tiles src maxD minL a rs b) (hr : RecOK src maxD minL b r) :
    Tiles src maxD minL a (rs ++ [r]) (b + r.Unmatched + r.Length) :=
  tiles_append h ⟨hr, rfl⟩

theorem sound_ne_zero {src : List UInt8} {maxD : Int} {m : absoluteMatch} (h : Sound src maxD m) :
    m ≠ absoluteMatch.zero := by
  intro e
  have h1 := h.match_nonneg
  have h2 := h.match_lt
  rw [e] at h1 h2
  simp [absoluteMatch.zero] at h1 h2

theorem sound_clip {src : List UInt8} {maxD : Int} {m : absoluteMatch} (h : Sound src maxD m)
    (c : Int) (hc : c ≤ m.End) : Sound src maxD { m with End := c } :=
  ⟨h.match_nonneg, h.match_lt, h.dist_le, le_trans hc h.end_le,
    fun k hk0 hk1 => h.bytes k hk0 (by simp only at hk1; omega)⟩

/-- The record built from a sound match that starts at or after `ne` is correct at `ne`. -/
theorem recOK_toMatch {src : List UInt8} {maxD minL ne : Int} {m : absoluteMatch}
    (h : Sound src maxD m) (hne : ne ≤ m.Start)
    (hl : 4 ≤ m.End - m.Start ∨ minL ≤ m.End - m.Start) :
    RecOK src maxD minL ne (toMatch ne m) := by
  have h1 := h.match_nonneg
  have h2 := h.match_lt
  have h3 := h.dist_le
  have h4 := h.end_le
  refine ⟨?_, ?_, ?_, ?_, ?_, ?_, ?_⟩ <;> simp only [toMatch]
  · omega
  · exact hl
  · omega
  · omega
  · omega
  · omega
  · intro k hk0 hk1
    have := h.bytes k hk0 hk1
    rw [show ne + (m.Start - ne) + k - (m.Start - m.Match) = m.Match + k by ring,
      show ne + (m.Start - ne) + k = m.Start + k by ring]
    exact this

theorem toMatch_end (ne : Int) (m : absoluteMatch) :
    ne + (toMatch ne m).Unmatched + (toMatch ne m).Length = m.End := by
  simp only [toMatch]; ring

/-- Emitting a sound match extends a correct record list up to the end of the match. -/
theorem tiles_emit {src : List UInt8} {maxD minL a ne : Int} {rs : List Match} {m : absoluteMatch}
    (ht : Tiles src maxD minL a rs ne) (h : Sound src maxD m) (hne : ne ≤ m.Start)
    (hl : 4 ≤ m.End - m.Start ∨ minL ≤ m.End - m.Start) :
    Tiles src maxD minL a (rs ++ [toMatch ne m]) m.End := by
  have := tiles_snoc ht (recOK_toMatch h hne hl : RecOK src maxD minL ne (toMatch ne m))
  rwa [toMatch_end] at this

theorem emitOlder_spec {src : List UInt8} {maxD minL ne0 : Int} {dst0 rs : List Match} {s : Scan}
    (hd : s.dst = dst0 ++ rs) (ht : Tiles src maxD minL ne0 rs s.nextEmit)
    (h0 : Pend src maxD s.nextEmit s.m0) (h1 : Pend src maxD s.nextEmit s.m1)
    (h01 : s.m0 = absoluteMatch.zero → s.m1 = absoluteMatch.zero) :
    ∃ rs1, (emitOlder minL s).dst = dst0 ++ rs1 ∧
      Tiles src maxD minL ne0 rs1 (emitOlder minL s).nextEmit ∧
      (emitOlder minL s).m0 = s.m0 ∧ (emitOlder minL s).table = s.table ∧
      s.nextEmit ≤ (emitOlder minL s).nextEmit ∧
      Pend src maxD (emitOlder minL s).nextEmit s.m0 ∧
      ((emitOlder minL s).nextEmit = s.nextEmit ∨
        (emitOlder minL s).nextEmit ≤ s.m0.Start ∧ s.m0 ≠ absoluteMatch.zero) := by
  by_cases hz : s.m1 = absoluteMatch.zero
  · have e : emitOlder minL s = s := by simp [emitOlder, hz]
    rw [e]
    exact ⟨rs, hd, ht, rfl, rfl, le_refl _, h0, Or.inl rfl⟩
  · have hz0 : s.m0 ≠ absoluteMatch.zero := fun e => hz (h01 e)
    rcases h1 with h1 | ⟨hs1, hn1, hl1⟩
    · exact absurd h1 hz
    rcases h0 with h0 | ⟨hs0, hn0, hl0⟩
    · exact absurd h0 hz0
    by_cases hclip : s.m1.End > s.m0.Start
    · by_cases hlen : s.m0.Start - s.m1.Start ≥ minL
      · have e : emitOlder minL s = { s with
            dst := s.dst ++ [toMatch s.nextEmit { s.m1 with End := s.m0.Start }]
            nextEmit := s.m0.Start, m1 := { s.m1 with End := s.m0.Start } } := by
          simp [emitOlder, hz, hclip, hlen]
        rw [e]
        refine ⟨rs ++ [toMatch s.nextEmit { s.m1 with End := s.m0.Start }], by simp [hd], ?_,
          rfl, rfl, hn0, Or.inr ⟨hs0, le_refl _, hl0⟩, Or.inr ⟨le_refl _, hz0⟩⟩
        exact tiles_emit (m := { s.m1 with End := s.m0.Start }) ht
          (sound_clip hs1 _ (le_of_lt hclip)) hn1 (Or.inr hlen)
      · have e : emitOlder minL s = { s with m1 := { s.m1 with End := s.m0.Start } } := by
          simp [emitOlder, hz, hclip, hlen]
        rw [e]
        exact ⟨rs, hd, ht, rfl, rfl, le_refl _, Or.inr ⟨hs0, hn0, hl0⟩, Or.inl rfl⟩
    · by_cases hlen : s.m1.End - s.m1.Start ≥ minL
      · have e : emitOlder minL s = { s with
            dst := s.dst ++ [toMatch s.nextEmit s.m1], nextEmit := s.m1.End } := by
          simp [emitOlder, hz, hclip, hlen]
        rw [e]
        refine ⟨rs ++ [toMatch s.nextEmit s.m1], by simp [hd], ?_, rfl, rfl, ?_,
          Or.inr ⟨hs0, ?_, hl0⟩, Or.inr ⟨?_, hz0⟩⟩
        · exact tiles_emit ht hs1 hn1 (Or.inr hlen)
        · simp only; omega
        · simp only; omega
        · simp only; omega
      · have e : emitOlder minL s = s := by
          simp [emitOlder, hz, hclip, hlen]
        rw [e]
        exact ⟨rs, hd, ht, rfl, rfl, le_refl _, Or.inr ⟨hs0, hn0, hl0⟩, Or.inl rfl⟩

theorem flush_inv {src : List UInt8} {maxD minL ne0 i : Int} {dst0 : List Match} {s : Scan}
    (h : ScanInv src maxD minL dst0 ne0 i s) :
    ScanInv src maxD minL dst0 ne0 i (flush minL s i) := by
  by_cases hc : s.m0 ≠ absoluteMatch.zero ∧ i ≥ s.m0.End
  · obtain ⟨rs, hd, ht⟩ := h.recs
    obtain ⟨rs1, hd1, ht1, hm0, htab, hmono, hp0, _⟩ := emitOlder_spec hd ht h.m0 h.m1 h.m01
    rcases hp0 with hp0 | ⟨hs0, hn0, hl0⟩
    · exact absurd hp0 hc.1
    have e : flush minL s i = { emitNewest (emitOlder minL s) with
        m0 := absoluteMatch.zero, m1 := absoluteMatch.zero, m2 := absoluteMatch.zero } := by
      simp only [flush, if_pos hc]
    rw [e]
    have hne := h.ne_nonneg
    refine ⟨⟨rs1 ++ [toMatch (emitOlder minL s).nextEmit s.m0], ?_, ?_⟩, ?_, ?_, Or.inl rfl,
      Or.inl rfl, rfl, fun _ => rfl, ?_⟩
    · simp [emitNewest, hd1, hm0]
    · simp only [emitNewest, hm0]
      exact tiles_emit ht1 hs0 hn0 (Or.inl (by omega))
    · simp only [emitNewest, hm0]; omega
    · simp only [emitNewest, hm0]; exact hc.2
    · simp only [emitNewest, htab]; exact h.table
  · have e : flush minL s i = s := by simp only [flush, if_neg hc]
    rw [e]; exact h

theorem resolve_inv {src : List UInt8} {maxD minL ne0 i : Int} {dst0 : List Match} {s : Scan}
    (arch : GOARCH) (h : ScanInv src maxD minL dst0 ne0 (i + 1) s) (new : absoluteMatch)
    (hs : Sound src maxD new) (hn : s.nextEmit ≤ new.Start) (hl : new.Start + 4 ≤ new.End)
    (hi : new.Start ≤ i) :
    ScanInv src maxD minL dst0 ne0 (i + 1) (resolve arch minL s new) := by
  obtain ⟨rs, hd, ht⟩ := h.recs
  have hne := h.ne_nonneg
  have hnew : new ≠ absoluteMatch.zero := sound_ne_zero hs
  by_cases hz1 : s.m1 = absoluteMatch.zero
  · have e : resolve arch minL s new = { s with m0 := new, m1 := s.m0, m2 := s.m1 } := by
      simp [resolve, hz1]
    rw [e]
    exact ⟨⟨rs, hd, ht⟩, hne, h.ne_le, Or.inr ⟨hs, hn, hl⟩, h.m0, hz1, fun e => absurd e hnew, h.table⟩
  · have hz0 : s.m0 ≠ absoluteMatch.zero := fun e => hz1 (h.m01 e)
    rcases h.m1 with h1 | ⟨hs1, hn1, hl1⟩
    · exact absurd h1 hz1
    rcases h.m0 with h0 | ⟨hs0, hn0, hl0⟩
    · exact absurd h0 hz0
    by_cases hA : new.Start < s.m1.End
    · have e : resolve arch minL s new
          = { s with m0 := new, m1 := s.m1, m2 := absoluteMatch.zero } := by
        simp [resolve, hz1, hA]
      rw [e]
      exact ⟨⟨rs, hd, ht⟩, hne, h.ne_le, Or.inr ⟨hs, hn, hl⟩, Or.inr ⟨hs1, hn1, hl1⟩, rfl,
        fun e => absurd e hnew, h.table⟩
    · by_cases hB : new.Start < wrapInt arch (s.m1.End + minL)
      · have e : resolve arch minL s new = { s with
            dst := s.dst ++ [toMatch s.nextEmit s.m1], nextEmit := s.m1.End
            m0 := new, m1 := absoluteMatch.zero, m2 := absoluteMatch.zero } := by
          simp [resolve, hz1, hA, hB]
        rw [e]
        refine ⟨⟨rs ++ [toMatch s.nextEmit s.m1], by simp [hd], ?_⟩, ?_, ?_,
          Or.inr ⟨hs, ?_, hl⟩, Or.inl rfl, rfl, fun e => absurd e hnew, h.table⟩
        · exact tiles_emit ht hs1 hn1 (Or.inl (by omega))
        · simp only; omega
        · simp only; omega
        · simp only; omega
      · by_cases hclip : s.m1.End > s.m0.Start
        · by_cases hlen : s.m0.Start - s.m1.Start ≥ minL
          · have e : resolve arch minL s new = { s with
                dst := s.dst ++ [toMatch s.nextEmit { s.m1 with End := s.m0.Start }]
                nextEmit := s.m0.Start
                m0 := new, m1 := s.m0, m2 := absoluteMatch.zero } := by
              simp [resolve, hz1, hA, hB, hclip, hlen]
            rw [e]
            refine ⟨⟨rs ++ [toMatch s.nextEmit { s.m1 with End := s.m0.Start }], by simp [hd], ?_⟩,
              ?_, ?_, Or.inr ⟨hs, ?_, hl⟩, Or.inr ⟨hs0, le_refl _, hl0⟩, rfl,
              fun e => absurd e hnew, h.table⟩
            · exact tiles_emit (m := { s.m1 with End := s.m0.Start }) ht
                (sound_clip hs1 _ (le_of_lt hclip)) hn1 (Or.inr hlen)
            · simp only; omega
            · simp only; omega
            · simp only; omega
          · have e : resolve arch minL s new = { s with
                m0 := new, m1 := s.m0, m2 := absoluteMatch.zero } := by
              simp [resolve, hz1, hA, hB, hclip, hlen]
            rw [e]
            exact ⟨⟨rs, hd, ht⟩, hne, h.ne_le, Or.inr ⟨hs, hn, hl⟩, Or.inr ⟨hs0, hn0, hl0⟩, rfl,
              fun e => absurd e hnew, h.table⟩
        · by_cases hlen : s.m1.End - s.m1.Start ≥ minL
          · have e : resolve arch minL s new = { s with
                dst := s.dst ++ [toMatch s.nextEmit s.m1], nextEmit := s.m1.End
                m0 := new, m1 := s.m0, m2 := absoluteMatch.zero } := by
              simp [resolve, hz1, hA, hB, hclip, hlen]
            rw [e]
            refine ⟨⟨rs ++ [toMatch s.nextEmit s.m1], by simp [hd], ?_⟩,
              ?_, ?_, Or.inr ⟨hs, ?_, hl⟩, Or.inr ⟨hs0, ?_, hl0⟩, rfl,
              fun e => absurd e hnew, h.table⟩
            · exact tiles_emit ht hs1 hn1 (Or.inr hlen)
            · simp only; omega
            · simp only; omega
            · simp only; omega
            · simp only; omega
          · have e : resolve arch minL s new = { s with
                m0 := new, m1 := s.m0, m2 := absoluteMatch.zero } := by
              simp [resolve, hz1, hA, hB, hclip, hlen]
            rw [e]
            exact ⟨⟨rs, hd, ht⟩, hne, h.ne_le, Or.inr ⟨hs, hn, hl⟩, Or.inr ⟨hs0, hn0, hl0⟩, rfl,
              fun e => absurd e hnew, h.table⟩

theorem uintAt_eq_some (w : Nat) (src : List UInt8) (k : Int) (h0 : 0 ≤ k)
    (h1 : k + w ≤ src.length) :
    uintAt w src k = some (leValue ((src.drop k.toNat).take w)) := by
  simp [uintAt, h0, h1]

/-- Equal `w`-byte loads mean equal bytes. -/
theorem bytes_of_uintAt_eq (w : Nat) (src : List UInt8) (a b : Int) (ha : 0 ≤ a) (hb : 0 ≤ b)
    (ha1 : a + w ≤ src.length) (hb1 : b + w ≤ src.length)
    (h : uintAt w src a = uintAt w src b) :
    ∀ k : Int, 0 ≤ k → k < w → byteAt src (a + k) = byteAt src (b + k) := by
  rw [uintAt_eq_some w src a ha ha1, uintAt_eq_some w src b hb hb1, Option.some.injEq] at h
  have hA : ((src.drop a.toNat).take w).length = w := by simp; omega
  have hB : ((src.drop b.toNat).take w).length = w := by simp; omega
  have hAB := leValue_inj _ _ (by rw [hA, hB]) h
  intro k hk0 hk1
  have hget : ((src.drop a.toNat).take w)[k.toNat]? = ((src.drop b.toNat).take w)[k.toNat]? := by
    rw [hAB]
  rw [List.getElem?_take, List.getElem?_take, if_pos (by omega), if_pos (by omega),
    List.getElem?_drop, List.getElem?_drop] at hget
  rw [byteAt_of_nonneg _ _ (by omega), byteAt_of_nonneg _ _ (by omega),
    show (a + k).toNat = a.toNat + k.toNat by omega,
    show (b + k).toNat = b.toNat + k.toNat by omega]
  exact hget

theorem findCandidate_spec (arch : GOARCH) (src : List UInt8) (maxD : Int) (s : Scan)
    (i candidate : Int) (hne0 : 0 ≤ s.nextEmit) (hne : s.nextEmit ≤ i)
    (hi : i + 8 ≤ src.length) (hc0 : 0 ≤ candidate) (hc : candidate ≠ 0 → candidate < i) :
    ∃ r, findCandidate arch maxD src s i candidate = some r ∧
      ∀ new, r = some new → Sound src maxD new ∧ s.nextEmit ≤ new.Start ∧
        new.Start + 4 ≤ new.End ∧ new.Start ≤ i := by
  by_cases hrej : candidate = 0 ∨ i - candidate > maxD ∨
      i - candidate = s.m0.Start - s.m0.Match
  · exact ⟨none, by simp only [findCandidate, if_pos hrej], fun new h => by simp at h⟩
  · have hcz : candidate ≠ 0 := fun e => hrej (Or.inl e)
    have hdist : i - candidate ≤ maxD := by
      by_contra hgt
      exact hrej (Or.inr (Or.inl (by omega)))
    have hci := hc hcz
    have hA := uintAt_eq_some 4 src candidate hc0 (by push_cast; omega)
    have hB := uintAt_eq_some 4 src i (by omega) (by push_cast; omega)
    by_cases hv : leValue ((src.drop candidate.toNat).take 4) = leValue ((src.drop i.toNat).take 4)
    · have h4 := bytes_of_uintAt_eq 4 src candidate i hc0 (by omega) (by push_cast; omega)
        (by push_cast; omega) (by rw [hA, hB, hv])
      obtain ⟨e, he, hje, hel, hfw⟩ :=
        extendMatch_sound arch src (candidate + 4) (i + 4) (by omega) (by omega) (by omega)
      obtain ⟨d, hb, hb1, hb2, hb3⟩ :=
        extendBack_spec src s.nextEmit hne0 (i - s.nextEmit).toNat i candidate hne hc0
          (le_of_lt hci) (by omega)
      refine ⟨some ⟨i - d, e, candidate - d⟩, ?_, ?_⟩
      · simp only [findCandidate, if_neg hrej, hA, hB, hv, ne_eq, not_true_eq_false, if_false,
          he, hb]
      · intro new hnew
        rw [Option.some.injEq] at hnew
        subst hnew
        refine ⟨⟨hb2, by simp only; omega, by simp only; omega, hel, ?_⟩, hb1,
          by simp only; omega, by simp only; omega⟩
        intro k hk0 hk1
        simp only at hk1 ⊢
        by_cases hk : k < d
        · have := hb3 (d - k) (by omega) (by omega)
          rw [show candidate - (d - k) = candidate - d + k by ring,
            show i - (d - k) = i - d + k by ring] at this
          exact this
        · by_cases hk4 : k < d + 4
          · have := h4 (k - d) (by omega) (by push_cast; omega)
            rw [show candidate + (k - d) = candidate - d + k by ring,
              show i + (k - d) = i - d + k by ring] at this
            exact this
          · have := hfw (i - d + k) (by omega) (by omega)
            rw [show i - d + k - (i + 4 - (candidate + 4)) = candidate - d + k by ring] at this
            exact this
    · exact ⟨none, by simp only [findCandidate, if_neg hrej, hA, hB, ne_eq, hv, not_false_eq_true,
        if_true], fun new h => by simp at h⟩

theorem hashIndex_isSome (arch : GOARCH) (hashLen : Int) (src : List UInt8) (i : Int) {mask : Nat}
    (hm : hashMask arch hashLen = some mask) (h0 : 0 ≤ i) (h1 : i + 8 ≤ src.length) :
    ∃ h, hashIndex arch hashLen src i = some h := by
  have hA := uintAt_eq_some 8 src i h0 (by push_cast; omega)
  refine ⟨((((leValue ((src.drop i.toNat).take 8) &&& mask) * hashMul64) % 2 ^ 64)
    >>> (64 - ssapBits)) &&& ssapMask, ?_⟩
  simp only [hashIndex, hA, hm]

theorem hashIndex_none (arch : GOARCH) (hashLen : Int) (src : List UInt8) (i : Int)
    (hm : hashMask arch hashLen = none) : hashIndex arch hashLen src i = none := by
  simp only [hashIndex, hm]
  split <;> simp_all

/-- One iteration keeps the invariant and does not panic. -/
theorem step_inv (arch : GOARCH) (q : M4) {src : List UInt8} {dst0 : List Match} {ne0 i : Int}
    {s : Scan} {mask : Nat} (hm : hashMask arch q.HashLen = some mask)
    (h : ScanInv src q.MaxDistance q.MinLength dst0 ne0 i s) (hi : i + 8 ≤ src.length) :
    ∃ s1, step arch q src s i = some s1 ∧
      ScanInv src q.MaxDistance q.MinLength dst0 ne0 (i + 1) s1 := by
  have hf := flush_inv h
  have hne0 := hf.ne_nonneg
  have hne := hf.ne_le
  obtain ⟨hx, hhx⟩ := hashIndex_isSome arch q.HashLen src i hm (by omega) hi
  have hst : ScanInv src q.MaxDistance q.MinLength dst0 ne0 (i + 1)
      { flush q.MinLength s i with
        table := fun k => if k = hx then i.toNat % 2 ^ 32 else (flush q.MinLength s i).table k } := by
    refine ⟨hf.recs, hne0, by simp only; omega, hf.m0, hf.m1, hf.m2, hf.m01, ?_⟩
    intro k hk
    simp only at hk ⊢
    by_cases hkx : k = hx
    · simp only [if_pos hkx]
      have := Nat.mod_le i.toNat (2 ^ 32)
      omega
    · simp only [if_neg hkx] at hk ⊢
      have := hf.table k hk
      omega
  obtain ⟨r, hr, hrspec⟩ := findCandidate_spec arch src q.MaxDistance
    { flush q.MinLength s i with
      table := fun k => if k = hx then i.toNat % 2 ^ 32 else (flush q.MinLength s i).table k }
    i ((flush q.MinLength s i).table hx : Int) hne0 hne hi (by omega)
    (fun hcz => hf.table hx (by simpa using hcz))
  cases r with
  | none => exact ⟨_, by simp only [step, hhx, hr], hst⟩
  | some new =>
    obtain ⟨hs, hn, hl, hle⟩ := hrspec new rfl
    by_cases hdom : new.End - new.Start ≤
        (flush q.MinLength s i).m0.End - (flush q.MinLength s i).m0.Start
    · exact ⟨_, by simp only [step, hhx, hr, if_pos hdom], hst⟩
    · exact ⟨_, by simp only [step, hhx, hr, if_neg hdom], resolve_inv arch hst new hs hn hl hle⟩

theorem step_none (arch : GOARCH) (q : M4) (src : List UInt8) (s : Scan) (i : Int)
    (hm : hashMask arch q.HashLen = none) : step arch q src s i = none := by
  simp only [step, hashIndex_none arch q.HashLen src i hm]

/-- The whole loop keeps the invariant and does not panic. -/
theorem scan_inv (arch : GOARCH) (q : M4) {src : List UInt8} {dst0 : List Match} {ne0 : Int}
    {mask : Nat} (hm : hashMask arch q.HashLen = some mask) :
    ∀ (n : Nat) (i : Int) (s : Scan), ScanInv src q.MaxDistance q.MinLength dst0 ne0 i s →
      i + n + 7 ≤ src.length →
      ∃ s1, scan arch q src n i s = some s1 ∧
        ScanInv src q.MaxDistance q.MinLength dst0 ne0 (i + n) s1
  | 0, i, s, h, _ => ⟨s, rfl, by simpa using h⟩
  | n + 1, i, s, h, hn => by
    obtain ⟨s1, hs1, hinv1⟩ := step_inv arch q hm h (by push_cast at hn; omega)
    obtain ⟨s2, hs2, hinv2⟩ := scan_inv arch q hm n (i + 1) s1 hinv1 (by push_cast at hn; omega)
    refine ⟨s2, by simp only [scan, hs1, hs2], ?_⟩
    rw [show i + ((n + 1 : Nat) : Int) = i + 1 + n by push_cast; ring]
    exact hinv2

theorem trim_spec (arch : GOARCH) {q q1 : M4} (h : trim arch q = some q1) (hT : TableOK q) :
    TableOK q1 ∧ (∃ cut, q.history = cut ++ q1.history) ∧ q1.MaxDistance = q.MaxDistance ∧
      q1.MinLength = q.MinLength ∧ q1.HashLen = q.HashLen := by
  unfold trim at h
  by_cases hc : (q.history.length : Int) > wrapInt arch (q.MaxDistance * 2)
  · rw [if_pos hc] at h
    by_cases hp : (q.history.length : Int) - q.MaxDistance < 0 ∨
        (q.history.length : Int) - q.MaxDistance > q.history.length
    · simp only [if_pos hp] at h
      exact absurd h (by simp)
    · simp only [if_neg hp, Option.some.injEq] at h
      subst h
      have hd : ((q.history.length : Int) - q.MaxDistance).toNat ≤ q.history.length := by omega
      have hlen : (List.drop ((q.history.length : Int) - q.MaxDistance).toNat q.history).length
          = q.MaxDistance.toNat := by
        rw [List.length_drop]; omega
      have hh : List.take q.MaxDistance.toNat
          (List.drop ((q.history.length : Int) - q.MaxDistance).toNat q.history ++
            List.drop (q.history.length - ((q.history.length : Int) - q.MaxDistance).toNat) q.history)
          = List.drop ((q.history.length : Int) - q.MaxDistance).toNat q.history := by
        rw [← hlen, List.take_left']
        rfl
      refine ⟨?_, ⟨List.take ((q.history.length : Int) - q.MaxDistance).toNat q.history, ?_⟩,
        rfl, rfl, rfl⟩
      · intro k hk
        simp only at hk ⊢
        rw [hh, List.length_drop]
        have h1 := hT k
        have h2 := Nat.mod_le (max ((q.table k : Int) - (↑q.history.length - q.MaxDistance)) 0).toNat
          (2 ^ 32)
        by_cases hz : q.table k = 0
        · rw [hz] at hk
          have : (max (((0 : Nat) : Int) - (↑q.history.length - q.MaxDistance)) 0).toNat = 0 := by
            omega
          rw [this] at hk
          simp at hk
        · have h3 := h1 hz
          omega
      · simp only
        rw [hh, List.take_append_drop]
  · rw [if_neg hc, Option.some.injEq] at h
    subst h
    exact ⟨hT, ⟨[], rfl⟩, rfl, rfl, rfl⟩

/-- The statements after the loop complete the record list up to the end of the buffer. -/
theorem finish_spec {src : List UInt8} {maxD minL ne0 i : Int} {dst0 : List Match} {s : Scan}
    (h : ScanInv src maxD minL dst0 ne0 i s) (hi : i ≤ src.length) :
    ∃ rs b, Tiles src maxD minL ne0 rs b ∧ b ≤ src.length ∧ s.nextEmit ≤ b ∧
      finish minL src s = dst0 ++ rs ++ literalTail src.length b := by
  obtain ⟨rs, hd, ht⟩ := h.recs
  obtain ⟨rs1, hd1, ht1, hm0, _, hmono, hp0, hor⟩ := emitOlder_spec hd ht h.m0 h.m1 h.m01
  have hle := h.ne_le
  by_cases hz : s.m0 = absoluteMatch.zero
  · refine ⟨rs1, (emitOlder minL s).nextEmit, ht1, ?_, hmono, ?_⟩
    · rcases hor with hor | hor
      · omega
      · exact absurd hz hor.2
    · simp only [finish, hm0, hz, ne_eq, not_true_eq_false, if_false, literalTail, hd1]
      split <;> simp
  · rcases hp0 with hp0 | ⟨hs0, hn0, hl0⟩
    · exact absurd hp0 hz
    refine ⟨rs1 ++ [toMatch (emitOlder minL s).nextEmit s.m0], s.m0.End,
      tiles_emit ht1 hs0 hn0 (Or.inl (by omega)), hs0.end_le, by omega, ?_⟩
    simp only [finish, hm0, hz, ne_eq, not_false_eq_true, if_true, literalTail, emitNewest, hd1]
    split <;> simp

/-- A call that gets past the trim (and, when the loop runs, past the mask) returns; the
appended records are correct match records from the start of the new bytes, closed by
the record for the trailing literals. -/
theorem findMatches_spec (arch : GOARCH) (q : M4) (dst : List Match) (src : List UInt8)
    (hT : TableOK q) {q1 : M4} (ht : trim arch (applyDefaults q) = some q1)
    (hm : src.length ≤ 7 ∨ ∃ mask, hashMask arch q1.HashLen = some mask) :
    ∃ q2 rs b,
      M4.FindMatches arch q dst src
        = some (q2, dst ++ rs ++ literalTail (q1.history ++ src).length b) ∧
      Tiles (q1.history ++ src) q1.MaxDistance q1.MinLength q1.history.length rs b ∧
      b ≤ (q1.history ++ src).length ∧
      q2.history = q1.history ++ src ∧ q2.MaxDistance = q1.MaxDistance ∧
      q2.MinLength = q1.MinLength ∧ q2.HashLen = q1.HashLen ∧ TableOK q2 := by
  have hT0 : TableOK (applyDefaults q) := hT
  obtain ⟨hT1, _, _, _, _⟩ := trim_spec arch ht hT0
  have hinit : ScanInv (q1.history ++ src) q1.MaxDistance q1.MinLength dst q1.history.length
      q1.history.length
      ⟨dst, q1.history.length, absoluteMatch.zero, absoluteMatch.zero, absoluteMatch.zero,
        q1.table⟩ :=
    ⟨⟨[], by simp, rfl⟩, by simp, le_refl _, Or.inl rfl, Or.inl rfl, rfl, fun _ => rfl,
      fun k hk => by exact_mod_cast hT1 k hk⟩
  have hscan : ∃ s1 i1, scan arch { q1 with history := q1.history ++ src } (q1.history ++ src)
      (((q1.history ++ src).length : Int) - 7 - q1.history.length).toNat q1.history.length
      ⟨dst, q1.history.length, absoluteMatch.zero, absoluteMatch.zero, absoluteMatch.zero,
        q1.table⟩ = some s1 ∧
      ScanInv (q1.history ++ src) q1.MaxDistance q1.MinLength dst q1.history.length i1 s1 ∧
      i1 ≤ (q1.history ++ src).length := by
    by_cases hn : src.length ≤ 7
    · have e : (((q1.history ++ src).length : Int) - 7 - q1.history.length).toNat = 0 := by
        rw [List.length_append]; push_cast; omega
      rw [e]
      exact ⟨_, _, rfl, hinit, by rw [List.length_append]; push_cast; omega⟩
    · rcases hm with hm | ⟨mask, hmask⟩
      · exact absurd hm hn
      obtain ⟨s1, hs1, hinv1⟩ := scan_inv arch { q1 with history := q1.history ++ src } hmask
        (((q1.history ++ src).length : Int) - 7 - q1.history.length).toNat q1.history.length _
        hinit (by rw [List.length_append]; push_cast; omega)
      exact ⟨s1, _, hs1, hinv1, by rw [List.length_append]; push_cast; omega⟩
  obtain ⟨s1, i1, hs1, hinv1, hi1⟩ := hscan
  obtain ⟨rs, b, htiles, hb, _, hfin⟩ := finish_spec hinv1 hi1
  refine ⟨{ q1 with history := q1.history ++ src, table := s1.table }, rs, b, ?_, htiles, hb,
    rfl, rfl, rfl, rfl, ?_⟩
  · simp only [M4.FindMatches, ht, hs1, hfin]
  · intro k hk
    have := hinv1.table k hk
    simp only at hk ⊢
    omega

/-- A call that returns got past the trim and, when the loop ran, past the mask. -/
theorem findMatches_some (arch : GOARCH) (q : M4) (dst : List Match) (src : List UInt8)
    {r : M4 × List Match} (h : M4.FindMatches arch q dst src = some r) :
    ∃ q1, trim arch (applyDefaults q) = some q1 ∧
      (src.length ≤ 7 ∨ ∃ mask, hashMask arch q1.HashLen = some mask) := by
  unfold M4.FindMatches at h
  cases ht : trim arch (applyDefaults q) with
  | none => rw [ht] at h; simp at h
  | some q1 =>
    refine ⟨q1, rfl, ?_⟩
    by_cases hn : src.length ≤ 7
    · exact Or.inl hn
    · right
      cases hmask : hashMask arch q1.HashLen with
      | some mask => exact ⟨mask, rfl⟩
      | none =>
        exfalso
        rw [ht] at h
        obtain ⟨n, hn1⟩ : ∃ n, (((q1.history ++ src).length : Int) - 7 - q1.history.length).toNat
            = n + 1 := by
          refine ⟨src.length - 8, ?_⟩
          rw [List.length_append]; push_cast; omega
        simp only [hn1, scan, step_none arch { q1 with history := q1.history ++ src } _ _ _ hmask]
          at h
        simp at h

theorem wrapInt_eq (arch : GOARCH) (x : Int) (h0 : 0 ≤ x) (h1 : x < 2 ^ (intBits arch - 1)) :
    wrapInt arch x = x := by
  unfold wrapInt
  cases arch <;> simp only [intBits] at h1 ⊢ <;> norm_num at h1 ⊢ <;> omega

theorem defaultConfig_wellFormed (arch : GOARCH) {q : M4} (h : DefaultConfig q) :
    WellFormed arch q ∧ 0 ≤ q.MinLength := by
  obtain ⟨h1, h2, h3⟩ := h
  refine ⟨⟨?_, ?_, ?_, ?_⟩, ?_⟩
  · rcases h1 with h1 | h1 <;> omega
  · rcases h1 with h1 | h1 <;> rw [h1] <;> cases arch <;> simp only [intBits] <;> norm_num
  · rcases h3 with h3 | h3 <;> omega
  · rcases h3 with h3 | h3 <;> rw [h3] <;> cases arch <;> simp only [intBits] <;> norm_num
  · rcases h2 with h2 | h2 <;> omega

theorem wellFormed_defaults {arch : GOARCH} {q : M4} (h : WellFormed arch q) :
    0 < (applyDefaults q).MaxDistance ∧ (applyDefaults q).MaxDistance < 2 ^ (intBits arch - 2) ∧
      0 < (applyDefaults q).HashLen ∧ (applyDefaults q).HashLen < 2 ^ (intBits arch - 4) := by
  obtain ⟨h1, h2, h3, h4⟩ := h
  simp only [applyDefaults]
  refine ⟨?_, ?_, ?_, ?_⟩
  · split <;> omega
  · split
    · cases arch <;> simp only [intBits] <;> norm_num
    · exact h2
  · split <;> omega
  · split
    · cases arch <;> simp only [intBits] <;> norm_num
    · exact h4

/-- With a well-formed configuration neither the trim nor the mask panics. -/
theorem wellFormed_no_panic {arch : GOARCH} {q : M4} (h : WellFormed arch q) :
    (∃ q1, trim arch (applyDefaults q) = some q1) ∧
      ∃ mask, hashMask arch (applyDefaults q).HashLen = some mask := by
  obtain ⟨h1, h2, h3, h4⟩ := wellFormed_defaults h
  constructor
  · unfold trim
    have hw : wrapInt arch ((applyDefaults q).MaxDistance * 2) = (applyDefaults q).MaxDistance * 2 := by
      apply wrapInt_eq
      · omega
      · cases arch <;> simp only [intBits] at h2 ⊢ <;> norm_num at h2 ⊢ <;> omega
    rw [hw]
    by_cases hc : ((applyDefaults q).history.length : Int) > (applyDefaults q).MaxDistance * 2
    · rw [if_pos hc]
      have hp : ¬ (((applyDefaults q).history.length : Int) - (applyDefaults q).MaxDistance < 0 ∨
          ((applyDefaults q).history.length : Int) - (applyDefaults q).MaxDistance
            > (applyDefaults q).history.length) := by omega
      simp only [if_neg hp]
      exact ⟨_, rfl⟩
    · rw [if_neg hc]
      exact ⟨_, rfl⟩
  · unfold hashMask
    have hw : wrapInt arch (8 * (applyDefaults q).HashLen) = 8 * (applyDefaults q).HashLen := by
      apply wrapInt_eq
      · omega
      · cases arch <;> simp only [intBits] at h4 ⊢ <;> norm_num at h4 ⊢ <;> omega
    simp only [hw]
    rw [if_neg (by omega)]
    exact ⟨_, rfl⟩

/-- What a returning call does, in terms of the state before it: the history loses a
prefix `cut` and gains `src`; the appended records are correct match records over the
new history from the start of `src`, closed by the record for the trailing literals. -/
theorem findMatches_call (arch : GOARCH) (q : M4) (dst : List Match) (src : List UInt8)
    (hT : TableOK q) {r : M4 × List Match} (h : M4.FindMatches arch q dst src = some r) :
    ∃ rs b cut h1, q.history = cut ++ h1 ∧ r.1.history = h1 ++ src ∧
      r.2 = dst ++ rs ++ literalTail (h1 ++ src).length b ∧
      Tiles (h1 ++ src) (applyDefaults q).MaxDistance (applyDefaults q).MinLength h1.length rs b ∧
      b ≤ (h1 ++ src).length ∧ SameConfig r.1 (applyDefaults q) ∧ TableOK r.1 := by
  obtain ⟨q1, ht, hm⟩ := findMatches_some arch q dst src h
  obtain ⟨q2, rs, b, hfm, htiles, hb, hh, hc1, hc2, hc3, hT2⟩ :=
    findMatches_spec arch q dst src hT ht hm
  obtain ⟨_, ⟨cut, hcut⟩, hd1, hd2, hd3⟩ := trim_spec arch ht (show TableOK (applyDefaults q) from hT)
  rw [hfm, Option.some.injEq] at h
  subst h
  rw [hd1, hd2] at htiles
  exact ⟨rs, b, cut, q1.history, hcut, hh, rfl, htiles, hb,
    ⟨hc1.trans hd1, hc2.trans hd2, hc3.trans hd3⟩, hT2⟩

/-- With a well-formed configuration and a sound table the call returns. -/
theorem findMatches_returns (arch : GOARCH) (q : M4) (dst : List Match) (src : List UInt8)
    (hT : TableOK q) (hw : WellFormed arch q) :
    ∃ r, M4.FindMatches arch q dst src = some r := by
  obtain ⟨⟨q1, ht⟩, ⟨mask, hmask⟩⟩ := wellFormed_no_panic hw
  obtain ⟨_, _, _, _, hd3⟩ := trim_spec arch ht (show TableOK (applyDefaults q) from hT)
  obtain ⟨q2, rs, b, hfm, _⟩ :=
    findMatches_spec arch q dst src hT ht (Or.inr ⟨mask, by rw [hd3]; exact hmask⟩)
  exact ⟨_, hfm⟩

theorem reachable_tableOK {arch : GOARCH} {q : M4} (h : Reachable arch q) : TableOK q := by
  induction h with
  | reset q => intro k hk; simp [M4.Reset] at hk
  | call src _ hcall ih =>
    obtain ⟨_, _, _, _, _, _, _, _, _, _, hT⟩ := findMatches_call arch _ _ src ih hcall
    exact hT

theorem sameConfig_wellFormed {arch : GOARCH} {q2 q : M4} (h : SameConfig q2 (applyDefaults q))
    (hw : WellFormed arch q) : WellFormed arch q2 := by
  obtain ⟨h1, h2, h3, h4⟩ := wellFormed_defaults hw
  obtain ⟨e1, _, e3⟩ := h
  exact ⟨by rw [e1]; omega, by rw [e1]; exact h2, by rw [e3]; omega, by rw [e3]; exact h4⟩

/-! ## Decoding correct records -/

theorem copyBack_spec (src : List UInt8) (D : Int) : ∀ (n p : Nat), p + n ≤ src.length → 0 < D →
    D ≤ p → (∀ k : Int, 0 ≤ k → k < n → byteAt src (p + k - D) = byteAt src (p + k)) →
    copyBack D n (src.take p) = some (src.take (p + n))
  | 0, p, _, _, _, _ => by simp [copyBack]
  | n + 1, p, hp, hD0, hD, hb => by
    have hp1 : p < src.length := by omega
    have hlen : (src.take p).length = p := by rw [List.length_take]; omega
    have h0 := hb 0 (le_refl _) (by push_cast; omega)
    rw [add_zero] at h0
    have hread : byteAt (src.take p) (((src.take p).length : Int) - D) = some src[p] := by
      rw [hlen, byteAt_of_nonneg _ _ (by omega), List.getElem?_take, if_pos (by omega),
        ← byteAt_of_nonneg _ _ (by omega), h0, byteAt_natCast, List.getElem?_eq_getElem hp1]
    have hsucc : src.take p ++ [src[p]] = src.take (p + 1) := by
      rw [List.take_succ, List.getElem?_eq_getElem hp1]; rfl
    simp only [copyBack, hread]
    rw [hsucc, copyBack_spec src D n (p + 1) (by omega) hD0 (by push_cast; omega)]
    · congr 2; omega
    · intro k hk0 hk1
      have := hb (k + 1) (by omega) (by push_cast; omega)
      rw [show ((p + 1 : Nat) : Int) + k - D = p + (k + 1) - D by push_cast; ring,
        show ((p + 1 : Nat) : Int) + k = p + (k + 1) by push_cast; ring]
      exact this

theorem decodeRecord_spec {src : List UInt8} {maxD minL : Int} (p : Nat) {r : Match}
    (hr : RecOK src maxD minL p r) (hL : 0 ≤ r.Length) :
    decodeRecord src (src.take p) r = some (src.take ((p : Int) + r.Unmatched + r.Length).toNat) := by
  have hU := hr.unmatched_nonneg
  have hend := hr.end_le
  have hlen : (src.take p).length = p := by rw [List.length_take]; omega
  have hc : ¬ (r.Unmatched < 0 ∨ r.Length < 0 ∨
      ((src.take p).length : Int) + r.Unmatched > src.length) := by
    rw [hlen]; omega
  have hlit : src.take p ++ (src.drop (src.take p).length).take r.Unmatched.toNat
      = src.take (p + r.Unmatched.toNat) := by
    rw [hlen, List.take_add]
  simp only [decodeRecord, if_neg hc]
  rw [hlit, copyBack_spec src r.Distance r.Length.toNat (p + r.Unmatched.toNat) (by omega)
    hr.dist_pos (by have := hr.dist_le_pos; push_cast; omega)]
  · congr 2; omega
  · intro k hk0 hk1
    have := hr.bytes k hk0 (by omega)
    rw [show ((p + r.Unmatched.toNat : Nat) : Int) = p + r.Unmatched by push_cast; omega]
    exact this

theorem decodeFrom_tiles {src : List UInt8} {maxD minL : Int} (hmin : 0 ≤ minL) :
    ∀ (rs : List Match) (a : Nat) (b : Int), Tiles src maxD minL a rs b → a ≤ src.length →
      decodeFrom src rs (src.take a) = some (src.take b.toNat) ∧ (a : Int) ≤ b ∧ b ≤ src.length
  | [], a, b, h, ha => by
    simp only [Tiles] at h
    subst h
    exact ⟨by simp [decodeFrom], le_refl _, by omega⟩
  | r :: rs, a, b, h, _ => by
    obtain ⟨hr, hrest⟩ := h
    have hU := hr.unmatched_nonneg
    have hL : 0 ≤ r.Length := by rcases hr.length_ge with h | h <;> omega
    have hend := hr.end_le
    have hcast : ((((a : Int) + r.Unmatched + r.Length).toNat : Nat) : Int)
        = a + r.Unmatched + r.Length := by omega
    rw [← hcast] at hrest
    obtain ⟨h1, h2, h3⟩ := decodeFrom_tiles hmin rs _ b hrest (by omega)
    exact ⟨by simp only [decodeFrom, decodeRecord_spec a hr hL, h1], by omega, h3⟩

theorem decodeFrom_append (src : List UInt8) : ∀ (xs ys : List Match) (out mid : List UInt8),
    decodeFrom src xs out = some mid → decodeFrom src (xs ++ ys) out = decodeFrom src ys mid
  | [], ys, out, mid, h => by
    simp only [decodeFrom, Option.some.injEq] at h
    subst h; rfl
  | x :: xs, ys, out, mid, h => by
    simp only [decodeFrom, List.cons_append] at h ⊢
    cases hx : decodeRecord src out x with
    | none => rw [hx] at h; simp at h
    | some o1 =>
      rw [hx] at h
      simp only at h ⊢
      exact decodeFrom_append src xs ys o1 mid h

theorem decodeFrom_literalTail (src : List UInt8) (p e : Nat) (len b : Int) (hpe : p ≤ e)
    (he : e ≤ src.length) (h : len - b = (e : Int) - p) :
    decodeFrom src (literalTail len b) (src.take p) = some (src.take e) := by
  have hlen : (src.take p).length = p := by rw [List.length_take]; omega
  by_cases hb : b < len
  · have hc : ¬ (len - b < 0 ∨ (0 : Int) < 0 ∨ ((src.take p).length : Int) + (len - b) > src.length) := by
      rw [hlen]; omega
    simp only [literalTail, if_pos hb, decodeFrom, decodeRecord, if_neg hc, Int.toNat_zero, copyBack]
    rw [hlen, ← List.take_add]
    congr 2
    omega
  · have : e = p := by omega
    subst this
    simp only [literalTail, if_neg hb, decodeFrom]

theorem recOK_shift {src : List UInt8} {maxD minL pos : Int} {r : Match}
    (h : RecOK src maxD minL pos r) (pre post : List UInt8) :
    RecOK (pre ++ src ++ post) maxD minL (pos + pre.length) r := by
  have h1 := h.unmatched_nonneg
  have h3 := h.dist_pos
  have h5 := h.dist_le_pos
  have h6 := h.end_le
  refine ⟨h1, h.length_ge, h3, h.dist_le, by omega, ?_, ?_⟩
  · simp only [List.length_append]; push_cast; omega
  · intro k hk0 hk1
    have := h.bytes k hk0 hk1
    rw [List.append_assoc,
      show pos + pre.length + r.Unmatched + k - r.Distance
        = (pos + r.Unmatched + k - r.Distance) + pre.length by ring,
      show pos + pre.length + r.Unmatched + k = (pos + r.Unmatched + k) + pre.length by ring,
      byteAt_append_right _ _ _ (by omega), byteAt_append_right _ _ _ (by omega),
      byteAt_append_left _ _ _ (by omega), byteAt_append_left _ _ _ (by omega)]
    exact this

theorem tiles_shift {src : List UInt8} {maxD minL : Int} (pre post : List UInt8) :
    ∀ {rs : List Match} {a b : Int}, Tiles src maxD minL a rs b →
      Tiles (pre ++ src ++ post) maxD minL (a + pre.length) rs (b + pre.length)
  | [], a, b, h => by
    simp only [Tiles] at h ⊢
    omega
  | r :: rs, a, b, h => by
    obtain ⟨hr, hrest⟩ := h
    refine ⟨recOK_shift hr pre post, ?_⟩
    have := tiles_shift pre post hrest
    rw [show a + r.Unmatched + r.Length + pre.length = a + pre.length + r.Unmatched + r.Length
      by ring] at this
    exact this

/-- The records of one call decode the new bytes: seen inside any stream that holds the
history, decoding them after the old history gives the history with the chunk added. -/
theorem call_decodes {maxD minL : Int} (hmin : 0 ≤ minL) (h1 c pre post : List UInt8)
    {rs : List Match} {b : Int} (ht : Tiles (h1 ++ c) maxD minL h1.length rs b)
    (hb : b ≤ (h1 ++ c).length) :
    decodeFrom (pre ++ (h1 ++ c) ++ post) (rs ++ literalTail (h1 ++ c).length b) (pre ++ h1)
      = some (pre ++ (h1 ++ c)) := by
  have hS : pre ++ (h1 ++ c) ++ post = (pre ++ h1) ++ (c ++ post) := by simp
  have hstart : pre ++ h1 = (pre ++ (h1 ++ c) ++ post).take (h1.length + pre.length) := by
    rw [hS, List.take_left']
    simp [Nat.add_comm]
  have hstop : pre ++ (h1 ++ c) = (pre ++ (h1 ++ c) ++ post).take (pre ++ (h1 ++ c)).length := by
    rw [List.take_left' rfl]
  have hsh := tiles_shift pre post ht
  rw [show ((h1.length : Int) + pre.length) = ((h1.length + pre.length : Nat) : Int) by push_cast; rfl]
    at hsh
  obtain ⟨hd, hle, _⟩ := decodeFrom_tiles hmin rs _ _ hsh
    (by simp only [List.length_append]; omega)
  have key : decodeFrom (pre ++ (h1 ++ c) ++ post) (rs ++ literalTail (h1 ++ c).length b)
      ((pre ++ (h1 ++ c) ++ post).take (h1.length + pre.length))
      = some ((pre ++ (h1 ++ c) ++ post).take (pre ++ (h1 ++ c)).length) := by
    rw [decodeFrom_append _ _ _ _ _ hd]
    apply decodeFrom_literalTail
    · simp only [List.length_append] at hb ⊢; push_cast at hb hle; omega
    · simp only [List.length_append]; omega
    · simp only [List.length_append] at hb ⊢; push_cast at hb hle ⊢; omega
  rwa [← hstart, ← hstop] at key

/-! ## Decoding what a call and a sequence of calls return -/

theorem applyDefaults_minLength_nonneg {q : M4} (h : 0 ≤ q.MinLength) :
    0 ≤ (applyDefaults q).MinLength := by
  simp only [applyDefaults]
  split <;> omega

/-- One call with a well-formed configuration and `MinLength ≥ 0`, seen inside the stream
`pre ++ q.history` submitted so far: the call returns and its records decode the chunk. -/
theorem findMatches_decodes (arch : GOARCH) (q : M4) (dst : List Match) (src pre : List UInt8)
    (hT : TableOK q) (hw : WellFormed arch q) (hmin : 0 ≤ q.MinLength) :
    ∃ q1 ms pre1, M4.FindMatches arch q dst src = some (q1, dst ++ ms) ∧
      pre ++ q.history ++ src = pre1 ++ q1.history ∧
      TableOK q1 ∧ WellFormed arch q1 ∧ 0 ≤ q1.MinLength ∧
      ∀ post, decodeFrom (pre ++ q.history ++ src ++ post) ms (pre ++ q.history)
        = some (pre ++ q.history ++ src) := by
  obtain ⟨⟨q1, out⟩, hfm⟩ := findMatches_returns arch q dst src hT hw
  obtain ⟨rs, b, cut, h1, hcut, hh, hout, htiles, hb, hcfg, hT1⟩ :=
    findMatches_call arch q dst src hT hfm
  simp only at hh hout hcfg hT1
  have hmin1 := applyDefaults_minLength_nonneg hmin
  refine ⟨q1, rs ++ literalTail (h1 ++ src).length b, pre ++ cut, ?_, ?_, hT1,
    sameConfig_wellFormed hcfg hw, by rw [hcfg.2.1]; exact hmin1, ?_⟩
  · rw [hfm, hout, List.append_assoc]
  · rw [hcut, hh]; simp
  · intro post
    have := call_decodes hmin1 h1 src (pre ++ cut) post htiles hb
    rw [hcut]
    simpa using this

theorem findMatchesAll_decodes (arch : GOARCH) :
    ∀ (cs : List (List UInt8)) (q : M4) (dst : List Match) (pre : List UInt8),
      TableOK q → WellFormed arch q → 0 ≤ q.MinLength →
      ∃ q1 ms, FindMatchesAll arch q dst cs = some (q1, dst ++ ms) ∧
        ∀ post, decodeFrom (pre ++ q.history ++ cs.flatten ++ post) ms (pre ++ q.history)
          = some (pre ++ q.history ++ cs.flatten)
  | [], q, dst, pre, _, _, _ => ⟨q, [], by simp [FindMatchesAll], fun post => by simp [decodeFrom]⟩
  | c :: cs, q, dst, pre, hT, hw, hmin => by
    obtain ⟨q1, ms1, pre1, hfm, hstream, hT1, hw1, hmin1, hdec1⟩ :=
      findMatches_decodes arch q dst c pre hT hw hmin
    obtain ⟨q2, ms2, hall, hdec2⟩ := findMatchesAll_decodes arch cs q1 (dst ++ ms1) pre1 hT1 hw1 hmin1
    refine ⟨q2, ms1 ++ ms2, ?_, ?_⟩
    · simp only [FindMatchesAll, hfm, hall, List.append_assoc]
    · intro post
      have e1 := hdec1 (cs.flatten ++ post)
      have e2 := hdec2 post
      rw [← hstream] at e2
      have hS : pre ++ q.history ++ (c :: cs).flatten ++ post
          = pre ++ q.history ++ c ++ (cs.flatten ++ post) := by simp
      have hS2 : pre ++ q.history ++ c ++ cs.flatten ++ post
          = pre ++ q.history ++ c ++ (cs.flatten ++ post) := by simp
      have hE : pre ++ q.history ++ (c :: cs).flatten = pre ++ q.history ++ c ++ cs.flatten := by simp
      rw [hS2] at e2
      rw [hS, hE, decodeFrom_append _ _ _ _ _ e1, e2]

/-! ## C1: reconstruction round trip -/

/-- C1. After a `Reset` and with the default configuration, `FindMatches(nil, src)` returns,
and decoding the returned records (literals from `src`, then `Length` bytes copied one at a
time from `Distance` back) gives back exactly `src`.  This holds on every target. -/
theorem roundtrip_reconstructs (arch : GOARCH) (q : M4) (hq : DefaultConfig q)
    (src : List UInt8) :
    ∃ q1 ms, M4.FindMatches arch q.Reset [] src = some (q1, ms) ∧ decode src ms = some src := by
  have hd : DefaultConfig q.Reset := hq
  obtain ⟨hw, hmin⟩ := defaultConfig_wellFormed arch hd
  obtain ⟨q1, ms, pre1, hfm, _, _, _, _, hdec⟩ :=
    findMatches_decodes arch q.Reset [] src [] (reachable_tableOK (Reachable.reset q : Reachable arch q.Reset)) hw hmin
  refine ⟨q1, ms, by simpa using hfm, ?_⟩
  have := hdec []
  simpa [M4.Reset, decode] using this

/-- C1 at a concrete input: a new `M4` with no field set, amd64, the 25 bytes of
`zeroAbcd6` (returned as 5 literals and a match of length 20 at distance 4). -/
theorem roundtrip_reconstructs_witness :
    DefaultConfig (M4.fresh 0 0 0) ∧
      ∃ q1 ms, M4.FindMatches .amd64 (M4.fresh 0 0 0).Reset [] zeroAbcd6 = some (q1, ms) ∧
        decode zeroAbcd6 ms = some zeroAbcd6 :=
  ⟨by simp [DefaultConfig, M4.fresh],
    roundtrip_reconstructs .amd64 (M4.fresh 0 0 0) (by simp [DefaultConfig, M4.fresh]) zeroAbcd6⟩

/-! ## The shape of what a call appends -/

theorem coverage_append : ∀ (xs ys : List Match), coverage (xs ++ ys) = coverage xs + coverage ys
  | [], ys => by simp [coverage]
  | x :: xs, ys => by
    have ih := coverage_append xs ys
    rw [List.cons_append]
    simp only [coverage]
    rw [ih]
    ring

theorem tiles_coverage {src : List UInt8} {maxD minL : Int} : ∀ {rs : List Match} {a b : Int},
    Tiles src maxD minL a rs b → coverage rs = b - a
  | [], a, b, h => by
    simp only [Tiles] at h
    simp only [coverage]
    omega
  | r :: rs, a, b, h => by
    have := tiles_coverage h.2
    simp only [coverage]
    omega

theorem tiles_members {src : List UInt8} {maxD minL : Int} : ∀ {rs : List Match} {a b : Int},
    Tiles src maxD minL a rs b → ∀ r ∈ rs, 0 ≤ r.Unmatched ∧ (4 ≤ r.Length ∨ minL ≤ r.Length) ∧
      0 < r.Distance ∧ r.Distance ≤ maxD
  | [], _, _, _ => fun r hr => by simp at hr
  | x :: rs, a, b, h => fun r hr => by
    rcases List.mem_cons.mp hr with e | e
    · subst e
      exact ⟨h.1.unmatched_nonneg, h.1.length_ge, h.1.dist_pos, h.1.dist_le⟩
    · exact tiles_members h.2 r e

theorem literalTail_shift (len b c : Int) : literalTail (len + c) (b + c) = literalTail len b := by
  simp only [literalTail]
  by_cases h : b < len
  · rw [if_pos h, if_pos (by omega)]
    congr 2
    omega
  · rw [if_neg h, if_neg (by omega)]

/-- A returning call appends match records, each with `Unmatched ≥ 0`, a length of at
least four or at least `MinLength`, and a distance in `1..MaxDistance`, followed by one
literal record when the match records do not cover the whole chunk. -/
theorem findMatches_shape (arch : GOARCH) (q : M4) (dst : List Match) (src : List UInt8)
    (hT : TableOK q) {r : M4 × List Match} (h : M4.FindMatches arch q dst src = some r) :
    ∃ mm, r.2 = dst ++ (mm ++ literalTail src.length (coverage mm)) ∧
      coverage mm ≤ src.length ∧
      (∀ m ∈ mm, 0 ≤ m.Unmatched ∧ (4 ≤ m.Length ∨ (applyDefaults q).MinLength ≤ m.Length) ∧
        0 < m.Distance ∧ m.Distance ≤ (applyDefaults q).MaxDistance) ∧
      TableOK r.1 ∧ SameConfig r.1 (applyDefaults q) := by
  obtain ⟨rs, b, cut, h1, _, _, hout, htiles, hb, hcfg, hT1⟩ := findMatches_call arch q dst src hT h
  have hcov := tiles_coverage htiles
  refine ⟨rs, ?_, ?_, tiles_members htiles, hT1, hcfg⟩
  · rw [hout, List.append_assoc]
    congr 2
    have := literalTail_shift src.length (coverage rs) h1.length
    rw [← this]
    congr 1
    · rw [List.length_append]; push_cast; ring
    · omega
  · rw [List.length_append] at hb
    push_cast at hb
    omega

theorem coverage_literalTail (len b : Int) (h : b ≤ len) : coverage (literalTail len b) = len - b := by
  simp only [literalTail]
  split
  · simp [coverage]
  · simp only [coverage]; omega

theorem findMatchesAll_returns (arch : GOARCH) :
    ∀ (cs : List (List UInt8)) (q : M4) (dst : List Match), TableOK q → WellFormed arch q →
      ∃ q1 out, FindMatchesAll arch q dst cs = some (q1, out)
  | [], q, dst, _, _ => ⟨q, dst, rfl⟩
  | c :: cs, q, dst, hT, hw => by
    obtain ⟨⟨q1, out⟩, hfm⟩ := findMatches_returns arch q dst c hT hw
    obtain ⟨_, _, _, _, hT1, hcfg⟩ := findMatches_shape arch q dst c hT hfm
    obtain ⟨q2, out2, hall⟩ :=
      findMatchesAll_returns arch cs q1 out hT1 (sameConfig_wellFormed hcfg hw)
    exact ⟨q2, out2, by simp only [FindMatchesAll, hfm, hall]⟩

theorem findMatchesAll_coverage (arch : GOARCH) :
    ∀ (cs : List (List UInt8)) (q : M4) (dst : List Match) (q1 : M4) (out : List Match),
      TableOK q → FindMatchesAll arch q dst cs = some (q1, out) →
      ∃ ms, out = dst ++ ms ∧ coverage ms = ((cs.map List.length).sum : Nat)
  | [], q, dst, q1, out, _, h => by
    simp only [FindMatchesAll, Option.some.injEq, Prod.mk.injEq] at h
    exact ⟨[], by simp [h.2], by simp [coverage]⟩
  | c :: cs, q, dst, q1, out, hT, h => by
    simp only [FindMatchesAll] at h
    cases hfm : M4.FindMatches arch q dst c with
    | none => rw [hfm] at h; simp at h
    | some r =>
      obtain ⟨q2, out2⟩ := r
      rw [hfm] at h
      simp only at h
      obtain ⟨mm, hout, hle, _, hT2, _⟩ := findMatches_shape arch q dst c hT hfm
      simp only at hout hT2
      obtain ⟨ms, hms, hcov⟩ := findMatchesAll_coverage arch cs q2 out2 q1 out hT2 h
      refine ⟨(mm ++ literalTail c.length (coverage mm)) ++ ms, ?_, ?_⟩
      · rw [hms, hout, List.append_assoc]
      · rw [coverage_append, coverage_append, coverage_literalTail _ _ hle, hcov]
        simp only [List.map_cons, List.sum_cons]
        push_cast
        ring

/-! ## C2: coverage -/

/-- C2. In every state reachable since a `Reset` and for every chunk, the records one call
of `FindMatches` appends to `dst` have `Unmatched + Length` summing to `len(src)`; over any
sequence of calls the appended records sum to the total number of bytes submitted; and
with a configuration whose arithmetic stays in range the calls do return. -/
theorem coverage_invariant (arch : GOARCH) (q : M4) (hq : Reachable arch q) (dst : List Match) :
    (∀ src q1 out, M4.FindMatches arch q dst src = some (q1, out) →
        ∃ ms, out = dst ++ ms ∧ coverage ms = src.length) ∧
    (∀ chunks q1 out, FindMatchesAll arch q dst chunks = some (q1, out) →
        ∃ ms, out = dst ++ ms ∧ coverage ms = ((chunks.map List.length).sum : Nat)) ∧
    (WellFormed arch q → ∀ chunks, ∃ q1 out, FindMatchesAll arch q dst chunks = some (q1, out)) := by
  have hT := reachable_tableOK hq
  refine ⟨?_, ?_, ?_⟩
  · intro src q1 out h
    obtain ⟨mm, hout, hle, _⟩ := findMatches_shape arch q dst src hT h
    refine ⟨mm ++ literalTail src.length (coverage mm), hout, ?_⟩
    rw [coverage_append, coverage_literalTail _ _ hle]
    ring
  · intro chunks q1 out h
    exact findMatchesAll_coverage arch chunks q dst q1 out hT h
  · intro hw chunks
    exact findMatchesAll_returns arch chunks q dst hT hw

/-- C2 at a concrete input: two chunks `abcdabcdabcd` submitted to a new `M4` on amd64
yield records that sum to 24. -/
theorem coverage_invariant_witness :
    ∃ q1 out, FindMatchesAll .amd64 (M4.fresh 0 0 0).Reset [] [abcd3, abcd3] = some (q1, out) ∧
      coverage out = 24 := by
  have h := coverage_invariant .amd64 (M4.fresh 0 0 0).Reset (Reachable.reset _) []
  obtain ⟨q1, out, hr⟩ := h.2.2 (by simp [WellFormed, M4.fresh, M4.Reset, intBits]) [abcd3, abcd3]
  obtain ⟨ms, hms, hcov⟩ := h.2.1 _ q1 out hr
  refine ⟨q1, out, hr, ?_⟩
  rw [hms, List.nil_append, hcov]
  rfl

/-! ## C3: ordering -/

theorem spans_ordered : ∀ (ms : List Match) (pos : Int),
    (∀ r ∈ ms, 0 ≤ r.Unmatched ∧ 0 ≤ r.Length) →
    (∀ a ∈ spans pos ms, pos ≤ a.1 ∧ a.1 ≤ a.2) ∧
      List.Pairwise (fun a b => a.1 ≤ b.1 ∧ a.2 ≤ b.1) (spans pos ms)
  | [], pos, _ => by simp [spans]
  | r :: rs, pos, h => by
    have hr := h r (List.mem_cons_self _ _)
    obtain ⟨ih1, ih2⟩ := spans_ordered rs (pos + r.Unmatched + r.Length)
      (fun x hx => h x (List.mem_cons_of_mem _ hx))
    simp only [spans]
    refine ⟨?_, List.pairwise_cons.mpr ⟨?_, ih2⟩⟩
    · intro a ha
      rcases List.mem_cons.mp ha with e | e
      · subst e
        simp only
        omega
      · have := ih1 a e
        omega
    · intro b hb
      have := ih1 b hb
      simp only
      omega

theorem defaultConfig_applyDefaults {q : M4} (h : DefaultConfig q) :
    (applyDefaults q).MaxDistance = 65535 ∧ (applyDefaults q).MinLength = 4 ∧
      (applyDefaults q).HashLen = 6 := by
  obtain ⟨h1, h2, h3⟩ := h
  simp only [applyDefaults]
  refine ⟨?_, ?_, ?_⟩
  · rcases h1 with h1 | h1 <;> simp [h1]
  · rcases h2 with h2 | h2 <;> simp [h2]
  · rcases h3 with h3 | h3 <;> simp [h3]

/-- C3. In every state reachable since a `Reset`, with the default configuration, the call
returns and every appended record has `Unmatched ≥ 0` and `Length ≥ 0`; hence the source
intervals `[start, start + Length)` obtained by accumulating `Unmatched + Length` have
non-decreasing starts and each ends before the next one starts. -/
theorem ordering_invariant (arch : GOARCH) (q : M4) (hq : Reachable arch q)
    (hd : DefaultConfig q) (dst : List Match) (src : List UInt8) :
    ∃ q1 ms, M4.FindMatches arch q dst src = some (q1, dst ++ ms) ∧
      (∀ r ∈ ms, 0 ≤ r.Unmatched ∧ 0 ≤ r.Length) ∧
      (∀ a ∈ spans 0 ms, a.1 ≤ a.2) ∧
      List.Pairwise (fun a b => a.1 ≤ b.1 ∧ a.2 ≤ b.1) (spans 0 ms) := by
  have hT := reachable_tableOK hq
  obtain ⟨⟨q1, out⟩, hfm⟩ := findMatches_returns arch q dst src hT (defaultConfig_wellFormed arch hd).1
  obtain ⟨mm, hout, hle, hmem, _, _⟩ := findMatches_shape arch q dst src hT hfm
  obtain ⟨_, hml, _⟩ := defaultConfig_applyDefaults hd
  simp only at hout
  have hall : ∀ r ∈ mm ++ literalTail src.length (coverage mm), 0 ≤ r.Unmatched ∧ 0 ≤ r.Length := by
    intro r hr
    rcases List.mem_append.mp hr with e | e
    · obtain ⟨h1, h2, _, _⟩ := hmem r e
      rw [hml] at h2
      exact ⟨h1, by omega⟩
    · simp only [literalTail] at e
      split at e
      · simp only [List.mem_singleton] at e
        subst e
        simp only
        omega
      · simp at e
  obtain ⟨h1, h2⟩ := spans_ordered _ 0 hall
  exact ⟨q1, _, by rw [hfm, hout], hall, fun a ha => (h1 a ha).2, h2⟩

/-- C3 at a concrete input: a new `M4`, amd64, the 25 bytes of `zeroAbcd6`. -/
theorem ordering_invariant_witness :
    ∃ q1 ms, M4.FindMatches .amd64 (M4.fresh 0 0 0).Reset [] zeroAbcd6 = some (q1, [] ++ ms) ∧
      (∀ r ∈ ms, 0 ≤ r.Unmatched ∧ 0 ≤ r.Length) ∧
      (∀ a ∈ spans 0 ms, a.1 ≤ a.2) ∧
      List.Pairwise (fun a b => a.1 ≤ b.1 ∧ a.2 ≤ b.1) (spans 0 ms) :=
  ordering_invariant .amd64 (M4.fresh 0 0 0).Reset (Reachable.reset _)
    (by simp [DefaultConfig, M4.fresh, M4.Reset]) [] zeroAbcd6

/-! ## C4: distance bound -/

theorem findMatchesAll_distance (arch : GOARCH) :
    ∀ (cs : List (List UInt8)) (q : M4) (dst : List Match) (q1 : M4) (out : List Match),
      TableOK q → 1 ≤ q.MaxDistance → FindMatchesAll arch q dst cs = some (q1, out) →
      ∃ ms, out = dst ++ ms ∧
        ∀ r ∈ ms, 0 < r.Length → 0 < r.Distance ∧ r.Distance ≤ q.MaxDistance
  | [], q, dst, q1, out, _, _, h => by
    simp only [FindMatchesAll, Option.some.injEq, Prod.mk.injEq] at h
    exact ⟨[], by simp [h.2], fun r hr => by simp at hr⟩
  | c :: cs, q, dst, q1, out, hT, hmd, h => by
    simp only [FindMatchesAll] at h
    cases hfm : M4.FindMatches arch q dst c with
    | none => rw [hfm] at h; simp at h
    | some r =>
      obtain ⟨q2, out2⟩ := r
      rw [hfm] at h
      simp only at h
      obtain ⟨mm, hout, _, hmem, hT2, hcfg⟩ := findMatches_shape arch q dst c hT hfm
      simp only at hout hT2 hcfg
      have hmd0 : (applyDefaults q).MaxDistance = q.MaxDistance := by
        simp only [applyDefaults]
        rw [if_neg (by omega)]
      have hmd2 : q2.MaxDistance = q.MaxDistance := hcfg.1.trans hmd0
      obtain ⟨ms, hms, hdist⟩ :=
        findMatchesAll_distance arch cs q2 out2 q1 out hT2 (by rw [hmd2]; exact hmd) h
      refine ⟨(mm ++ literalTail c.length (coverage mm)) ++ ms, ?_, ?_⟩
      · rw [hms, hout, List.append_assoc]
      · intro r hr hlen
        rcases List.mem_append.mp hr with e | e
        · rcases List.mem_append.mp e with e | e
          · obtain ⟨_, _, h3, h4⟩ := hmem r e
            rw [hmd0] at h4
            exact ⟨h3, h4⟩
          · simp only [literalTail] at e
            split at e
            · simp only [List.mem_singleton] at e
              subst e
              simp at hlen
            · simp at e
        · have := hdist r e hlen
          rw [hmd2] at this
          exact this

/-- C4. With `MaxDistance ≥ 1`, in every state reachable since a `Reset` and over every
sequence of calls that return, each appended record with `Length > 0` has
`0 < Distance ≤ MaxDistance`; and with a configuration whose arithmetic stays in range
the calls do return. -/
theorem distance_bound (arch : GOARCH) (q : M4) (hq : Reachable arch q)
    (hmd : 1 ≤ q.MaxDistance) (dst : List Match) :
    (∀ chunks q1 out, FindMatchesAll arch q dst chunks = some (q1, out) →
        ∃ ms, out = dst ++ ms ∧
          ∀ r ∈ ms, 0 < r.Length → 0 < r.Distance ∧ r.Distance ≤ q.MaxDistance) ∧
    (WellFormed arch q → ∀ chunks, ∃ q1 out, FindMatchesAll arch q dst chunks = some (q1, out)) :=
  ⟨fun chunks q1 out h =>
      findMatchesAll_distance arch chunks q dst q1 out (reachable_tableOK hq) hmd h,
    fun hw chunks => findMatchesAll_returns arch chunks q dst (reachable_tableOK hq) hw⟩

/-- C4 at a concrete input: `MaxDistance = 8`, the chunks `zeroAbcd6` and `abcdabcdabcd`
on amd64. -/
theorem distance_bound_witness :
    ∃ q1 out, FindMatchesAll .amd64 (M4.fresh 8 4 6).Reset [] [zeroAbcd6, abcd3] = some (q1, out) ∧
      ∀ r ∈ out, 0 < r.Length → 0 < r.Distance ∧ r.Distance ≤ 8 := by
  have h := distance_bound .amd64 (M4.fresh 8 4 6).Reset (Reachable.reset _)
    (by simp [M4.fresh, M4.Reset]) []
  obtain ⟨q1, out, hr⟩ := h.2 (by simp [WellFormed, M4.fresh, M4.Reset, intBits]) [zeroAbcd6, abcd3]
  obtain ⟨ms, hms, hd⟩ := h.1 _ q1 out hr
  refine ⟨q1, out, hr, ?_⟩
  rw [hms, List.nil_append]
  exact hd

/-! ## C6: chunking invariance -/

/-- C6. For every split of an input into consecutive chunks, on a reset `M4` whose
configuration stays in range and has `MinLength ≥ 0` (the default one included), on every
target: the calls of `FindMatches`, one per chunk, return, the single call on the whole
input returns, and decoding either record list gives back the whole input.  The history
may be trimmed between the calls. -/
theorem chunking_invariance (arch : GOARCH) (q : M4) (hw : WellFormed arch q)
    (hmin : 0 ≤ q.MinLength) (chunks : List (List UInt8)) :
    ∃ q1 ms q2 ms1,
      FindMatchesAll arch q.Reset [] chunks = some (q1, ms) ∧
      M4.FindMatches arch q.Reset [] chunks.flatten = some (q2, ms1) ∧
      decode chunks.flatten ms = some chunks.flatten ∧
      decode chunks.flatten ms1 = some chunks.flatten := by
  have hT : TableOK q.Reset := reachable_tableOK (Reachable.reset q : Reachable arch q.Reset)
  have hw1 : WellFormed arch q.Reset := hw
  have hmin1 : 0 ≤ q.Reset.MinLength := hmin
  obtain ⟨q1, ms, hall, hdec⟩ := findMatchesAll_decodes arch chunks q.Reset [] [] hT hw1 hmin1
  obtain ⟨q2, ms1, _, hfm, _, _, _, _, hdec1⟩ :=
    findMatches_decodes arch q.Reset [] chunks.flatten [] hT hw1 hmin1
  refine ⟨q1, ms, q2, ms1, by simpa using hall, by simpa using hfm, ?_, ?_⟩
  · have := hdec []
    simpa [M4.Reset, decode] using this
  · have := hdec1 []
    simpa [M4.Reset, decode] using this

/-- C6 at a concrete input: `MaxDistance = 8`, so that the 25 bytes of the first chunk are
trimmed to 8 before the second chunk is scanned. -/
theorem chunking_invariance_witness :
    ∃ q1 ms q2 ms1,
      FindMatchesAll .amd64 (M4.fresh 8 4 6).Reset [] [zeroAbcd6, abcd3] = some (q1, ms) ∧
      M4.FindMatches .amd64 (M4.fresh 8 4 6).Reset [] [zeroAbcd6, abcd3].flatten = some (q2, ms1) ∧
      decode [zeroAbcd6, abcd3].flatten ms = some [zeroAbcd6, abcd3].flatten ∧
      decode [zeroAbcd6, abcd3].flatten ms1 = some [zeroAbcd6, abcd3].flatten :=
  chunking_invariance .amd64 (M4.fresh 8 4 6) (by simp [WellFormed, M4.fresh, intBits])
    (by simp [M4.fresh]) [zeroAbcd6, abcd3]

/-! ## C7: reset isolation -/

theorem trim_config (arch : GOARCH) {q q1 : M4} (h : trim arch q = some q1) : SameConfig q1 q := by
  unfold trim at h
  by_cases hc : (q.history.length : Int) > wrapInt arch (q.MaxDistance * 2)
  · rw [if_pos hc] at h
    by_cases hp : (q.history.length : Int) - q.MaxDistance < 0 ∨
        (q.history.length : Int) - q.MaxDistance > q.history.length
    · simp only [if_pos hp] at h
      exact absurd h (by simp)
    · simp only [if_neg hp, Option.some.injEq] at h
      subst h
      exact ⟨rfl, rfl, rfl⟩
  · rw [if_neg hc, Option.some.injEq] at h
    subst h
    exact ⟨rfl, rfl, rfl⟩

theorem findMatches_config (arch : GOARCH) (q : M4) (dst : List Match) (src : List UInt8)
    {r : M4 × List Match} (h : M4.FindMatches arch q dst src = some r) :
    SameConfig r.1 (applyDefaults q) := by
  unfold M4.FindMatches at h
  cases ht : trim arch (applyDefaults q) with
  | none => rw [ht] at h; simp at h
  | some q1 =>
    rw [ht] at h
    simp only at h
    split at h
    · simp at h
    · rw [Option.some.injEq] at h
      subst h
      have hc := trim_config arch ht
      exact ⟨hc.1, hc.2.1, hc.2.2⟩

theorem findMatches_congr (arch : GOARCH) {q p : M4} (h : applyDefaults q = applyDefaults p)
    (dst : List Match) (src : List UInt8) :
    M4.FindMatches arch q dst src = M4.FindMatches arch p dst src := by
  unfold M4.FindMatches
  rw [h]

/-- C7. If `FindMatches` on `A` returned, then after `Reset` the call `FindMatches(nil, B)`
returns exactly what it returns on a new `M4` with the same configuration (the records,
and the state left behind); `Reset` zeroes every table slot, empties the history and
keeps the configuration. -/
theorem reset_isolation (arch : GOARCH) (q : M4) (dstA : List Match) (A B : List UInt8)
    (qA : M4) (outA : List Match) (h : M4.FindMatches arch q dstA A = some (qA, outA)) :
    M4.FindMatches arch qA.Reset [] B
        = M4.FindMatches arch (M4.fresh q.MaxDistance q.MinLength q.HashLen) [] B ∧
      (∀ k, qA.Reset.table k = 0) ∧ qA.Reset.history = [] ∧ SameConfig qA.Reset qA := by
  refine ⟨?_, fun _ => rfl, rfl, ⟨rfl, rfl, rfl⟩⟩
  obtain ⟨h1, h2, h3⟩ := findMatches_config arch q dstA A h
  apply findMatches_congr
  simp only [applyDefaults, M4.Reset, M4.fresh] at h1 h2 h3 ⊢
  rw [h1, h2, h3]
  congr 1 <;> split <;> simp_all

/-- C7 at a concrete input: `A` is `zeroAbcd6`, `B` is `abcdabcdabcd`, new `M4`, amd64. -/
theorem reset_isolation_witness :
    ∃ qA outA, M4.FindMatches .amd64 (M4.fresh 0 0 0) [] zeroAbcd6 = some (qA, outA) ∧
      M4.FindMatches .amd64 qA.Reset [] abcd3 = M4.FindMatches .amd64 (M4.fresh 0 0 0) [] abcd3 := by
  obtain ⟨⟨qA, outA⟩, h⟩ := findMatches_returns .amd64 (M4.fresh 0 0 0) [] zeroAbcd6
    (fun k hk => by simp [M4.fresh] at hk) (by simp [WellFormed, M4.fresh, intBits])
  exact ⟨qA, outA, h, (reset_isolation .amd64 (M4.fresh 0 0 0) [] zeroAbcd6 abcd3 qA outA h).1⟩

/-! ## C8: the terminal literal record -/

/-- C8. In every state reachable since a `Reset`, with the default configuration, the call
returns match records `mm`, all with `Length > 0`, followed by exactly one more record
when bytes remain after the last match: that record has `Length = 0`, `Distance = 0` and
`Unmatched` the number of remaining bytes.  So a record with `Length = 0` is present if
and only if bytes remain. -/
theorem terminal_literal (arch : GOARCH) (q : M4) (hq : Reachable arch q) (hd : DefaultConfig q)
    (dst : List Match) (src : List UInt8) :
    ∃ q1 ms mm, M4.FindMatches arch q dst src = some (q1, dst ++ ms) ∧
      ms = mm ++ (if coverage mm < src.length then [⟨src.length - coverage mm, 0, 0⟩] else []) ∧
      (∀ r ∈ mm, 0 < r.Length) ∧ coverage mm ≤ src.length ∧
      ((∃ r ∈ ms, r.Length = 0) ↔ coverage mm < src.length) := by
  have hT := reachable_tableOK hq
  obtain ⟨⟨q1, out⟩, hfm⟩ := findMatches_returns arch q dst src hT (defaultConfig_wellFormed arch hd).1
  obtain ⟨mm, hout, hle, hmem, _, _⟩ := findMatches_shape arch q dst src hT hfm
  obtain ⟨_, hml, _⟩ := defaultConfig_applyDefaults hd
  simp only at hout
  have hpos : ∀ r ∈ mm, 0 < r.Length := by
    intro r hr
    obtain ⟨_, h2, _, _⟩ := hmem r hr
    rw [hml] at h2
    omega
  refine ⟨q1, _, mm, by rw [hfm, hout]; rfl, rfl, hpos, hle, ?_⟩
  constructor
  · rintro ⟨r, hr, hr0⟩
    rcases List.mem_append.mp hr with e | e
    · have := hpos r e
      omega
    · by_contra hc
      rw [if_neg hc] at e
      simp at e
  · intro hc
    exact ⟨⟨src.length - coverage mm, 0, 0⟩, by rw [if_pos hc]; simp, rfl⟩

/-- C8 at a concrete input: a new `M4`, amd64, the 25 bytes of `zeroAbcd6`. -/
theorem terminal_literal_witness :
    ∃ q1 ms mm, M4.FindMatches .amd64 (M4.fresh 0 0 0).Reset [] zeroAbcd6 = some (q1, [] ++ ms) ∧
      ms = mm ++ (if coverage mm < zeroAbcd6.length
        then [⟨zeroAbcd6.length - coverage mm, 0, 0⟩] else []) ∧
      (∀ r ∈ mm, 0 < r.Length) ∧ coverage mm ≤ zeroAbcd6.length ∧
      ((∃ r ∈ ms, r.Length = 0) ↔ coverage mm < zeroAbcd6.length) :=
  terminal_literal .amd64 (M4.fresh 0 0 0).Reset (Reachable.reset _)
    (by simp [DefaultConfig, M4.fresh, M4.Reset]) [] zeroAbcd6

/-! ## C5: minimum length -/

/-- C5, the code at a failing input. With `MinLength = 7` (other fields default) the call on
`sixRepeat` returns the match record `Unmatched = 8, Length = 6, Distance = 7`: a match
shorter than `MinLength`.  Only a match that was cut to avoid an overlap is compared with
`MinLength`; a match emitted whole is only known to have at least four bytes. -/
theorem minLength_not_enforced :
    (M4.FindMatches .amd64 (M4.fresh 0 7 0) [] sixRepeat).map Prod.snd
      = some [⟨8, 6, 7⟩, ⟨9, 0, 0⟩] := by
  decide

/-! ## C9: the scenario `abcdabcdabcd` -/

/-- C9, as the code behaves. On a new `M4` with `MinLength = 4`, `MaxDistance = 65535` and
`HashLen` not set, on every target, `FindMatches(nil, "abcdabcdabcd")` returns exactly one
record, `Unmatched = 12, Length = 0, Distance = 0`: no match is reported, and the total of
`Unmatched + Length` is 12. -/
theorem abcd_scenario (arch : GOARCH) :
    (M4.FindMatches arch (M4.fresh 65535 4 0) [] abcd3).map Prod.snd = some [⟨12, 0, 0⟩] ∧
      coverage [⟨12, 0, 0⟩] = 12 := by
  cases arch <;> exact ⟨by decide, by decide⟩

/-- C9 as stated fails: on amd64 the call returns, and no returned record has
`Distance = 4` and `Length ≥ 4`. -/
theorem abcd_scenario_no_match :
    (∃ q1 ms, M4.FindMatches .amd64 (M4.fresh 65535 4 0) [] abcd3 = some (q1, ms)) ∧
      ¬ ∃ q1 ms, M4.FindMatches .amd64 (M4.fresh 65535 4 0) [] abcd3 = some (q1, ms) ∧
        ∃ r ∈ ms, r.Distance = 4 ∧ 4 ≤ r.Length := by
  have e : (M4.FindMatches .amd64 (M4.fresh 65535 4 0) [] abcd3).map Prod.snd
      = some [⟨12, 0, 0⟩] := by decide
  constructor
  · cases h : M4.FindMatches .amd64 (M4.fresh 65535 4 0) [] abcd3 with
    | none => rw [h] at e; simp at e
    | some r => exact ⟨r.1, r.2, rfl⟩
  · rintro ⟨q1, ms, h, r, hr, hd, _⟩
    rw [h] at e
    simp only [Option.map_some', Option.some.injEq] at e
    rw [e] at hr
    simp only [List.mem_singleton] at hr
    rw [hr] at hd
    simp at hd

/-! ## C10: no repeated window, no match -/

theorem step_noRepeat (arch : GOARCH) (q : M4) {src : List UInt8} (hu : NoRepeat4 src)
    {mask : Nat} (hm : hashMask arch q.HashLen = some mask) (s : Scan) (i : Nat)
    (hi : i + 8 ≤ src.length) (hz0 : s.m0 = absoluteMatch.zero)
    (htab : ∀ k, s.table k ≠ 0 → s.table k < i) :
    ∃ t, step arch q src s i = some { s with table := t } ∧ ∀ k, t k ≠ 0 → t k < i + 1 := by
  have hflush : flush q.MinLength s i = s := by simp [flush, hz0]
  obtain ⟨hx, hhx⟩ := hashIndex_isSome arch q.HashLen src i hm (by omega) (by omega)
  refine ⟨fun k => if k = hx then (i : Int).toNat % 2 ^ 32 else s.table k, ?_, ?_⟩
  · have hfc : findCandidate arch q.MaxDistance src
        { s with table := fun k => if k = hx then (i : Int).toNat % 2 ^ 32 else s.table k }
        i (s.table hx : Int) = some none := by
      by_cases hrej : ((s.table hx : Nat) : Int) = 0 ∨ (i : Int) - (s.table hx : Nat) > q.MaxDistance ∨
          (i : Int) - (s.table hx : Nat) = s.m0.Start - s.m0.Match
      · simp only [findCandidate, if_pos hrej]
      · have hcz : s.table hx ≠ 0 := fun e => hrej (Or.inl (by rw [e]; rfl))
        have hci := htab hx hcz
        have hA := uintAt_natCast 4 src (s.table hx) (by omega)
        have hB := uintAt_natCast 4 src i (by omega)
        have hne : leValue ((src.drop (s.table hx)).take 4) ≠ leValue ((src.drop i).take 4) := by
          intro e
          refine hu (s.table hx) i hci (by omega) (leValue_inj _ _ ?_ e)
          simp only [List.length_take, List.length_drop]
          omega
        simp only [findCandidate, if_neg hrej, hA, hB, ne_eq, hne, not_false_eq_true, if_true]
    simp only [step, hflush, hhx, hfc]
  · intro k hk
    simp only at hk ⊢
    by_cases hkx : k = hx
    · simp only [if_pos hkx, Int.toNat_natCast]
      have := Nat.mod_le i (2 ^ 32)
      omega
    · simp only [if_neg hkx] at hk ⊢
      have := htab k hk
      omega

theorem scan_noRepeat (arch : GOARCH) (q : M4) (src : List UInt8) (hu : NoRepeat4 src)
    {mask : Nat} (hm : hashMask arch q.HashLen = some mask) :
    ∀ (n i : Nat) (s : Scan), (n ≠ 0 → i + n + 7 ≤ src.length) → s.m0 = absoluteMatch.zero →
      (∀ k, s.table k ≠ 0 → s.table k < i) →
      ∃ t, scan arch q src n (i : Int) s = some { s with table := t }
  | 0, i, s, _, _, _ => ⟨s.table, rfl⟩
  | n + 1, i, s, hn, hz0, htab => by
    have hn1 := hn (by omega)
    obtain ⟨t, hstep, ht⟩ := step_noRepeat arch q hu hm s i (by omega) hz0 htab
    obtain ⟨t2, hscan⟩ := scan_noRepeat arch q src hu hm n (i + 1) { s with table := t }
      (fun _ => by omega) hz0 ht
    refine ⟨t2, ?_⟩
    simp only [scan, hstep]
    rw [show ((i : Int) + 1) = ((i + 1 : Nat) : Int) by push_cast; rfl, hscan]

theorem trim_empty (arch : GOARCH) {q : M4} (hw : WellFormed arch q) (hh : q.history = []) :
    trim arch (applyDefaults q) = some (applyDefaults q) := by
  obtain ⟨h1, h2, _, _⟩ := wellFormed_defaults hw
  have hwrap : wrapInt arch ((applyDefaults q).MaxDistance * 2) = (applyDefaults q).MaxDistance * 2 := by
    apply wrapInt_eq
    · omega
    · cases arch <;> simp only [intBits] at h2 ⊢ <;> norm_num at h2 ⊢ <;> omega
  have hlen : (applyDefaults q).history.length = 0 := by
    simp [applyDefaults, hh]
  unfold trim
  rw [hwrap, hlen, if_neg (by push_cast; omega)]

/-- C10. For a non-empty input in which no 4-byte window occurs at two different
positions, on a reset `M4` whose configuration stays in range (the default one included),
on every target, `FindMatches(nil, src)` returns exactly one record:
`Unmatched = len(src), Length = 0, Distance = 0`.  Hash collisions do not matter: the
hypothesis is on the bytes only. -/
theorem no_match_scenario (arch : GOARCH) (q : M4) (hw : WellFormed arch q) (src : List UInt8)
    (hne : src ≠ []) (hu : NoRepeat4 src) :
    ∃ q1, M4.FindMatches arch q.Reset [] src = some (q1, [⟨src.length, 0, 0⟩]) := by
  have hw1 : WellFormed arch q.Reset := hw
  have htrim := trim_empty arch hw1 rfl
  obtain ⟨_, ⟨mask, hmask⟩⟩ := wellFormed_no_panic hw1
  have hlen : 0 < src.length := List.length_pos.mpr hne
  have hh : (applyDefaults q.Reset).history = [] := rfl
  obtain ⟨t, hscan⟩ := scan_noRepeat arch
    { applyDefaults q.Reset with history := (applyDefaults q.Reset).history ++ src }
    ((applyDefaults q.Reset).history ++ src) (by rw [hh]; exact hu) hmask
    ((((applyDefaults q.Reset).history ++ src).length : Int) - 7
      - (applyDefaults q.Reset).history.length).toNat (applyDefaults q.Reset).history.length
    ⟨[], ((applyDefaults q.Reset).history.length : Nat), absoluteMatch.zero, absoluteMatch.zero,
      absoluteMatch.zero, (applyDefaults q.Reset).table⟩
    (fun hn => by
      rw [hh] at hn ⊢
      simp only [List.nil_append, List.length_nil] at hn ⊢
      omega)
    rfl (fun k hk => absurd rfl hk)
  refine ⟨{ applyDefaults q.Reset with
    history := (applyDefaults q.Reset).history ++ src, table := t }, ?_⟩
  simp only [M4.FindMatches, htrim, hscan]
  simp only [finish, emitOlder, ne_eq, not_true_eq_false, if_false, hh, List.nil_append,
    List.length_nil, Nat.cast_zero, Option.some.injEq, Prod.mk.injEq, true_and]
  rw [if_pos (by omega)]
  simp

/-- C10 at a concrete input: the 20 distinct bytes of `distinct20`, a new `M4`, amd64. -/
theorem no_match_scenario_witness :
    ∃ q1, M4.FindMatches .amd64 (M4.fresh 0 0 0).Reset [] distinct20
      = some (q1, [⟨distinct20.length, 0, 0⟩]) :=
  no_match_scenario .amd64 (M4.fresh 0 0 0) (by simp [WellFormed, M4.fresh, intBits]) distinct20
    (by decide)
    (fun p r hpr hr =>
      (by decide : ∀ r < 17, ∀ p < r,
        (distinct20.drop p).take 4 ≠ (distinct20.drop r).take 4) r
        (by simp only [distinct20, List.length_cons, List.length_nil] at hr; omega) p hpr)

/-! ## C12: defaults -/

theorem applyDefaults_idem (q : M4) : applyDefaults (applyDefaults q) = applyDefaults q := by
  simp only [applyDefaults]
  congr 1 <;> split <;> simp_all

/-- C12. For every prior state and input, on every target, `FindMatches` on an `M4` whose
three configuration fields are zero returns the same records and leaves the same state
(table, history, configuration) as on one configured with 65535, 4 and 6.  Each zero
field is replaced by its default independently, non-zero fields, the table and the
history are not touched by that step, and the state a call leaves behind holds the
configuration with the defaults filled in. -/
theorem defaults_applied (arch : GOARCH) (q : M4) (dst : List Match) (src : List UInt8) :
    M4.FindMatches arch { q with MaxDistance := 0, MinLength := 0, HashLen := 0 } dst src
        = M4.FindMatches arch { q with MaxDistance := 65535, MinLength := 4, HashLen := 6 } dst src ∧
      (applyDefaults q).MaxDistance = (if q.MaxDistance = 0 then 65535 else q.MaxDistance) ∧
      (applyDefaults q).MinLength = (if q.MinLength = 0 then 4 else q.MinLength) ∧
      (applyDefaults q).HashLen = (if q.HashLen = 0 then 6 else q.HashLen) ∧
      (applyDefaults q).table = q.table ∧ (applyDefaults q).history = q.history ∧
      M4.FindMatches arch q dst src = M4.FindMatches arch (applyDefaults q) dst src ∧
      (∀ q1 out, M4.FindMatches arch q dst src = some (q1, out) → SameConfig q1 (applyDefaults q)) :=
  ⟨findMatches_congr arch (by simp [applyDefaults]) dst src, rfl, rfl, rfl, rfl, rfl,
    findMatches_congr arch (applyDefaults_idem q).symm dst src,
    fun _ _ h => findMatches_config arch q dst src h⟩

/-! ## C11: `HashLen` out of range -/

theorem step_congr (arch : GOARCH) {q p : M4} (h1 : q.MinLength = p.MinLength)
    (h2 : q.MaxDistance = p.MaxDistance) (h3 : hashMask arch q.HashLen = hashMask arch p.HashLen)
    (src : List UInt8) (s : Scan) (i : Int) : step arch q src s i = step arch p src s i := by
  simp only [step, hashIndex, h1, h2, h3]

theorem scan_congr (arch : GOARCH) {q p : M4} (h1 : q.MinLength = p.MinLength)
    (h2 : q.MaxDistance = p.MaxDistance) (h3 : hashMask arch q.HashLen = hashMask arch p.HashLen)
    (src : List UInt8) : ∀ (n : Nat) (i : Int) (s : Scan),
      scan arch q src n i s = scan arch p src n i s
  | 0, _, _ => rfl
  | n + 1, i, s => by
    simp only [scan, step_congr arch h1 h2 h3 src s i]
    cases step arch p src s i with
    | none => rfl
    | some s1 => exact scan_congr arch h1 h2 h3 src n (i + 1) s1

theorem trim_hashLen (arch : GOARCH) (q : M4) (hl : Int) :
    trim arch { q with HashLen := hl } = (trim arch q).map (fun x => { x with HashLen := hl }) := by
  simp only [trim]
  split_ifs <;> rfl

/-- Two values of `HashLen` that give the same mask give the same records. -/
theorem findMatches_hashLen (arch : GOARCH) (q : M4) (hl : Int) (h0 : q.HashLen ≠ 0) (h1 : hl ≠ 0)
    (hm : hashMask arch q.HashLen = hashMask arch hl) (dst : List Match) (src : List UInt8) :
    (M4.FindMatches arch q dst src).map Prod.snd
      = (M4.FindMatches arch { q with HashLen := hl } dst src).map Prod.snd := by
  have hc : applyDefaults { q with HashLen := hl } = { applyDefaults q with HashLen := hl } := by
    simp [applyDefaults, h1]
  unfold M4.FindMatches
  rw [hc, trim_hashLen arch (applyDefaults q) hl]
  cases ht : trim arch (applyDefaults q) with
  | none => rfl
  | some q1 =>
    have hq1 : q1.HashLen = q.HashLen := by
      rw [(trim_config arch ht).2.2]
      simp [applyDefaults, h0]
    have e := scan_congr arch (q := { q1 with history := q1.history ++ src })
      (p := { q1 with HashLen := hl, history := q1.history ++ src }) rfl rfl
      (by simpa [hq1] using hm) (q1.history ++ src)
      (((q1.history ++ src).length : Int) - 7 - q1.history.length).toNat q1.history.length
      ⟨dst, q1.history.length, absoluteMatch.zero, absoluteMatch.zero, absoluteMatch.zero, q1.table⟩
    simp only [Option.map_some']
    rw [e]
    cases scan arch { q1 with HashLen := hl, history := q1.history ++ src } (q1.history ++ src)
      (((q1.history ++ src).length : Int) - 7 - q1.history.length).toNat q1.history.length
      ⟨dst, q1.history.length, absoluteMatch.zero, absoluteMatch.zero, absoluteMatch.zero, q1.table⟩
      <;> rfl

theorem wrapInt_eq_neg (arch : GOARCH) (x : Int) (h0 : x < 0) (h1 : -(2 ^ (intBits arch - 1)) ≤ x) :
    wrapInt arch x = x := by
  unfold wrapInt
  cases arch <;> simp only [intBits] at h1 ⊢ <;> norm_num at h1 ⊢ <;> omega

theorem hashMask_ge_eight (arch : GOARCH) (hl : Int) (h0 : 8 ≤ hl) (h1 : hl < 2 ^ (intBits arch - 4)) :
    hashMask arch hl = some (2 ^ 64 - 1) := by
  have hw : wrapInt arch (8 * hl) = 8 * hl := by
    apply wrapInt_eq
    · omega
    · cases arch <;> simp only [intBits] at h1 ⊢ <;> norm_num at h1 ⊢ <;> omega
  simp only [hashMask, hw]
  rw [if_neg (by omega), if_neg (by omega)]
  rfl

theorem hashMask_neg (arch : GOARCH) (hl : Int) (h0 : hl < 0) (h1 : -(2 ^ (intBits arch - 4)) ≤ hl) :
    hashMask arch hl = none := by
  have hw : wrapInt arch (8 * hl) = 8 * hl := by
    apply wrapInt_eq_neg
    · omega
    · cases arch <;> simp only [intBits] at h1 ⊢ <;> norm_num at h1 ⊢ <;> omega
  simp only [hashMask, hw]
  rw [if_pos (by omega)]

/-- With `MaxDistance` positive and in range the trim block does not panic. -/
theorem trim_returns (arch : GOARCH) (q : M4) (h0 : 0 < q.MaxDistance)
    (h1 : q.MaxDistance < 2 ^ (intBits arch - 2)) : ∃ q1, trim arch q = some q1 := by
  unfold trim
  have hw : wrapInt arch (q.MaxDistance * 2) = q.MaxDistance * 2 := by
    apply wrapInt_eq
    · omega
    · cases arch <;> simp only [intBits] at h1 ⊢ <;> norm_num at h1 ⊢ <;> omega
  rw [hw]
  by_cases hc : (q.history.length : Int) > q.MaxDistance * 2
  · rw [if_pos hc]
    have hp : ¬ ((q.history.length : Int) - q.MaxDistance < 0 ∨
        (q.history.length : Int) - q.MaxDistance > q.history.length) := by omega
    simp only [if_neg hp]
    exact ⟨_, rfl⟩
  · rw [if_neg hc]
    exact ⟨_, rfl⟩

/-- A chunk of fewer than 8 bytes is not scanned: when the trim does not panic the call
returns the record for the literals of the chunk, and `HashLen` is never read. -/
theorem findMatches_short (arch : GOARCH) (q : M4) (dst : List Match) (src : List UInt8)
    (hs : src.length < 8) {q1 : M4} (ht : trim arch (applyDefaults q) = some q1) :
    M4.FindMatches arch q dst src
      = some ({ q1 with history := q1.history ++ src },
          dst ++ (if src.length = 0 then [] else [⟨src.length, 0, 0⟩])) := by
  have e : (((q1.history ++ src).length : Int) - 7 - q1.history.length).toNat = 0 := by
    rw [List.length_append]; push_cast; omega
  unfold M4.FindMatches
  rw [ht]
  simp only
  rw [e]
  have hl : ((q1.history ++ src).length : Int) = q1.history.length + src.length := by
    rw [List.length_append]
    push_cast
    rfl
  simp only [scan, finish, emitOlder, ne_eq, not_true_eq_false, if_false, hl]
  by_cases hz : src.length = 0
  · rw [if_neg (by omega), if_pos hz, List.append_nil]
  · rw [if_pos (by omega), if_neg hz, add_sub_cancel_left]

/-- C11, as the code behaves. `HashLen` is never checked.  A value above 8 (for example 9)
is not reported: `1<<(8*HashLen)` is 0 as a `uint64`, the mask is all ones, and the call
scans the input and returns the same records as with `HashLen = 8`.  A negative value is
not checked before the scan either: the mask expression panics on the negative shift
count where it is evaluated, at each position that is hashed, so the call panics when the
chunk has 8 bytes or more; and when the
chunk has fewer than 8 bytes no position is hashed and the call returns the record for the
literals of the chunk whatever `HashLen` is, also a negative one (`MaxDistance` in range,
`0 ≤ MaxDistance < 2^(w-2)` with `w` the width of `int`, so that the trim does not panic). -/
theorem hashLen_not_validated (arch : GOARCH) (q : M4) (dst : List Match) (src : List UInt8) :
    (8 ≤ q.HashLen → q.HashLen < 2 ^ (intBits arch - 4) →
      (M4.FindMatches arch q dst src).map Prod.snd
        = (M4.FindMatches arch { q with HashLen := 8 } dst src).map Prod.snd) ∧
    (q.HashLen < 0 → -(2 ^ (intBits arch - 4)) ≤ q.HashLen →
      hashMask arch q.HashLen = none ∧
      (8 ≤ src.length → M4.FindMatches arch q dst src = none)) ∧
    (src.length < 8 → 0 ≤ q.MaxDistance → q.MaxDistance < 2 ^ (intBits arch - 2) →
      ∃ q1, M4.FindMatches arch q dst src
        = some (q1, dst ++ (if src.length = 0 then [] else [⟨src.length, 0, 0⟩]))) := by
  refine ⟨?_, ?_, ?_⟩
  · intro h0 h1
    apply findMatches_hashLen arch q 8 (by omega) (by omega)
    rw [hashMask_ge_eight arch q.HashLen h0 h1, hashMask_ge_eight arch 8 (le_refl _)
      (by cases arch <;> simp only [intBits] <;> norm_num)]
  · intro h0 h1
    refine ⟨hashMask_neg arch q.HashLen h0 h1, fun hlen => ?_⟩
    cases h : M4.FindMatches arch q dst src with
    | none => rfl
    | some r =>
      exfalso
      obtain ⟨q1, ht, hm⟩ := findMatches_some arch q dst src h
      rcases hm with hm | ⟨mask, hmask⟩
      · omega
      · have hq1 : q1.HashLen = q.HashLen := by
          rw [(trim_config arch ht).2.2]
          simp only [applyDefaults]
          rw [if_neg (by omega)]
        rw [hq1, hashMask_neg arch q.HashLen h0 h1] at hmask
        simp at hmask
  · intro hs hmd hmd2
    have h0 : 0 < (applyDefaults q).MaxDistance := by
      simp only [applyDefaults]
      split <;> omega
    have h1 : (applyDefaults q).MaxDistance < 2 ^ (intBits arch - 2) := by
      simp only [applyDefaults]
      split
      · cases arch <;> simp only [intBits] <;> norm_num
      · exact hmd2
    obtain ⟨q1, ht⟩ := trim_returns arch (applyDefaults q) h0 h1
    exact ⟨_, findMatches_short arch q dst src hs ht⟩

/-- C11 at concrete inputs: `HashLen = 9` on amd64 gives the records of `HashLen = 8`;
`HashLen = -1` panics on the 25 bytes of `zeroAbcd6` and returns the literal record on the
7 bytes `abcd3[:7]`. -/
theorem hashLen_not_validated_witness :
    (M4.FindMatches .amd64 (M4.fresh 0 0 9) [] zeroAbcd6).map Prod.snd
        = (M4.FindMatches .amd64 { M4.fresh 0 0 9 with HashLen := 8 } [] zeroAbcd6).map Prod.snd ∧
      M4.FindMatches .amd64 (M4.fresh 0 0 (-1)) [] zeroAbcd6 = none ∧
      ∃ q1, M4.FindMatches .amd64 (M4.fresh 0 0 (-1)) [] (abcd3.take 7)
        = some (q1, [] ++ (if (abcd3.take 7).length = 0 then [] else
            [⟨(abcd3.take 7).length, 0, 0⟩])) :=
  ⟨(hashLen_not_validated .amd64 (M4.fresh 0 0 9) [] zeroAbcd6).1 (by simp [M4.fresh])
      (by simp [M4.fresh, intBits]),
    ((hashLen_not_validated .amd64 (M4.fresh 0 0 (-1)) [] zeroAbcd6).2.1 (by simp [M4.fresh])
      (by simp [M4.fresh, intBits])).2 (by decide),
    (hashLen_not_validated .amd64 (M4.fresh 0 0 (-1)) [] (abcd3.take 7)).2.2 (by decide)
      (by simp [M4.fresh]) (by simp [M4.fresh, intBits])⟩

/-- C11 as stated fails: with `HashLen = 9` the call on `zeroAbcd6` reports nothing, scans
the input and returns a match record. -/
theorem hashLen_nine_scans :
    (M4.FindMatches .amd64 (M4.fresh 0 0 9) [] zeroAbcd6).map Prod.snd = some [⟨5, 20, 4⟩] := by
  decide

/-! ## C14: what `extendMatch` returns -/

theorem commonPrefixLen_take : ∀ (a b : List UInt8),
    a.take (commonPrefixLen a b) = b.take (commonPrefixLen a b)
  | [], _ => by simp [commonPrefixLen]
  | _ :: _, [] => by simp [commonPrefixLen]
  | x :: a, y :: b => by
    simp only [commonPrefixLen]
    by_cases hxy : x = y
    · rw [if_pos hxy, Nat.add_comm 1, List.take_succ_cons, List.take_succ_cons, hxy,
        commonPrefixLen_take a b]
    · rw [if_neg hxy]
      rfl

theorem commonPrefixLen_max : ∀ (a b : List UInt8) (n : Nat), n ≤ a.length → n ≤ b.length →
    a.take n = b.take n → n ≤ commonPrefixLen a b
  | _, _, 0, _, _, _ => Nat.zero_le _
  | [], _, n + 1, h, _, _ => by simp at h
  | _ :: _, [], n + 1, _, h, _ => by simp at h
  | x :: a, y :: b, n + 1, ha, hb, h => by
    simp only [List.take_succ_cons, List.cons.injEq] at h
    simp only [List.length_cons] at ha hb
    have ih := commonPrefixLen_max a b n (by omega) (by omega) h.2
    simp only [commonPrefixLen]
    rw [if_pos h.1]
    omega

/-- C14. For `0 ≤ i < j ≤ len(src)`, on every target, `extendMatch(src, i, j)` returns a `k`
with `j ≤ k ≤ len(src)` such that `src[i : i+k-j]` equals `src[j : k]`; no larger `k` up to
`len(src)` has that property; and either `k = len(src)` or `src[i+k-j] ≠ src[k]`. -/
theorem extendMatch_largest (arch : GOARCH) (src : List UInt8) (i j : Nat) (hij : i < j)
    (hj : j ≤ src.length) :
    ∃ k : Nat, extendMatch arch src (i : Int) (j : Int) = some (k : Int) ∧ j ≤ k ∧ k ≤ src.length ∧
      goSlice src i (i + k - j) = goSlice src j k ∧
      (∀ k1, j ≤ k1 → k1 ≤ src.length → goSlice src i (i + k1 - j) = goSlice src j k1 → k1 ≤ k) ∧
      (k = src.length ∨ byteAt src ((i : Int) + k - j) ≠ byteAt src (k : Int)) := by
  have hle := commonPrefixLen_le_right (src.drop i) (src.drop j)
  rw [List.length_drop] at hle
  refine ⟨j + commonPrefixLen (src.drop i) (src.drop j), extendMatch_eq arch src i j (le_of_lt hij),
    by omega, by omega, ?_, ?_, ?_⟩
  · have := commonPrefixLen_take (src.drop i) (src.drop j)
    simp only [goSlice]
    rw [show i + (j + commonPrefixLen (src.drop i) (src.drop j)) - j - i
        = commonPrefixLen (src.drop i) (src.drop j) by omega,
      show j + commonPrefixLen (src.drop i) (src.drop j) - j
        = commonPrefixLen (src.drop i) (src.drop j) by omega]
    exact this
  · intro k1 hk1 hk2 heq
    simp only [goSlice] at heq
    rw [show i + k1 - j - i = k1 - j by omega] at heq
    have := commonPrefixLen_max (src.drop i) (src.drop j) (k1 - j)
      (by rw [List.length_drop]; omega) (by rw [List.length_drop]; omega) heq
    omega
  · by_cases hk : j + commonPrefixLen (src.drop i) (src.drop j) = src.length
    · exact Or.inl hk
    · right
      have hstop := commonPrefixLen_stop (src.drop i) (src.drop j)
        (by rw [List.length_drop]; omega) (by rw [List.length_drop]; omega)
      rw [List.getElem?_drop, List.getElem?_drop] at hstop
      rw [show ((i : Int) + ((j + commonPrefixLen (src.drop i) (src.drop j) : Nat) : Int) - j)
          = ((i + commonPrefixLen (src.drop i) (src.drop j) : Nat) : Int) by push_cast; ring,
        byteAt_natCast, byteAt_natCast]
      exact hstop

/-- C14 at a concrete input: `extendMatch(zeroAbcd6, 1, 5)` on amd64. -/
theorem extendMatch_largest_witness :
    ∃ k : Nat, extendMatch .amd64 zeroAbcd6 ((1 : Nat) : Int) ((5 : Nat) : Int) = some (k : Int) ∧
      5 ≤ k ∧ k ≤ zeroAbcd6.length ∧
      goSlice zeroAbcd6 1 (1 + k - 5) = goSlice zeroAbcd6 5 k ∧
      (∀ k1, 5 ≤ k1 → k1 ≤ zeroAbcd6.length →
        goSlice zeroAbcd6 1 (1 + k1 - 5) = goSlice zeroAbcd6 5 k1 → k1 ≤ k) ∧
      (k = zeroAbcd6.length ∨
        byteAt zeroAbcd6 (((1 : Nat) : Int) + k - ((5 : Nat) : Int)) ≠ byteAt zeroAbcd6 (k : Int)) :=
  extendMatch_largest .amd64 zeroAbcd6 1 5 (by decide) (by decide)

/-! ## C18: the three paths of `extendMatch` agree -/

/-- The word loop is never cut short by its iteration bound: when it hands over to the
byte loop, its condition `j + w < len(src)` is false. -/
theorem extendWords_exit (w : Nat) (hw : 0 < w) (src : List UInt8) :
    ∀ (n : Nat) (i j i1 j1 : Int), (src.length : Int) - j ≤ n →
      extendWords w src n i j = some (.inr (i1, j1)) → ¬ (j1 + w < src.length)
  | 0, i, j, i1, j1, hn, h => by
    simp only [extendWords, Option.some.injEq, Sum.inr.injEq, Prod.mk.injEq] at h
    omega
  | n + 1, i, j, i1, j1, hn, h => by
    simp only [extendWords] at h
    by_cases hc : j + w < src.length
    · rw [if_pos hc] at h
      cases hA : uintAt w src i with
      | none => rw [hA] at h; simp at h
      | some a =>
        cases hB : uintAt w src j with
        | none => rw [hA, hB] at h; simp at h
        | some b =>
          rw [hA, hB] at h
          simp only at h
          by_cases hab : a = b
          · simp only [ne_eq, hab, not_true_eq_false, if_false] at h
            exact extendWords_exit w hw src n (i + w) (j + w) i1 j1 (by push_cast at hn; omega) h
          · simp [hab] at h
    · rw [if_neg hc] at h
      simp only [Option.some.injEq, Sum.inr.injEq, Prod.mk.injEq] at h
      omega

/-- C18. For `0 ≤ i < j ≤ len(src)` the amd64 path (8-byte loads, XOR, trailing zeros
shifted right by 3, then the byte loop), the 386 path (the same with 4-byte loads) and
the plain byte loop all return the same `k`; so `extendMatch` returns it on every target. -/
theorem extendMatch_paths_agree (src : List UInt8) (i j : Nat) (hij : i < j)
    (hj : j ≤ src.length) :
    ∃ k : Int, extendWordsThenBytes 8 src i j = some k ∧ extendWordsThenBytes 4 src i j = some k ∧
      extendBytes src ((src.length : Int) - j).toNat i j = some k ∧
      ∀ arch, extendMatch arch src i j = some k :=
  ⟨_, extendWords_eq 8 src _ i j (le_of_lt hij), extendWords_eq 4 src _ i j (le_of_lt hij),
    extendBytes_eq src _ i j (le_of_lt hij) (by omega),
    fun arch => extendMatch_eq arch src i j (le_of_lt hij)⟩

/-- C18 at a concrete input: positions 1 and 5 of `zeroAbcd6`. -/
theorem extendMatch_paths_agree_witness :
    ∃ k : Int, extendWordsThenBytes 8 zeroAbcd6 ((1 : Nat) : Int) ((5 : Nat) : Int) = some k ∧
      extendWordsThenBytes 4 zeroAbcd6 ((1 : Nat) : Int) ((5 : Nat) : Int) = some k ∧
      extendBytes zeroAbcd6 ((zeroAbcd6.length : Int) - ((5 : Nat) : Int)).toNat
        ((1 : Nat) : Int) ((5 : Nat) : Int) = some k ∧
      ∀ arch, extendMatch arch zeroAbcd6 ((1 : Nat) : Int) ((5 : Nat) : Int) = some k :=
  extendMatch_paths_agree zeroAbcd6 1 5 (by decide) (by decide)

/-! ## C16: the value 0 in a table slot -/

/-- C16, as the code behaves. The scheduler does not distinguish position 0 from an empty
slot.  A slot that holds 0 is always treated as empty, also when position 0 was hashed into
it: the candidate 0 leaves the iteration by `continue` whatever the bytes are, so position 0
is never accepted as a match candidate and the iteration only flushes and overwrites the
slot.  A match can still come to begin at position 0, through the backward extension of a
match found at a later candidate: in `backToZero` (the bytes 1..8, 1..8, 9..17) position 8
reads the candidate 0 and is skipped, position 9 reads the candidate 1, and the match found
there is extended backward to `Start = 8`, `Match = 0`; the records are `{8, 8, 8}` and
`{9, 0, 0}`, on every target. -/
theorem zero_candidate_skipped (arch : GOARCH) (q : M4) (src : List UInt8) (s : Scan) (i : Int) :
    findCandidate arch q.MaxDistance src s i 0 = some none ∧
      (∀ h, hashIndex arch q.HashLen src i = some h → (flush q.MinLength s i).table h = 0 →
        step arch q src s i = some { flush q.MinLength s i with
          table := fun k => if k = h then i.toNat % 2 ^ 32 else (flush q.MinLength s i).table k }) ∧
      ((loopStateAt arch (M4.fresh 65535 4 6) [] backToZero 8).bind
          (fun t => (hashIndex arch 6 backToZero 8).map t.table) = some 0 ∧
        (loopStateAt arch (M4.fresh 65535 4 6) [] backToZero 9).map Scan.m0
          = some absoluteMatch.zero ∧
        (loopStateAt arch (M4.fresh 65535 4 6) [] backToZero 9).bind
          (fun t => (hashIndex arch 6 backToZero 9).map t.table) = some 1 ∧
        (loopStateAt arch (M4.fresh 65535 4 6) [] backToZero 10).map Scan.m0
          = some ⟨8, 16, 0⟩ ∧
        (M4.FindMatches arch (M4.fresh 65535 4 6) [] backToZero).map Prod.snd
          = some [⟨8, 8, 8⟩, ⟨9, 0, 0⟩]) := by
  have hfc : ∀ t : Scan, findCandidate arch q.MaxDistance src t i 0 = some none := fun t => by
    simp only [findCandidate, true_or, if_true]
  refine ⟨hfc s, fun h hh h0 => ?_, ?_⟩
  · simp only [step, hh, h0, Nat.cast_zero, hfc]
  · cases arch <;> decide

/-- C16 at a concrete input: position 0 of `repeatAtZero`, all slots still zero. -/
theorem zero_candidate_skipped_witness :
    step .amd64 (M4.fresh 65535 4 6) repeatAtZero
        ⟨[], 0, absoluteMatch.zero, absoluteMatch.zero, absoluteMatch.zero, fun _ => 0⟩ 0
      = some { flush 4 ⟨[], 0, absoluteMatch.zero, absoluteMatch.zero, absoluteMatch.zero,
            fun _ => 0⟩ 0 with
          table := fun k => if k = 40032 then (0 : Int).toNat % 2 ^ 32
            else (flush 4 ⟨[], 0, absoluteMatch.zero, absoluteMatch.zero, absoluteMatch.zero,
              fun _ => 0⟩ 0).table k } :=
  (zero_candidate_skipped .amd64 (M4.fresh 65535 4 6) repeatAtZero
    ⟨[], 0, absoluteMatch.zero, absoluteMatch.zero, absoluteMatch.zero, fun _ => 0⟩ 0).2.1
    40032 (by decide) rfl

/-- C16 as stated fails: in `repeatAtZero` positions 0 and 6 have the same first four
bytes and the same table slot, position 6 is within `MaxDistance` of position 0, and yet
the call reports no match. -/
theorem position_zero_not_matched :
    uintAt 4 repeatAtZero 0 = uintAt 4 repeatAtZero 6 ∧
      hashIndex .amd64 6 repeatAtZero 0 = hashIndex .amd64 6 repeatAtZero 6 ∧
      (M4.FindMatches .amd64 (M4.fresh 65535 4 6) [] repeatAtZero).map Prod.snd
        = some [⟨20, 0, 0⟩] := by
  decide

/-! ## C17: the trim of the history -/

theorem findMatches_history (arch : GOARCH) (q : M4) (dst : List Match) (src : List UInt8)
    {r : M4 × List Match} (h : M4.FindMatches arch q dst src = some r) :
    ∃ qt, trim arch (applyDefaults q) = some qt ∧ r.1.history = qt.history ++ src := by
  unfold M4.FindMatches at h
  cases ht : trim arch (applyDefaults q) with
  | none => rw [ht] at h; simp at h
  | some q1 =>
    rw [ht] at h
    simp only at h
    split at h
    · simp at h
    · rw [Option.some.injEq] at h
      subst h
      exact ⟨q1, rfl, rfl⟩

/-- The trim block on a state whose `MaxDistance` is positive and in range and whose table
holds `uint32` values. -/
theorem trim_exact (arch : GOARCH) (q : M4) (htab : ∀ k, q.table k < 2 ^ 32)
    (h0 : 0 < q.MaxDistance) (h1 : q.MaxDistance < 2 ^ (intBits arch - 2)) :
    ((q.history.length : Int) > 2 * q.MaxDistance →
      trim arch q = some { q with
        history := q.history.drop (q.history.length - q.MaxDistance.toNat)
        table := fun k => (max ((q.table k : Int) - (q.history.length - q.MaxDistance)) 0).toNat }) ∧
    ((q.history.length : Int) ≤ 2 * q.MaxDistance → trim arch q = some q) := by
  have hw : wrapInt arch (q.MaxDistance * 2) = q.MaxDistance * 2 := by
    apply wrapInt_eq
    · omega
    · cases arch <;> simp only [intBits] at h1 ⊢ <;> norm_num at h1 ⊢ <;> omega
  constructor
  · intro hc
    have hp : ¬ ((q.history.length : Int) - q.MaxDistance < 0 ∨
        (q.history.length : Int) - q.MaxDistance > q.history.length) := by omega
    have hlen : (List.drop ((q.history.length : Int) - q.MaxDistance).toNat q.history).length
        = q.MaxDistance.toNat := by
      rw [List.length_drop]; omega
    have hh : List.take q.MaxDistance.toNat
        (List.drop ((q.history.length : Int) - q.MaxDistance).toNat q.history ++
          List.drop (q.history.length - ((q.history.length : Int) - q.MaxDistance).toNat) q.history)
        = List.drop (q.history.length - q.MaxDistance.toNat) q.history := by
      rw [← hlen, List.take_left' rfl]
      congr 1
      omega
    have ht : (fun k => (max ((q.table k : Int) - ((q.history.length : Int) - q.MaxDistance)) 0).toNat
          % 2 ^ 32)
        = fun k => (max ((q.table k : Int) - ((q.history.length : Int) - q.MaxDistance)) 0).toNat := by
      funext k
      apply Nat.mod_eq_of_lt
      have := htab k
      omega
    simp only [trim, hw, if_pos (show (q.history.length : Int) > q.MaxDistance * 2 by omega),
      if_neg hp, hh, ht]
  · intro hc
    simp only [trim, hw, if_neg (show ¬ (q.history.length : Int) > q.MaxDistance * 2 by omega)]

theorem applyDefaults_with (q : M4) (h : List UInt8) (t : Nat → Nat) :
    applyDefaults { applyDefaults q with history := h, table := t }
      = { applyDefaults q with history := h, table := t } := by
  simp only [applyDefaults]
  congr 1 <;> split <;> simp_all

/-- C17, as the code behaves. For `0 ≤ MaxDistance < 2^(w-2)` (`w` the width of `int`, so
that `MaxDistance*2` does not overflow; 0 stands for the default, and `MaxDistance` below
is the value after the defaults are filled in), a history whose length is an `int`, and
table slots that are `uint32` values whose conversion to `int` is exact (every `uint32` on
a 64-bit target, values below `2^31` on a 32-bit target):
`FindMatches` trims exactly when `len(history) > 2*MaxDistance` on entry.  Then `int(v)`
and `int(v) - delta` are exact for `delta = len(history) - MaxDistance`, the history becomes
the last `MaxDistance` bytes of the previous one, every table slot `v` becomes
`max(v - delta, 0)`, the loop starts at index `MaxDistance` with that table, and the call
is the call on the trimmed state.  Otherwise the loop starts at `len(history)` with history
and table unchanged. -/
theorem history_trim (arch : GOARCH) (q : M4) (hmd : 0 ≤ q.MaxDistance)
    (hmd2 : q.MaxDistance < 2 ^ (intBits arch - 2))
    (hlen : (q.history.length : Int) < 2 ^ (intBits arch - 1))
    (htab : ∀ k, q.table k < 2 ^ 32) (hint : ∀ k, (q.table k : Int) < 2 ^ (intBits arch - 1))
    (dst : List Match) (src : List UInt8) :
    ((q.history.length : Int) > 2 * (applyDefaults q).MaxDistance →
      (∀ k, wrapInt arch (q.table k) = q.table k ∧
        wrapInt arch ((q.table k : Int) - (q.history.length - (applyDefaults q).MaxDistance))
          = (q.table k : Int) - (q.history.length - (applyDefaults q).MaxDistance)) ∧
      trim arch (applyDefaults q) = some { applyDefaults q with
        history := q.history.drop (q.history.length - (applyDefaults q).MaxDistance.toNat)
        table := fun k => (max ((q.table k : Int)
          - (q.history.length - (applyDefaults q).MaxDistance)) 0).toNat } ∧
      ((q.history.drop (q.history.length - (applyDefaults q).MaxDistance.toNat)).length : Int)
        = (applyDefaults q).MaxDistance ∧
      loopStateAt arch q dst src 0
        = some ⟨dst, (applyDefaults q).MaxDistance, absoluteMatch.zero, absoluteMatch.zero,
            absoluteMatch.zero, fun k => (max ((q.table k : Int)
              - (q.history.length - (applyDefaults q).MaxDistance)) 0).toNat⟩ ∧
      M4.FindMatches arch q dst src = M4.FindMatches arch { applyDefaults q with
        history := q.history.drop (q.history.length - (applyDefaults q).MaxDistance.toNat)
        table := fun k => (max ((q.table k : Int)
          - (q.history.length - (applyDefaults q).MaxDistance)) 0).toNat } dst src ∧
      ∀ q1 out, M4.FindMatches arch q dst src = some (q1, out) →
        q1.history = q.history.drop (q.history.length - (applyDefaults q).MaxDistance.toNat) ++ src) ∧
    ((q.history.length : Int) ≤ 2 * (applyDefaults q).MaxDistance →
      trim arch (applyDefaults q) = some (applyDefaults q) ∧
      loopStateAt arch q dst src 0
        = some ⟨dst, q.history.length, absoluteMatch.zero, absoluteMatch.zero,
            absoluteMatch.zero, q.table⟩ ∧
      ∀ q1 out, M4.FindMatches arch q dst src = some (q1, out) → q1.history = q.history ++ src) := by
  have h0 : 0 < (applyDefaults q).MaxDistance := by
    simp only [applyDefaults]
    split <;> omega
  have h1 : (applyDefaults q).MaxDistance < 2 ^ (intBits arch - 2) := by
    simp only [applyDefaults]
    split
    · cases arch <;> simp only [intBits] <;> norm_num
    · exact hmd2
  obtain ⟨ha, hb⟩ := trim_exact arch (applyDefaults q) htab h0 h1
  constructor
  · intro hc
    have ht := ha hc
    have hl : ((q.history.drop (q.history.length - (applyDefaults q).MaxDistance.toNat)).length : Int)
        = (applyDefaults q).MaxDistance := by
      rw [List.length_drop]
      omega
    refine ⟨fun k => ⟨wrapInt_eq arch _ (by omega) (hint k), ?_⟩, ht, hl, ?_, ?_, ?_⟩
    · have hk := hint k
      by_cases hs : 0 ≤ (q.table k : Int) - (q.history.length - (applyDefaults q).MaxDistance)
      · exact wrapInt_eq arch _ hs (by omega)
      · exact wrapInt_eq_neg arch _ (by omega) (by omega)
    · show loopStateAt arch q dst src 0 = _
      unfold loopStateAt
      rw [ht]
      simp only [scan]
      rw [show (applyDefaults q).history = q.history from rfl, hl]
      rfl
    · have hd := applyDefaults_with q
        (q.history.drop (q.history.length - (applyDefaults q).MaxDistance.toNat))
        (fun k => (max ((q.table k : Int)
          - (q.history.length - (applyDefaults q).MaxDistance)) 0).toNat)
      have htq := (trim_exact arch { applyDefaults q with
        history := q.history.drop (q.history.length - (applyDefaults q).MaxDistance.toNat)
        table := fun k => (max ((q.table k : Int)
          - (q.history.length - (applyDefaults q).MaxDistance)) 0).toNat }
        (fun k => by
          have := htab k
          show (max ((q.table k : Int) - (q.history.length - (applyDefaults q).MaxDistance)) 0).toNat
            < 2 ^ 32
          omega) h0 h1).2 (by
          show ((q.history.drop (q.history.length - (applyDefaults q).MaxDistance.toNat)).length : Int)
            ≤ 2 * (applyDefaults q).MaxDistance
          omega)
      unfold M4.FindMatches
      rw [hd, htq, ht]
      rfl
    · intro q1 out h
      obtain ⟨qt, hqt, hh⟩ := findMatches_history arch q dst src h
      rw [ht, Option.some.injEq] at hqt
      rw [hh, ← hqt]
      rfl
  · intro hc
    have ht := hb hc
    refine ⟨ht, ?_, ?_⟩
    · unfold loopStateAt
      rw [ht]
      simp only [scan]
      rfl
    · intro q1 out h
      obtain ⟨qt, hqt, hh⟩ := findMatches_history arch q dst src h
      rw [ht, Option.some.injEq] at hqt
      rw [hh, ← hqt]
      rfl

/-- C17 at a concrete input, on a 32-bit target: `longHistory` has 25 bytes of history and
`MaxDistance = 8`, so the call trims to the last 8 bytes and rebases the table by 17. -/
theorem history_trim_witness :
    trim .i386 (applyDefaults longHistory) = some { applyDefaults longHistory with
        history := longHistory.history.drop
          (longHistory.history.length - (applyDefaults longHistory).MaxDistance.toNat)
        table := fun k => (max ((longHistory.table k : Int)
          - (longHistory.history.length - (applyDefaults longHistory).MaxDistance)) 0).toNat } :=
  ((history_trim .i386 longHistory (by simp [longHistory]) (by simp [longHistory, intBits])
    (by simp [longHistory, zeroAbcd6, abcd3, intBits])
    (fun k => by simp only [longHistory]; split_ifs <;> norm_num)
    (fun k => by simp only [longHistory, intBits]; split_ifs <;> norm_num) [] abcd3).1
      (by decide)).2.1

/-- C17 as stated fails: with `MaxDistance = 2^30` and an empty history,
`len(history) ≤ 2*MaxDistance`; but on a 32-bit target `MaxDistance*2` wraps to `-2^31`, the
trim block is entered, `delta` is negative and `q.history[delta:]` panics: history and table
are not left unchanged, the first call fails. -/
theorem maxDistance_wrap_trims :
    ((M4.fresh 1073741824 4 6).history.length : Int)
        ≤ 2 * (applyDefaults (M4.fresh 1073741824 4 6)).MaxDistance ∧
      wrapInt .i386 ((applyDefaults (M4.fresh 1073741824 4 6)).MaxDistance * 2) = -2147483648 ∧
      (trim .i386 (applyDefaults (M4.fresh 1073741824 4 6))).isSome = false ∧
      (M4.FindMatches .i386 (M4.fresh 1073741824 4 6) [] abcd3).isSome = false := by
  decide

/-! ## The loop, iteration by iteration -/

/-- `FindMatches` is the trim, the loop run for `len(src) - 7` iterations, and the
statements after the loop. -/
theorem findMatches_loop (arch : GOARCH) (q : M4) (dst : List Match) (src : List UInt8) :
    M4.FindMatches arch q dst src
      = match trim arch (applyDefaults q), loopStateAt arch q dst src (src.length - 7) with
        | some q1, some s =>
          some ({ q1 with history := q1.history ++ src, table := s.table },
            finish q1.MinLength (q1.history ++ src) s)
        | _, _ => none := by
  unfold M4.FindMatches loopStateAt
  cases ht : trim arch (applyDefaults q) with
  | none => rfl
  | some q1 =>
    have e : (((q1.history ++ src).length : Int) - 7 - q1.history.length).toNat = src.length - 7 := by
      rw [List.length_append]; push_cast; omega
    simp only [e]
    split <;> simp_all

/-- A loop that returned kept the invariant. -/
theorem scan_inv_of_some (arch : GOARCH) (q : M4) {src : List UInt8} {dst0 : List Match}
    {ne0 : Int} : ∀ (n : Nat) (i : Int) (s s1 : Scan),
      ScanInv src q.MaxDistance q.MinLength dst0 ne0 i s → (n ≠ 0 → i + n + 7 ≤ src.length) →
      scan arch q src n i s = some s1 →
      ScanInv src q.MaxDistance q.MinLength dst0 ne0 (i + n) s1 := by
  intro n i s s1 hinv hn hs
  cases n with
  | zero =>
    simp only [scan, Option.some.injEq] at hs
    subst hs
    simpa using hinv
  | succ n =>
    cases hm : hashMask arch q.HashLen with
    | none =>
      simp only [scan, step_none arch q src s i hm] at hs
      simp at hs
    | some mask =>
      obtain ⟨s2, hs2, hinv2⟩ := scan_inv arch q hm (n + 1) i s hinv (hn (by omega))
      rw [hs2, Option.some.injEq] at hs
      subst hs
      exact hinv2

theorem scan_add (arch : GOARCH) (q : M4) (src : List UInt8) : ∀ (m n : Nat) (i : Int) (s : Scan),
    scan arch q src (m + n) i s
      = match scan arch q src m i s with
        | none => none
        | some s1 => scan arch q src n (i + m) s1
  | 0, n, i, s => by simp [scan]
  | m + 1, n, i, s => by
    rw [show m + 1 + n = (m + n) + 1 by omega]
    simp only [scan]
    cases step arch q src s i with
    | none => rfl
    | some s1 =>
      simp only
      rw [scan_add arch q src m n (i + 1) s1]
      cases scan arch q src m (i + 1) s1 with
      | none => rfl
      | some s2 =>
        simp only
        congr 1
        push_cast
        ring

/-- The state after `m + 1` iterations is iteration number `m` applied to the state after
`m` iterations: `loopStateAt` follows the loop of the call step by step. -/
theorem loopStateAt_succ (arch : GOARCH) (q : M4) (dst : List Match) (src : List UInt8) (m : Nat) :
    loopStateAt arch q dst src (m + 1)
      = match trim arch (applyDefaults q), loopStateAt arch q dst src m with
        | some q1, some s =>
          step arch { q1 with history := q1.history ++ src } (q1.history ++ src) s
            (q1.history.length + m)
        | _, _ => none := by
  unfold loopStateAt
  cases ht : trim arch (applyDefaults q) with
  | none => rfl
  | some q1 =>
    simp only
    rw [scan_add arch _ _ m 1]
    cases scan arch { q1 with history := q1.history ++ src } (q1.history ++ src) m q1.history.length
        ⟨dst, q1.history.length, absoluteMatch.zero, absoluteMatch.zero, absoluteMatch.zero,
          q1.table⟩ with
    | none => rfl
    | some s =>
      simp only [scan]
      cases step arch { q1 with history := q1.history ++ src } (q1.history ++ src) s
        (q1.history.length + m) <;> rfl

theorem occupied_ne_zero (len : Int) (x : absoluteMatch) (h : Occupied len x) :
    x ≠ absoluteMatch.zero := by
  intro e
  obtain ⟨h1, h2, _, _⟩ := h
  rw [e] at h1 h2
  simp [absoluteMatch.zero] at h1 h2

theorem pend_occupied {src : List UInt8} {maxD ne : Int} {x : absoluteMatch}
    (h : Pend src maxD ne x) : x = absoluteMatch.zero ∨ Occupied src.length x := by
  rcases h with h | ⟨hs, _, hl⟩
  · exact Or.inl h
  · exact Or.inr ⟨hs.match_nonneg, hs.match_lt, by omega, hs.end_le⟩

theorem emitOlder_table (minL : Int) (s : Scan) : (emitOlder minL s).table = s.table := by
  simp only [emitOlder]
  split_ifs <;> rfl

theorem flush_table (minL : Int) (s : Scan) (i : Int) : (flush minL s i).table = s.table := by
  simp only [flush]
  split_ifs
  · simp only [emitNewest, emitOlder_table]
  · rfl

theorem resolve_table (arch : GOARCH) (minL : Int) (s : Scan) (new : absoluteMatch) :
    (resolve arch minL s new).table = s.table := by
  simp only [resolve]
  split_ifs <;> rfl

/-- What one iteration does: it hashes the position, overwrites the slot, and either
leaves the flushed window as it is or pushes a strictly longer new match. -/
theorem step_cases (arch : GOARCH) (q : M4) (src : List UInt8) (s s1 : Scan) (i : Int)
    (h : step arch q src s i = some s1) :
    ∃ hx, hashIndex arch q.HashLen src i = some hx ∧
      (s1 = { flush q.MinLength s i with
          table := fun k => if k = hx then i.toNat % 2 ^ 32 else (flush q.MinLength s i).table k } ∨
        ∃ new, findCandidate arch q.MaxDistance src
            { flush q.MinLength s i with
              table := fun k => if k = hx then i.toNat % 2 ^ 32 else (flush q.MinLength s i).table k }
            i ((flush q.MinLength s i).table hx : Int) = some (some new) ∧
          ¬ (new.End - new.Start ≤ (flush q.MinLength s i).m0.End - (flush q.MinLength s i).m0.Start) ∧
          s1 = resolve arch q.MinLength
            { flush q.MinLength s i with
              table := fun k => if k = hx then i.toNat % 2 ^ 32 else (flush q.MinLength s i).table k }
            new) := by
  simp only [step] at h
  cases hh : hashIndex arch q.HashLen src i with
  | none => rw [hh] at h; simp at h
  | some hx =>
    rw [hh] at h
    simp only at h
    refine ⟨hx, rfl, ?_⟩
    cases hf : findCandidate arch q.MaxDistance src
        { flush q.MinLength s i with
          table := fun k => if k = hx then i.toNat % 2 ^ 32 else (flush q.MinLength s i).table k }
        i ((flush q.MinLength s i).table hx : Int) with
    | none => rw [hf] at h; simp at h
    | some r =>
      rw [hf] at h
      cases r with
      | none =>
        simp only [Option.some.injEq] at h
        exact Or.inl h.symm
      | some new =>
        simp only at h
        by_cases hdom : new.End - new.Start ≤
            (flush q.MinLength s i).m0.End - (flush q.MinLength s i).m0.Start
        · rw [if_pos hdom, Option.some.injEq] at h
          exact Or.inl h.symm
        · rw [if_neg hdom, Option.some.injEq] at h
          exact Or.inr ⟨new, rfl, hdom, h.symm⟩

/-- An iteration that returns writes exactly one slot of the table. -/
theorem step_table (arch : GOARCH) (q : M4) (src : List UInt8) (s s1 : Scan) (i : Int)
    (h : step arch q src s i = some s1) :
    ∃ hx, hashIndex arch q.HashLen src i = some hx ∧
      s1.table = fun k => if k = hx then i.toNat % 2 ^ 32 else s.table k := by
  obtain ⟨hx, hh, hor⟩ := step_cases arch q src s s1 i h
  refine ⟨hx, hh, ?_⟩
  rcases hor with e | ⟨new, _, _, e⟩
  · rw [e]
    simp only [flush_table]
  · rw [e, resolve_table]
    simp only [flush_table]

theorem longer_flush (minL : Int) (s : Scan) (i : Int) (h : Longer s) : Longer (flush minL s i) := by
  simp only [flush]
  split_ifs
  · intro h0
    exact absurd rfl h0
  · exact h

theorem longer_resolve (arch : GOARCH) (minL : Int) (s : Scan) (new : absoluteMatch)
    (h01 : s.m0 = absoluteMatch.zero → s.m1 = absoluteMatch.zero) (hl : Longer s)
    (hnew : ¬ (new.End - new.Start ≤ s.m0.End - s.m0.Start)) :
    Longer (resolve arch minL s new) := by
  have hpush : ∀ t : Scan, t.m0 = new → t.m1 = s.m0 → Longer t := fun t e0 e1 _ _ => by
    rw [e0, e1]; omega
  have hover : ∀ t : Scan, t.m0 = new → t.m1 = s.m1 → s.m1 ≠ absoluteMatch.zero → Longer t :=
    fun t e0 e1 hz1 _ _ => by
      have := hl (fun e => hz1 (h01 e)) hz1
      rw [e0, e1]; omega
  have hempty : ∀ t : Scan, t.m1 = absoluteMatch.zero → Longer t := fun t e1 _ h1 => absurd e1 h1
  simp only [resolve]
  split_ifs with hz1 <;>
    first
    | exact hpush _ rfl rfl
    | exact hover _ rfl rfl hz1
    | exact hempty _ rfl

theorem step_longer (arch : GOARCH) (q : M4) {src : List UInt8} {dst0 : List Match} {ne0 i : Int}
    {s s1 : Scan} (hinv : ScanInv src q.MaxDistance q.MinLength dst0 ne0 i s) (hl : Longer s)
    (h : step arch q src s i = some s1) : Longer s1 := by
  obtain ⟨hx, _, hor⟩ := step_cases arch q src s s1 i h
  have hlf := longer_flush q.MinLength s i hl
  rcases hor with e | ⟨new, _, hdom, e⟩
  · rw [e]
    exact hlf
  · rw [e]
    exact longer_resolve arch q.MinLength _ new (flush_inv hinv).m01 hlf hdom

theorem scan_longer (arch : GOARCH) (q : M4) {src : List UInt8} {dst0 : List Match} {ne0 : Int} :
    ∀ (n : Nat) (i : Int) (s s1 : Scan),
      ScanInv src q.MaxDistance q.MinLength dst0 ne0 i s → Longer s →
      (n ≠ 0 → i + n + 7 ≤ src.length) → scan arch q src n i s = some s1 → Longer s1
  | 0, i, s, s1, _, hl, _, hs => by
    simp only [scan, Option.some.injEq] at hs
    rw [← hs]
    exact hl
  | n + 1, i, s, s1, hinv, hl, hn, hs => by
    have hn1 := hn (by omega)
    simp only [scan] at hs
    cases hstep : step arch q src s i with
    | none => rw [hstep] at hs; simp at hs
    | some s2 =>
      rw [hstep] at hs
      simp only at hs
      have hinv2 := scan_inv_of_some arch q 1 i s s2 hinv (fun _ => by push_cast at hn1 ⊢; omega)
        (by simp only [scan, hstep])
      exact scan_longer arch q n (i + 1) s2 s1 (by simpa using hinv2) (step_longer arch q hinv hl hstep)
        (fun _ => by push_cast at hn1; omega) hs

theorem scanInv_init (q1 : M4) (hT : TableOK q1) (dst : List Match) (src : List UInt8) :
    ScanInv (q1.history ++ src) q1.MaxDistance q1.MinLength dst q1.history.length
      q1.history.length
      ⟨dst, q1.history.length, absoluteMatch.zero, absoluteMatch.zero, absoluteMatch.zero,
        q1.table⟩ :=
  ⟨⟨[], by simp, rfl⟩, by simp, le_refl _, Or.inl rfl, Or.inl rfl, rfl, fun _ => rfl,
    fun k hk => by exact_mod_cast hT k hk⟩

/-- The state at the start of every iteration satisfies the loop invariant, and its newer
pending match is the longer one. -/
theorem loopState_inv (arch : GOARCH) (q : M4) (hT : TableOK q) (dst : List Match)
    (src : List UInt8) {q1 : M4} (ht : trim arch (applyDefaults q) = some q1) (m : Nat)
    (hm : m ≤ src.length - 7) {s : Scan} (hs : loopStateAt arch q dst src m = some s) :
    ScanInv (q1.history ++ src) q1.MaxDistance q1.MinLength dst q1.history.length
      (q1.history.length + m) s ∧ Longer s := by
  obtain ⟨hT1, _⟩ := trim_spec arch ht (show TableOK (applyDefaults q) from hT)
  simp only [loopStateAt, ht] at hs
  have hb : m ≠ 0 → (q1.history.length : Int) + m + 7 ≤ (q1.history ++ src).length := by
    intro h0
    rw [List.length_append]
    push_cast
    omega
  exact ⟨scan_inv_of_some arch { q1 with history := q1.history ++ src } m _ _ s
      (scanInv_init q1 hT1 dst src) hb hs,
    scan_longer arch { q1 with history := q1.history ++ src } m _ _ s
      (scanInv_init q1 hT1 dst src) (fun h0 => absurd rfl h0) hb hs⟩

/-- With a configuration in range every iteration of the loop is reached. -/
theorem loopState_exists (arch : GOARCH) (q : M4) (hT : TableOK q) (hw : WellFormed arch q)
    (dst : List Match) (src : List UInt8) (m : Nat) (hm : m ≤ src.length - 7) :
    ∃ s, loopStateAt arch q dst src m = some s := by
  obtain ⟨⟨q1, ht⟩, ⟨mask, hmask⟩⟩ := wellFormed_no_panic hw
  obtain ⟨hT1, _, _, _, hd3⟩ := trim_spec arch ht (show TableOK (applyDefaults q) from hT)
  have hmask1 : hashMask arch ({ q1 with history := q1.history ++ src } : M4).HashLen = some mask := by
    rw [← hd3] at hmask
    exact hmask
  by_cases h0 : m = 0
  · subst h0
    exact ⟨⟨dst, q1.history.length, absoluteMatch.zero, absoluteMatch.zero, absoluteMatch.zero,
      q1.table⟩, by simp only [loopStateAt, ht, scan]⟩
  · obtain ⟨s, hs, _⟩ := scan_inv arch { q1 with history := q1.history ++ src } hmask1 m _ _
      (scanInv_init q1 hT1 dst src) (by rw [List.length_append]; push_cast; omega)
    exact ⟨s, by simp only [loopStateAt, ht, hs]⟩

theorem findMatchesAll_tableOK (arch : GOARCH) :
    ∀ (cs : List (List UInt8)) (q : M4) (dst : List Match) (q1 : M4) (out : List Match),
      TableOK q → FindMatchesAll arch q dst cs = some (q1, out) → TableOK q1
  | [], q, dst, q1, out, hT, h => by
    simp only [FindMatchesAll, Option.some.injEq, Prod.mk.injEq] at h
    rw [← h.1]
    exact hT
  | c :: cs, q, dst, q1, out, hT, h => by
    simp only [FindMatchesAll] at h
    cases hfm : M4.FindMatches arch q dst c with
    | none => rw [hfm] at h; simp at h
    | some r =>
      obtain ⟨q2, out2⟩ := r
      rw [hfm] at h
      simp only at h
      obtain ⟨_, _, _, _, hT2, _⟩ := findMatches_shape arch q dst c hT hfm
      exact findMatchesAll_tableOK arch cs q2 out2 q1 out hT2 h

/-! ## C15: bounds safety -/

/-- C15, as the code behaves. With `1 ≤ MaxDistance < 2^(w-2)` (`w` the width of `int`, so
that `MaxDistance*2` does not overflow) and `1 ≤ HashLen ≤ 8`, whatever `MinLength` is, in
every state reachable since a `Reset`: every sequence of calls returns, that is no slice
or index expression is out of range (hash read, 4-byte reads, backward extension, trim,
`extendMatch`), and afterwards every table entry is 0 or a position inside the history;
within a call the trim succeeds, every iteration of the loop is reached, and at its start
every table entry is 0 or a position before the current one. -/
theorem bounds_safety (arch : GOARCH) (q : M4) (hq : Reachable arch q)
    (h1 : 1 ≤ q.MaxDistance) (h2 : q.MaxDistance < 2 ^ (intBits arch - 2))
    (h3 : 1 ≤ q.HashLen) (h4 : q.HashLen ≤ 8) (dst : List Match) :
    (∀ chunks, ∃ q1 out, FindMatchesAll arch q dst chunks = some (q1, out) ∧
      ∀ k, q1.table k = 0 ∨ q1.table k < q1.history.length) ∧
    (∀ src, ∃ qt, trim arch (applyDefaults q) = some qt ∧
      ∀ m, m ≤ src.length - 7 → ∃ s, loopStateAt arch q dst src m = some s ∧
        ∀ k, s.table k = 0 ∨ s.table k < qt.history.length + m) := by
  have hT := reachable_tableOK hq
  have hw : WellFormed arch q :=
    ⟨by omega, h2, by omega,
      lt_of_le_of_lt h4 (by cases arch <;> simp only [intBits] <;> norm_num)⟩
  constructor
  · intro chunks
    obtain ⟨q1, out, h⟩ := findMatchesAll_returns arch chunks q dst hT hw
    refine ⟨q1, out, h, fun k => ?_⟩
    have hT1 := findMatchesAll_tableOK arch chunks q dst q1 out hT h
    by_cases hk : q1.table k = 0
    · exact Or.inl hk
    · exact Or.inr (hT1 k hk)
  · intro src
    obtain ⟨⟨qt, ht⟩, _⟩ := wellFormed_no_panic hw
    refine ⟨qt, ht, fun m hm => ?_⟩
    obtain ⟨s, hs⟩ := loopState_exists arch q hT hw dst src m hm
    obtain ⟨hinv, _⟩ := loopState_inv arch q hT dst src ht m hm hs
    refine ⟨s, hs, fun k => ?_⟩
    by_cases hk : s.table k = 0
    · exact Or.inl hk
    · have := hinv.table k hk
      exact Or.inr (by omega)

/-- C15 at a concrete input: `MaxDistance = 8`, two chunks, so that the second call trims. -/
theorem bounds_safety_witness :
    ∃ q1 out, FindMatchesAll .amd64 (M4.fresh 8 4 6).Reset [] [zeroAbcd6, abcd3] = some (q1, out) ∧
      ∀ k, q1.table k = 0 ∨ q1.table k < q1.history.length :=
  (bounds_safety .amd64 (M4.fresh 8 4 6).Reset (Reachable.reset _) (by simp [M4.fresh, M4.Reset])
    (by simp [M4.fresh, M4.Reset, intBits]) (by simp [M4.fresh, M4.Reset])
    (by simp [M4.fresh, M4.Reset]) []).1 [zeroAbcd6, abcd3]

/-- C15 as stated fails: `MaxDistance = 2^62`, `MinLength = 4`, `HashLen = 6` satisfies
`MaxDistance ≥ 1`, `MinLength ≥ 1`, `1 ≤ HashLen ≤ 8`, but on amd64 `MaxDistance*2` wraps to
a negative number, the trim is entered with a negative `delta`, and the slice expression
`q.history[delta:]` is out of range: the first call panics. -/
theorem maxDistance_overflow_panics :
    (1 : Int) ≤ 4611686018427387904 ∧
      (M4.FindMatches .amd64 (M4.fresh 4611686018427387904 4 6) [] abcd3).map Prod.snd = none ∧
      (trim .amd64 (applyDefaults (M4.fresh 4611686018427387904 4 6))).map M4.history = none := by
  decide

/-! ## C19: the pending window -/

/-- C19. In a call from any state reachable since a `Reset`, at the start of every
iteration of the loop: `matches[2]` is empty; `matches[0]` and `matches[1]` are each
either the zero value or occupied, that is `0 ≤ Match < Start`, `End - Start ≥ 4` and
`End ≤ len(src)`; when both are occupied `matches[0]` is strictly longer; and every match
the iteration is about to push is occupied.  An occupied match is never the zero value.
With a configuration in range every iteration is reached. -/
theorem pending_window (arch : GOARCH) (q : M4) (hq : Reachable arch q) (dst : List Match)
    (src : List UInt8) (q1 : M4) (ht : trim arch (applyDefaults q) = some q1) (m : Nat)
    (hm : m ≤ src.length - 7) :
    (∀ s, loopStateAt arch q dst src m = some s →
      s.m2 = absoluteMatch.zero ∧
      (s.m0 = absoluteMatch.zero ∨ Occupied (q1.history ++ src).length s.m0) ∧
      (s.m1 = absoluteMatch.zero ∨ Occupied (q1.history ++ src).length s.m1) ∧
      (s.m0 ≠ absoluteMatch.zero → s.m1 ≠ absoluteMatch.zero →
        s.m1.End - s.m1.Start < s.m0.End - s.m0.Start) ∧
      (m < src.length - 7 → ∀ hx new, hashIndex arch q1.HashLen (q1.history ++ src)
          (q1.history.length + m) = some hx →
        findCandidate arch q1.MaxDistance (q1.history ++ src)
          { flush q1.MinLength s (q1.history.length + m) with
            table := fun k => if k = hx then ((q1.history.length : Int) + m).toNat % 2 ^ 32
              else (flush q1.MinLength s (q1.history.length + m)).table k }
          (q1.history.length + m) ((flush q1.MinLength s (q1.history.length + m)).table hx : Int)
          = some (some new) →
        Occupied (q1.history ++ src).length new)) ∧
    (∀ x, Occupied (q1.history ++ src).length x → x ≠ absoluteMatch.zero) ∧
    (WellFormed arch q → ∃ s, loopStateAt arch q dst src m = some s) := by
  have hT := reachable_tableOK hq
  refine ⟨fun s hs => ?_, occupied_ne_zero _, fun hw => loopState_exists arch q hT hw dst src m hm⟩
  obtain ⟨hinv, hl⟩ := loopState_inv arch q hT dst src ht m hm hs
  refine ⟨hinv.m2, pend_occupied hinv.m0, pend_occupied hinv.m1, hl, ?_⟩
  intro hlt hx new _ hfc
  have hf := flush_inv hinv
  obtain ⟨r, hr, hspec⟩ := findCandidate_spec arch (q1.history ++ src) q1.MaxDistance
    { flush q1.MinLength s (q1.history.length + m) with
      table := fun k => if k = hx then ((q1.history.length : Int) + m).toNat % 2 ^ 32
        else (flush q1.MinLength s (q1.history.length + m)).table k }
    (q1.history.length + m) ((flush q1.MinLength s (q1.history.length + m)).table hx : Int)
    hf.ne_nonneg hf.ne_le (by rw [List.length_append]; push_cast; omega) (by omega)
    (fun hcz => hf.table hx (by simpa using hcz))
  rw [hfc, Option.some.injEq] at hr
  obtain ⟨hs1, _, hl1, _⟩ := hspec new hr.symm
  exact ⟨hs1.match_nonneg, hs1.match_lt, by omega, hs1.end_le⟩

/-- C19 at a concrete input: iteration 17 of the call on `zeroAbcd6`, new `M4`, amd64. -/
theorem pending_window_witness :
    ∃ s, loopStateAt .amd64 (M4.fresh 0 0 0).Reset [] zeroAbcd6 17 = some s ∧
      s.m2 = absoluteMatch.zero ∧
      (s.m0 ≠ absoluteMatch.zero → s.m1 ≠ absoluteMatch.zero →
        s.m1.End - s.m1.Start < s.m0.End - s.m0.Start) := by
  have h := pending_window .amd64 (M4.fresh 0 0 0).Reset (Reachable.reset _) [] zeroAbcd6
    (applyDefaults (M4.fresh 0 0 0).Reset) rfl 17 (by decide)
  obtain ⟨s, hs⟩ := h.2.2 (by simp [WellFormed, M4.fresh, M4.Reset, intBits])
  obtain ⟨h2, _, _, hl, _⟩ := h.1 s hs
  exact ⟨s, hs, h2, hl⟩

/-! ## The table index -/

theorem leValue_mod : ∀ (l : List UInt8) (k : Nat), leValue l % 256 ^ k = leValue (l.take k)
  | _, 0 => by simp [leValue, Nat.mod_one]
  | [], k + 1 => by simp [leValue]
  | b :: bs, k + 1 => by
    have hb := UInt8.toNat_lt b
    have ih := leValue_mod bs k
    have hpos : 0 < 256 ^ k := by positivity
    have hr := Nat.mod_lt (leValue bs) hpos
    have hX := Nat.div_add_mod (leValue bs) (256 ^ k)
    simp only [List.take_succ_cons, leValue, ← ih]
    have e : b.toNat + 256 * leValue bs
        = (b.toNat + 256 * (leValue bs % 256 ^ k)) + (256 ^ (k + 1)) * (leValue bs / 256 ^ k) := by
      rw [pow_succ]
      nlinarith [hX]
    rw [e, Nat.add_mul_mod_self_left, Nat.mod_eq_of_lt]
    rw [pow_succ]
    omega

theorem hashMask_in_range (arch : GOARCH) (hl : Int) (h1 : 1 ≤ hl) (h8 : hl ≤ 8) :
    hashMask arch hl = some (2 ^ (8 * hl.toNat) - 1) := by
  have hw : wrapInt arch (8 * hl) = 8 * hl := by
    apply wrapInt_eq
    · omega
    · cases arch <;> simp only [intBits] <;> norm_num <;> omega
  simp only [hashMask, hw]
  rw [if_neg (by omega)]
  interval_cases hl <;> rfl

/-- The table index at position `p` is the multiplicative hash of the first `HashLen`
bytes at `p`, and is below `2^17`. -/
theorem hashIndex_formula (arch : GOARCH) (hl : Int) (h1 : 1 ≤ hl) (h8 : hl ≤ 8)
    (src : List UInt8) (p : Nat) (hp : p + 8 ≤ src.length) :
    hashIndex arch hl src (p : Int)
        = some ((leValue (goSlice src p (p + hl.toNat)) * hashMul64 % 2 ^ 64) >>> 47) ∧
      (leValue (goSlice src p (p + hl.toNat)) * hashMul64 % 2 ^ 64) >>> 47 < 2 ^ 17 := by
  have hlt : (leValue (goSlice src p (p + hl.toNat)) * hashMul64 % 2 ^ 64) >>> 47 < 2 ^ 17 := by
    rw [Nat.shiftRight_eq_div_pow]
    have := Nat.mod_lt (leValue (goSlice src p (p + hl.toNat)) * hashMul64)
      (show 0 < 2 ^ 64 by norm_num)
    omega
  refine ⟨?_, hlt⟩
  have hwin : leValue ((src.drop p).take 8) % 2 ^ (8 * hl.toNat)
      = leValue (goSlice src p (p + hl.toNat)) := by
    rw [pow_mul, show (2 : Nat) ^ 8 = 256 by norm_num, leValue_mod, List.take_take, goSlice,
      show min hl.toNat 8 = hl.toNat by omega, show p + hl.toNat - p = hl.toNat by omega]
  have hmask : ssapMask = 2 ^ 17 - 1 := by decide
  simp only [hashIndex, uintAt_natCast 8 src p hp, hashMask_in_range arch hl h1 h8,
    Nat.and_pow_two_sub_one_eq_mod, hwin, hmask, show 64 - ssapBits = 47 by decide]
  rw [Nat.mod_eq_of_lt hlt]

/-! ## C20: last write wins -/

theorem lastWrite_init (arch : GOARCH) (hashLen : Int) (src : List UInt8) (i0 : Nat)
    (t0 : Nat → Nat) : LastWrite arch hashLen src i0 i0 t0 t0 :=
  fun _ => Or.inr ⟨fun p h1 h2 => by omega, rfl⟩

theorem lastWrite_step (arch : GOARCH) (hashLen : Int) (src : List UInt8) (i0 i : Nat)
    (t0 t : Nat → Nat) (h : LastWrite arch hashLen src i0 i t0 t) (hi : i0 ≤ i) (hx : Nat)
    (hh : hashIndex arch hashLen src (i : Int) = some hx) :
    LastWrite arch hashLen src i0 (i + 1) t0
      (fun k => if k = hx then (i : Int).toNat % 2 ^ 32 else t k) := by
  intro k
  by_cases hk : k = hx
  · subst hk
    left
    refine ⟨i, hi, by omega, hh, fun p1 _ hp1 _ => by omega, ?_⟩
    simp only [if_true, Int.toNat_natCast]
  · have hne : hashIndex arch hashLen src (i : Int) ≠ some k := by
      rw [hh]
      intro e
      exact hk (Option.some.inj e).symm
    rcases h k with ⟨p, hp0, hp1, hpk, hmax, ht⟩ | ⟨hnone, ht⟩
    · left
      refine ⟨p, hp0, by omega, hpk, fun p1 h1 h2 h3 => ?_, by simp only [if_neg hk]; exact ht⟩
      by_cases hp : p1 = i
      · subst hp
        exact absurd h3 hne
      · exact hmax p1 h1 (by omega) h3
    · right
      refine ⟨fun p h1 h2 => ?_, by simp only [if_neg hk]; exact ht⟩
      by_cases hp : p = i
      · subst hp
        exact hne
      · exact hnone p h1 (by omega)

theorem scan_lastWrite (arch : GOARCH) (q : M4) (src : List UInt8) (i0 : Nat) (t0 : Nat → Nat) :
    ∀ (n i : Nat) (s s1 : Scan), LastWrite arch q.HashLen src i0 i t0 s.table → i0 ≤ i →
      scan arch q src n (i : Int) s = some s1 →
      LastWrite arch q.HashLen src i0 (i + n) t0 s1.table
  | 0, i, s, s1, h, _, hs => by
    simp only [scan, Option.some.injEq] at hs
    rw [← hs]
    exact h
  | n + 1, i, s, s1, h, hi, hs => by
    simp only [scan] at hs
    cases hstep : step arch q src s i with
    | none => rw [hstep] at hs; simp at hs
    | some s2 =>
      rw [hstep] at hs
      simp only at hs
      obtain ⟨hx, hh, htab⟩ := step_table arch q src s s2 i hstep
      have h2 := lastWrite_step arch q.HashLen src i0 i t0 s.table h hi hx hh
      rw [← htab] at h2
      rw [show ((i : Int) + 1) = ((i + 1 : Nat) : Int) by push_cast; rfl] at hs
      have := scan_lastWrite arch q src i0 t0 n (i + 1) s2 s1 h2 (by omega) hs
      rw [show i + (n + 1) = i + 1 + n by omega]
      exact this

/-- The table that a call on a reset `M4` leaves behind. -/
theorem findMatches_reset_table (arch : GOARCH) (q : M4) (hw : WellFormed arch q)
    (src : List UInt8) {r : M4 × List Match}
    (h : M4.FindMatches arch q.Reset [] src = some r) :
    LastWrite arch (applyDefaults q).HashLen src 0 (src.length - 7) (fun _ => 0) r.1.table := by
  have htrim := trim_empty arch (show WellFormed arch q.Reset from hw) rfl
  rw [findMatches_loop, htrim] at h
  simp only [loopStateAt, htrim] at h
  cases hs : scan arch { applyDefaults q.Reset with
      history := (applyDefaults q.Reset).history ++ src }
      ((applyDefaults q.Reset).history ++ src) (src.length - 7)
      (applyDefaults q.Reset).history.length
      ⟨[], (applyDefaults q.Reset).history.length, absoluteMatch.zero, absoluteMatch.zero,
        absoluteMatch.zero, (applyDefaults q.Reset).table⟩ with
  | none => rw [hs] at h; simp at h
  | some s =>
    rw [hs] at h
    simp only [Option.some.injEq] at h
    rw [← h]
    have := scan_lastWrite arch { applyDefaults q.Reset with
      history := (applyDefaults q.Reset).history ++ src } src 0 (fun _ => 0)
      (src.length - 7) 0 _ s (lastWrite_init arch _ src 0 _) (le_refl _) hs
    simpa using this

/-- C20, as the code behaves. After `FindMatches(nil, src)` on a reset `M4` with
`1 ≤ HashLen ≤ 8` (the other fields in range), on every target: the call returns, and every
table slot holds the largest position `p < len(src) - 7` with that index reduced modulo
`2^32` (the slots are `uint32`), which is `p` itself when `len(src) ≤ 2^32 + 7`, or 0 if
no scanned position has that index.  The index of a position is
`((value of the HashLen bytes src[p : p+HashLen]) * hashMul64 mod 2^64) >> 47`, it is below
`2^17`, and the mask is `2^(8*HashLen) - 1`, all ones for `HashLen = 8`. -/
theorem table_last_write (arch : GOARCH) (q : M4) (hw : WellFormed arch q) (h1 : 1 ≤ q.HashLen)
    (h8 : q.HashLen ≤ 8) (src : List UInt8) :
    ∃ q1 out, M4.FindMatches arch q.Reset [] src = some (q1, out) ∧
      (∀ k, (∃ p, p + 7 < src.length ∧ hashIndex arch q.HashLen src (p : Int) = some k ∧
              (∀ p1, p1 + 7 < src.length → hashIndex arch q.HashLen src (p1 : Int) = some k →
                p1 ≤ p) ∧
              q1.table k = p % 2 ^ 32 ∧ (src.length ≤ 2 ^ 32 + 7 → q1.table k = p)) ∨
            ((∀ p, p + 7 < src.length → hashIndex arch q.HashLen src (p : Int) ≠ some k) ∧
              q1.table k = 0)) ∧
      (∀ p, p + 7 < src.length →
        hashIndex arch q.HashLen src (p : Int)
            = some ((leValue (goSlice src p (p + q.HashLen.toNat)) * hashMul64 % 2 ^ 64) >>> 47) ∧
          (leValue (goSlice src p (p + q.HashLen.toNat)) * hashMul64 % 2 ^ 64) >>> 47 < 2 ^ 17) ∧
      hashMask arch q.HashLen = some (2 ^ (8 * q.HashLen.toNat) - 1) ∧
      hashMask arch 8 = some (2 ^ 64 - 1) := by
  obtain ⟨⟨q1, out⟩, hfm⟩ := findMatches_returns arch q.Reset [] src
    (reachable_tableOK (Reachable.reset q : Reachable arch q.Reset)) hw
  have hlw := findMatches_reset_table arch q hw src hfm
  have hhl : (applyDefaults q).HashLen = q.HashLen := by
    simp only [applyDefaults]
    rw [if_neg (by omega)]
  rw [hhl] at hlw
  refine ⟨q1, out, hfm, fun k => ?_, fun p hp => hashIndex_formula arch q.HashLen h1 h8 src p (by omega),
    hashMask_in_range arch q.HashLen h1 h8, hashMask_in_range arch 8 (by norm_num) (by norm_num)⟩
  rcases hlw k with ⟨p, _, hp1, hpk, hmax, ht⟩ | ⟨hnone, ht⟩
  · left
    refine ⟨p, by omega, hpk, fun p1 hp2 h3 => hmax p1 (Nat.zero_le _) (by omega) h3, ht,
      fun hlen => ?_⟩
    rw [ht]
    exact Nat.mod_eq_of_lt (by omega)
  · right
    exact ⟨fun p hp => hnone p (Nat.zero_le _) (by omega), ht⟩

/-- C20 at a concrete input: a new `M4` with `HashLen = 6` on amd64, the input `zeroAbcd6`. -/
theorem table_last_write_witness :
    ∃ q1 out, M4.FindMatches .amd64 (M4.fresh 0 0 6).Reset [] zeroAbcd6 = some (q1, out) ∧
      hashMask .amd64 (M4.fresh 0 0 6).HashLen
        = some (2 ^ (8 * (M4.fresh 0 0 6).HashLen.toNat) - 1) := by
  obtain ⟨q1, out, h, _, _, hm, _⟩ := table_last_write .amd64 (M4.fresh 0 0 6)
    (by simp [WellFormed, M4.fresh, intBits]) (by simp [M4.fresh]) (by simp [M4.fresh]) zeroAbcd6
  exact ⟨q1, out, h, hm⟩

theorem hashIndex_zeros (arch : GOARCH) (n p : Nat) (hp : p + 8 ≤ n) :
    hashIndex arch 6 (List.replicate n 0) (p : Int) = some 0 := by
  have hf := (hashIndex_formula arch 6 (by norm_num) (by norm_num) (List.replicate n 0) p
    (by rw [List.length_replicate]; exact hp)).1
  have hs : goSlice (List.replicate n (0 : UInt8)) p (p + (6 : Int).toNat) = List.replicate 6 0 := by
    simp only [goSlice, List.drop_replicate, List.take_replicate]
    congr 1
    have : (6 : Int).toNat = 6 := rfl
    omega
  rw [hf, hs]
  rfl

/-- C20 as stated fails on a 64-bit target for an input of `2^32 + 8` bytes: all scanned
positions `0 .. 2^32` of `fourGiBZeros` have index 0, the largest is `2^32`, and the slot
holds `uint32(2^32) = 0`, not `2^32`. -/
theorem table_truncates_position :
    ∃ q1 out, M4.FindMatches .amd64 (M4.fresh 0 0 6).Reset [] fourGiBZeros = some (q1, out) ∧
      4294967296 + 7 < fourGiBZeros.length ∧
      hashIndex .amd64 6 fourGiBZeros ((4294967296 : Nat) : Int) = some 0 ∧
      (∀ p1 : Nat, p1 + 7 < fourGiBZeros.length →
        hashIndex .amd64 6 fourGiBZeros (p1 : Int) = some 0 → p1 ≤ 4294967296) ∧
      q1.table 0 = 0 ∧ q1.table 0 ≠ 4294967296 := by
  have hlen : fourGiBZeros.length = 2 ^ 32 + 8 := List.length_replicate _ _
  have hwf : WellFormed .amd64 (M4.fresh 0 0 6) := by simp [WellFormed, M4.fresh, intBits]
  have hz : ∀ p : Nat, p + 8 ≤ 2 ^ 32 + 8 → hashIndex .amd64 6 fourGiBZeros (p : Int) = some 0 :=
    fun p hp => hashIndex_zeros .amd64 (2 ^ 32 + 8) p hp
  obtain ⟨⟨q1, out⟩, hfm⟩ := findMatches_returns .amd64 (M4.fresh 0 0 6).Reset [] fourGiBZeros
    (reachable_tableOK (Reachable.reset _ : Reachable .amd64 (M4.fresh 0 0 6).Reset)) hwf
  have hlw : LastWrite .amd64 6 fourGiBZeros 0 (fourGiBZeros.length - 7) (fun _ => 0) q1.table :=
    findMatches_reset_table .amd64 (M4.fresh 0 0 6) hwf fourGiBZeros hfm
  have ht0 : q1.table 0 = 0 := by
    rcases hlw 0 with ⟨p, _, hp1, _, hmax, ht⟩ | ⟨hnone, _⟩
    · have h1 := hmax 4294967296 (Nat.zero_le _) (by rw [hlen]; norm_num) (hz _ (by norm_num))
      rw [hlen] at hp1
      have hp : p = 4294967296 := by omega
      rw [ht, hp]
      norm_num
    · exact absurd (hz 0 (by norm_num)) (hnone 0 (Nat.zero_le _) (by rw [hlen]; norm_num))
  refine ⟨q1, out, hfm, by rw [hlen]; norm_num, hz _ (by norm_num), fun p1 hp1 _ => ?_, ht0, ?_⟩
  · rw [hlen] at hp1
    omega
  · rw [ht0]
    norm_num

end Matchfinder
